import Mathlib

/-!
# Verification development for `logger/logger.go`

The Go package has three parts, embedded here in the same order:

* the Marker Command helpers `ExecuteCommand`, `MustExecuteCommand`,
  `GetNextLogID` (lines 64-90);
* the session coordinator `StartLogger` with its background finalize
  goroutine and the two one-slot channels `startLoggerToken`,
  `stopLoggerToken` (lines 51-62 and 96-176);
* the request recorder `AlpTrace` / `AlpTraceRegion` (lines 178-244).

Everything outside the package (the bash process, the file system, the
`pprof` runtime, the clock) is an explicit input of the definitions.
-/

namespace Logger

/-! ## Package level variables -/

/-- The three package variables `LoggerBashScript`, `LogFilePath`, `UseTrace`.
They are Go `var`s, so a program may overwrite them before use. -/
structure Config where
  LoggerBashScript : String
  LogFilePath : String
  UseTrace : Bool

/-- The values the source assigns to the package variables (lines 54-57). -/
def defaultConfig : Config :=
  { LoggerBashScript := "/usr/bin/logger.sh"
    LogFilePath := "/tmp/isucon/"
    UseTrace := false }

/-! ## The outside world -/

/-- What `/bin/bash -s` did with one script. `pipeError` is the early
return of line 67-69 (`cmd.StdinPipe` failed); `exited out err` is what
`cmd.CombinedOutput` gave back: the combined stdout and stderr text and the
error, `none` when the process ended with status zero. -/
inductive ProcResult where
  | pipeError (err : String)
  | exited (out : String) (err : Option String)
  deriving DecidableEq, Repr

/-- A file path, kept as the two arguments of `filepath.Join`: the
directory and the base name. -/
abbrev Path := String × String

/-- Outcomes of every operation the finalize goroutine asks of its
surroundings. Files are named by the path handed to `os.Create`. -/
structure World where
  shell : String → ProcResult
  createFails : Path → Bool
  writeFails : Path → Bool
  closeFails : Path → Bool

/-- Observable actions, in program order. -/
inductive Event where
  | exec (script : String)
  | log (text : String)
  | setProfileRates
  | startCPUProfile (name : Path)
  | traceStart (name : Path)
  | stopCPUProfile
  | gc
  | createFile (name : Path)
  | writeProfile (kind : String) (name : Path)
  | closeFile (name : Path)
  | traceStop
  | sendStartToken
  deriving DecidableEq, Repr

/-- How a piece of straight-line code ended. `panicked` is `panic(err)`;
`fatal` is `log.Fatalf`, which prints and then calls `os.Exit(1)`. -/
inductive Exit where
  | returned
  | panicked
  | fatal
  deriving DecidableEq, Repr

/-- Events performed and the way the code ended. -/
abbrev Run := List Event × Exit

/-- Sequential composition: the second part runs only when the first
returned normally. -/
def Run.andThen (a b : Run) : Run :=
  match a.2 with
  | Exit.returned => (a.1 ++ b.1, b.2)
  | e => (a.1, e)

/-! ## Marker Command helpers (lines 64-90) -/

/-- `ExecuteCommand`: the text and the error of the bash run. On a pipe
error the text is empty (line 68). -/
def ExecuteCommand (w : World) (bashscript : String) : String × Option String :=
  match w.shell bashscript with
  | ProcResult.pipeError err => ("", some err)
  | ProcResult.exited out (some err) => (out, some err)
  | ProcResult.exited out none => (out, none)

/-- The text `log.Fatalf("Error while executing %s: %s", bashscript, res)`
prints. -/
def fatalText (bashscript res : String) : String :=
  "Error while executing " ++ bashscript ++ ": " ++ res

/-- `MustExecuteCommand`: `Except.ok res` when the command succeeded;
otherwise the process is ended by `log.Fatalf` and the value is the
text it printed. -/
def MustExecuteCommand (w : World) (bashscript : String) : Except String String :=
  match ExecuteCommand w bashscript with
  | (res, some _) => Except.error (fatalText bashscript res)
  | (res, none) => Except.ok res

/-- `GetNextLogID` (lines 87-90). -/
def GetNextLogID (c : Config) (w : World) : Except String String :=
  match MustExecuteCommand w (c.LoggerBashScript ++ " nextid") with
  | Except.ok res => Except.ok res
  | Except.error msg => Except.error msg

/-! ## The finalize goroutine (lines 133-175) -/

/-- Which case of the `select` at lines 135-139 fired. -/
inductive Wake where
  | stopRequest
  | elapsed
  deriving DecidableEq, Repr

/-- Line 148. -/
def profile_list : List String :=
  ["goroutine", "heap", "threadcreate", "block", "mutex"]

/-- The path `filepath.Join(LogFilePath, name)`. -/
def artifact (c : Config) (name : String) : Path :=
  (c.LogFilePath, name)

/-- Lines 141-145: stop the CPU profile and close `cpu.prof`. -/
def closeCpu (c : Config) (w : World) : Run :=
  let f := artifact c "cpu.prof"
  ([Event.stopCPUProfile, Event.closeFile f],
    if w.closeFails f then Exit.panicked else Exit.returned)

/-- One round of the loop at lines 149-156 for the profile `s`. The results
of `WriteTo` and of `file.Close` are dropped by the source. -/
def dumpOne (c : Config) (w : World) (s : String) : Run :=
  let file := artifact c (s ++ ".prof")
  if w.createFails file then
    ([Event.createFile file], Exit.panicked)
  else
    ([Event.createFile file, Event.writeProfile s file, Event.closeFile file],
      Exit.returned)

/-- The loop at lines 149-156 over the remaining profile names. -/
def dumpProfiles (c : Config) (w : World) : List String → Run
  | [] => ([], Exit.returned)
  | s :: rest => Run.andThen (dumpOne c w s) (dumpProfiles c w rest)

/-- Lines 157-162. -/
def closeTrace (c : Config) (w : World) : Run :=
  if c.UseTrace then
    let f := artifact c "trace.prof"
    ([Event.traceStop, Event.closeFile f],
      if w.closeFails f then Exit.panicked else Exit.returned)
  else
    ([], Exit.returned)

/-- The command line of the notification for each verb. -/
def markerLine (c : Config) (verb id : String) : String :=
  c.LoggerBashScript ++ " " ++ verb ++ " " ++ id

/-- Lines 164-172. -/
def notify (c : Config) (w : World) (id : String) (terminated : Bool) : Run :=
  if terminated then
    match ExecuteCommand w (markerLine c "term" id) with
    | (res, some err) =>
        ([Event.exec (markerLine c "term" id), Event.log res, Event.log err], Exit.returned)
    | (res, none) =>
        ([Event.exec (markerLine c "term" id), Event.log res], Exit.returned)
  else
    match MustExecuteCommand w (markerLine c "stop" id) with
    | Except.ok res =>
        ([Event.exec (markerLine c "stop" id), Event.log res], Exit.returned)
    | Except.error msg =>
        ([Event.exec (markerLine c "stop" id), Event.log msg], Exit.fatal)

/-- Lines 173-174. -/
def release : Run :=
  ([Event.log "Stopped logger", Event.sendStartToken], Exit.returned)

/-- The goroutine from the end of its `select` up to, not including, the
release of the token (lines 134-172). -/
def finalizeBody (c : Config) (w : World) (id : String) (wake : Wake) : Run :=
  let terminated := decide (wake = Wake.stopRequest)
  Run.andThen (closeCpu c w) <|
  Run.andThen ([Event.gc], Exit.returned) <|
  Run.andThen (dumpProfiles c w profile_list) <|
  Run.andThen (closeTrace c w) <|
  notify c w id terminated

/-- The body of the goroutine after its `select` has fired (lines 134-174). -/
def finalize (c : Config) (w : World) (id : String) (wake : Wake) : Run :=
  Run.andThen (finalizeBody c w id wake) release

/-! ## `StartLogger` before the goroutine (lines 112-130) -/

/-- Line 113. -/
def startCommand (c : Config) (w : World) (id : String) : Run :=
  match MustExecuteCommand w (markerLine c "start" id) with
  | Except.ok res =>
      ([Event.exec (markerLine c "start" id), Event.log res], Exit.returned)
  | Except.error msg =>
      ([Event.exec (markerLine c "start" id), Event.log msg], Exit.fatal)

/-- Lines 114-120. -/
def openCpu (c : Config) (w : World) : Run :=
  let f := artifact c "cpu.prof"
  if w.createFails f then
    ([Event.createFile f], Exit.panicked)
  else
    ([Event.createFile f, Event.setProfileRates, Event.startCPUProfile f], Exit.returned)

/-- Lines 121-128. -/
def openTrace (c : Config) (w : World) : Run :=
  if c.UseTrace then
    let f := artifact c "trace.prof"
    if w.createFails f then
      ([Event.createFile f], Exit.panicked)
    else
      ([Event.createFile f, Event.traceStart f], Exit.returned)
  else
    ([], Exit.returned)

/-- Lines 112-130: what `StartLogger` does between the drain and the `go`
statement. -/
def startBody (c : Config) (w : World) (id : String) : Run :=
  Run.andThen (startCommand c w id) <|
  Run.andThen (openCpu c w) <|
  Run.andThen (openTrace c w) <|
  ([Event.log "Started logger"], Exit.returned)

/-! ## Interleaving model of the two channels (lines 51-62, 96-176)

Both channels are made with capacity one, and only ever carry `true`, so a
channel is described by the number of values it buffers. Every
`StartLogger` call is a record with a program counter; one action is one
atomic channel operation, or one stretch of code that touches no channel. -/

/-- Capacity of `startLoggerToken` and of `stopLoggerToken` (lines 51-52). -/
def chanCap : Nat := 1

/-- Where a `StartLogger` call, or the goroutine it spawned, stands. -/
inductive Pc where
  /-- In the loop `L`, lines 98-105. -/
  | acquiring
  /-- Left the loop through `<-startLoggerToken`; the select of line 107 is next. -/
  | acquired
  /-- After the drain; lines 112-130 are next. -/
  | starting
  /-- The goroutine is at its select, lines 135-139. -/
  | waiting
  /-- The select fired; lines 141-172 are next. -/
  | finalizing (wake : Wake)
  /-- At line 174, about to send on `startLoggerToken`. -/
  | releasing (wake : Wake)
  /-- The goroutine returned. -/
  | done
  /-- `StartLogger` itself panicked (lines 116, 125) and unwound. -/
  | panicked
  deriving DecidableEq, Repr

/-- One `StartLogger` call. -/
structure Call where
  id : String
  pc : Pc
  deriving DecidableEq, Repr

/-- State of the process. `exited` is set once the process has ended. -/
structure Sys where
  startLoggerToken : Nat
  stopLoggerToken : Nat
  calls : List Call
  exited : Bool
  events : List Event
  deriving DecidableEq, Repr

/-- State after `init` (lines 59-62): the token is in `startLoggerToken`. -/
def Sys.init : Sys :=
  { startLoggerToken := 1, stopLoggerToken := 0, calls := [], exited := false, events := [] }

/-- One atomic step. The index names the call that moves. -/
inductive Action where
  /-- A new `StartLogger(id, _)` call enters the loop. -/
  | call (id : String)
  /-- Line 101: `case <-startLoggerToken`. -/
  | takeToken (i : Nat)
  /-- Line 103: `case stopLoggerToken <- true`. -/
  | postStop (i : Nat)
  /-- Lines 107-110. -/
  | drain (i : Nat)
  /-- Lines 112-133, in the world `w`; `recovered` tells whether the caller
  recovers a panic of `StartLogger`. -/
  | start (i : Nat) (w : World) (recovered : Bool)
  /-- Line 136: `case <-stopLoggerToken`. -/
  | wakeStop (i : Nat)
  /-- Line 138: `case <-time.After(...)`. -/
  | wakeTimer (i : Nat)
  /-- Lines 141-173, in the world `w`. -/
  | finish (i : Nat) (w : World)
  /-- Line 174: `startLoggerToken <- true`. -/
  | release (i : Nat)

/-- Program counter of call `i`, if that call exists. -/
def Sys.pcOf (s : Sys) (i : Nat) : Option Pc :=
  (s.calls[i]?).map Call.pc

/-- Move call `i` to `pc`. -/
def Sys.setPc (s : Sys) (i : Nat) (pc : Pc) : Sys :=
  { s with calls := s.calls.modify (fun k => { k with pc := pc }) i }

/-- The id argument of call `i`. -/
def Sys.idOf (s : Sys) (i : Nat) : String :=
  ((s.calls[i]?).map Call.id).getD ""

/-- The step function: `none` when the action is not enabled. A receive
needs a buffered value, a send needs room, and nothing moves once the
process has exited. -/
def step (c : Config) (s : Sys) : Action → Option Sys
  | Action.call id =>
      if s.exited then none
      else some { s with calls := s.calls ++ [{ id := id, pc := Pc.acquiring }] }
  | Action.takeToken i =>
      if s.exited = false ∧ s.pcOf i = some Pc.acquiring ∧ 0 < s.startLoggerToken then
        some { s.setPc i Pc.acquired with startLoggerToken := s.startLoggerToken - 1 }
      else none
  | Action.postStop i =>
      if s.exited = false ∧ s.pcOf i = some Pc.acquiring ∧ s.stopLoggerToken < chanCap then
        some { s with stopLoggerToken := s.stopLoggerToken + 1 }
      else none
  | Action.drain i =>
      if s.exited = false ∧ s.pcOf i = some Pc.acquired then
        some { s.setPc i Pc.starting with
                stopLoggerToken := if 0 < s.stopLoggerToken then s.stopLoggerToken - 1 else 0 }
      else none
  | Action.start i w recovered =>
      if s.exited = false ∧ s.pcOf i = some Pc.starting then
        match startBody c w (s.idOf i) with
        | (ev, Exit.returned) => some { s.setPc i Pc.waiting with events := s.events ++ ev }
        | (ev, Exit.panicked) =>
            some { s.setPc i Pc.panicked with events := s.events ++ ev, exited := !recovered }
        | (ev, Exit.fatal) => some { s with events := s.events ++ ev, exited := true }
      else none
  | Action.wakeStop i =>
      if s.exited = false ∧ s.pcOf i = some Pc.waiting ∧ 0 < s.stopLoggerToken then
        some { s.setPc i (Pc.finalizing Wake.stopRequest) with
                stopLoggerToken := s.stopLoggerToken - 1 }
      else none
  | Action.wakeTimer i =>
      if s.exited = false ∧ s.pcOf i = some Pc.waiting then
        some (s.setPc i (Pc.finalizing Wake.elapsed))
      else none
  | Action.finish i w =>
      match s.exited, s.pcOf i with
      | false, some (Pc.finalizing wake) =>
          match finalizeBody c w (s.idOf i) wake with
          | (ev, Exit.returned) =>
              some { s.setPc i (Pc.releasing wake) with
                      events := s.events ++ ev ++ [Event.log "Stopped logger"] }
          | (ev, _) => some { s with events := s.events ++ ev, exited := true }
      | _, _ => none
  | Action.release i =>
      match s.exited, s.pcOf i with
      | false, some (Pc.releasing _) =>
          if s.startLoggerToken < chanCap then
            some { s.setPc i Pc.done with
                    startLoggerToken := s.startLoggerToken + 1,
                    events := s.events ++ [Event.sendStartToken] }
          else none
      | _, _ => none

/-- Run a schedule from a state; `none` when some action was not enabled. -/
def run (c : Config) (s : Sys) : List Action → Option Sys
  | [] => some s
  | a :: rest => (step c s a).bind (fun s1 => run c s1 rest)

/-- The states the process can be in. -/
def Reachable (c : Config) (s : Sys) : Prop :=
  ∃ acts, run c Sys.init acts = some s

/-- A call holds the token from the receive at line 101 until the send at
line 174. -/
def Pc.holds : Pc → Bool
  | Pc.acquiring => false
  | Pc.done => false
  | _ => true

/-- Number of calls whose program counter satisfies `p`. -/
def Sys.count (s : Sys) (p : Pc → Bool) : Nat :=
  s.calls.countP (fun k => p k.pc)

/-- Number of calls that took the token and did not put it back. -/
def Sys.holders (s : Sys) : Nat :=
  s.count Pc.holds

/-- A call that may still post a stop request, or has one to drain: it is in
its loop, or between the loop and the select of line 107. -/
def Pc.beforeDrain : Pc → Bool
  | Pc.acquiring => true
  | Pc.acquired => true
  | _ => false

/-! ## The request recorder (lines 178-244)

Go strings are modelled by `String`, one character standing for one unit of
text; the recorder never looks inside `method` or `uri`. -/

/-! ### `time.Time`, `time.Duration` -/

/-- A clock reading: the wall clock, broken down as `Time.Format` sees it
(`offset` is the zone offset in seconds east of UTC), and the monotonic
reading in nanoseconds that `time.Now` attaches. -/
structure Time where
  year : Int
  month : Nat
  day : Nat
  hour : Nat
  minute : Nat
  second : Nat
  nsec : Nat
  offset : Int
  mono : Int
  deriving DecidableEq, Repr

/-- Largest `time.Duration`, `1<<63 - 1` nanoseconds. -/
def maxDuration : Int := 2 ^ 63 - 1

/-- Smallest `time.Duration`, `-1 << 63` nanoseconds. -/
def minDuration : Int := -(2 ^ 63)

/-- `t.Sub(u)` for two readings of `time.Now`: the difference of the
monotonic readings, saturated to the range of `Duration`. -/
def Time.Sub (t u : Time) : Int :=
  let d := t.mono - u.mono
  if d < minDuration then minDuration
  else if maxDuration < d then maxDuration
  else d

/-! ### Decimal rendering -/

/-- `strconv.FormatInt(i, 10)`. -/
def FormatInt (i : Int) : String :=
  if i < 0 then "-" ++ Nat.repr i.natAbs else Nat.repr i.natAbs

/-- The `width` low decimal digits of `n`, most significant first, with
leading zeros. -/
def fixedDigits : Nat → Nat → List Char
  | 0, _ => []
  | width + 1, n => fixedDigits width (n / 10) ++ [Nat.digitChar (n % 10)]

/-- `appendInt(b, x, width)` of package `time` for `x ≥ 0`: decimal digits,
padded with zeros on the left up to `width`. -/
def padInt (x width : Nat) : List Char :=
  let ds := Nat.toDigits 10 x
  List.replicate (width - ds.length) '0' ++ ds

/-- `appendInt(b, x, width)` of package `time`. -/
def appendInt (x : Int) (width : Nat) : List Char :=
  if x < 0 then '-' :: padInt x.natAbs width else padInt x.natAbs width

/-- Drop the trailing zeros of a digit list. -/
def trimZeros (l : List Char) : List Char :=
  (l.reverse.dropWhile (fun c => c == '0')).reverse

/-- `appendNano` of package `time` for the layout element `.999999999`:
nothing when the nanoseconds are zero, else a point and the nine digits
without their trailing zeros. -/
def appendNano (nsec : Nat) : List Char :=
  if nsec = 0 then [] else '.' :: trimZeros (fixedDigits 9 nsec)

/-- The zone part `Z07:00` of the layout. -/
def appendZone (offset : Int) : List Char :=
  if offset = 0 then ['Z']
  else
    let zone := offset.tdiv 60
    (if zone < 0 then '-' else '+') ::
      (padInt (zone.natAbs / 60) 2 ++ ':' :: padInt (zone.natAbs % 60) 2)

/-- `t.Format(time.RFC3339Nano)`, the layout `2006-01-02T15:04:05.999999999Z07:00`. -/
def Time.FormatRFC3339Nano (t : Time) : String :=
  String.mk <|
    appendInt t.year 4 ++ '-' :: padInt t.month 2 ++ '-' :: padInt t.day 2 ++
    'T' :: padInt t.hour 2 ++ ':' :: padInt t.minute 2 ++ ':' :: padInt t.second 2 ++
    appendNano t.nsec ++ appendZone t.offset

/-! ### `float64` arithmetic, exactly

A finite `float64` is a sign and a magnitude `m * 2 ^ e`. Results of
operations are rounded to 53 significant bits, ties to even. Overflow and
subnormal numbers are left out: the magnitudes that `Duration.Seconds`
meets lie between `1e-9` and `1e10`. -/

/-- A finite `float64` value `(-1) ^ neg * m * 2 ^ e`. -/
structure Float64 where
  neg : Bool
  m : Nat
  e : Int
  deriving DecidableEq, Repr

/-- Nearest integer to `a / b`, ties to even. -/
def roundHalfEven (a b : Nat) : Nat :=
  let q := a / b
  let r := a % b
  if 2 * r < b then q
  else if b < 2 * r then q + 1
  else if q % 2 = 0 then q
  else q + 1

/-- Scale `n / d` by powers of two until it lies in `[2^52, 2^53)`. -/
def normalize : Nat → Nat → Nat → Int → Nat × Nat × Int
  | 0, n, d, e => (n, d, e)
  | fuel + 1, n, d, e =>
      if n < 2 ^ 52 * d then normalize fuel (2 * n) d (e - 1)
      else if 2 ^ 53 * d ≤ n then normalize fuel n (2 * d) (e + 1)
      else (n, d, e)

/-- The `float64` nearest to `± n / d`. -/
def Float64.round (neg : Bool) (n d : Nat) : Float64 :=
  if n = 0 then { neg := false, m := 0, e := 0 }
  else
    match normalize 256 n d 0 with
    | (n1, d1, e) => { neg := neg, m := roundHalfEven n1 d1, e := e }

/-- `float64(i)` for an integer. -/
def Float64.ofInt (i : Int) : Float64 :=
  Float64.round (decide (i < 0)) i.natAbs 1

/-- The value as a signed numerator over a power of two: `x = num / 2 ^ k`. -/
def Float64.scaled (x : Float64) (k : Nat) : Int :=
  let mag : Int := x.m * 2 ^ (x.e + k).toNat
  if x.neg then -mag else mag

/-- `x / y` in `float64`, for `y` a positive integer constant. -/
def Float64.divNat (x : Float64) (y : Nat) : Float64 :=
  if 0 ≤ x.e then Float64.round x.neg (x.m * 2 ^ x.e.toNat) y
  else Float64.round x.neg x.m (y * 2 ^ (-x.e).toNat)

/-- `x + y` in `float64`. -/
def Float64.add (x y : Float64) : Float64 :=
  let k : Nat := (max (-x.e) (max (-y.e) 0)).toNat
  let s : Int := x.scaled k + y.scaled k
  Float64.round (decide (s < 0)) s.natAbs (2 ^ k)

/-- `d.Seconds()`: `float64(d / Second) + float64(d % Second) / 1e9`. -/
def Seconds (d : Int) : Float64 :=
  let sec := d.tdiv 1000000000
  let nsec := d.tmod 1000000000
  (Float64.ofInt sec).add ((Float64.ofInt nsec).divNat 1000000000)

/-- `strconv.FormatFloat(x, 'f', 9, 64)`: the exact value of `x` rounded to
nine decimals, ties to even. -/
def FormatFloat9 (x : Float64) : String :=
  let n : Nat :=
    if 0 ≤ x.e then x.m * 2 ^ x.e.toNat * 1000000000
    else roundHalfEven (x.m * 1000000000) (2 ^ (-x.e).toNat)
  String.mk <|
    (if x.neg then ['-'] else []) ++ Nat.toDigits 10 (n / 1000000000) ++
      '.' :: fixedDigits 9 (n % 1000000000)

/-- The magnitude `m * 2 ^ e` as a rational number. -/
def Float64.mag (x : Float64) : ℚ :=
  x.m * (2 : ℚ) ^ x.e

/-! ### `fasttemplate`

The template engine is the package `github.com/valyala/fasttemplate`; its
`Reset` and `ExecuteFunc` are reproduced here. -/

/-- `bytes.Index(s, a)`: where `a` first occurs in `s`. -/
def bytesIndex (a : List Char) : List Char → Option Nat
  | [] => if a.isEmpty then some 0 else none
  | c :: s => if a.isPrefixOf (c :: s) then some 0 else (bytesIndex a s).map (· + 1)

/-- A parsed template: the texts between the tags, and the tag names. -/
structure Template where
  template : String
  texts : List String
  tags : List String
  deriving DecidableEq, Repr

/-- The loop of `Template.Reset`: cut `s` at each start tag and end tag.
`none` is the error `Cannot find end tag`. Every round removes a start tag,
so `fuel` above the length of `s` is never used up. -/
def resetLoop (a b : List Char) :
    Nat → List Char → List String → List String → Option (List String × List String)
  | 0, _, _, _ => none
  | fuel + 1, s, texts, tags =>
      match bytesIndex a s with
      | none => some (texts ++ [String.mk s], tags)
      | some n =>
          let s1 := s.drop (n + a.length)
          match bytesIndex b s1 with
          | none => none
          | some k =>
              resetLoop a b fuel (s1.drop (k + b.length))
                (texts ++ [String.mk (s.take n)]) (tags ++ [String.mk (s1.take k)])

/-- `fasttemplate.New(template, startTag, endTag)`; `none` is its panic. -/
def fasttemplateNew (template startTag endTag : String) : Option Template :=
  if startTag.data.isEmpty || endTag.data.isEmpty then none
  else
    match bytesIndex startTag.data template.data with
    | none => some { template := template, texts := [], tags := [] }
    | some _ =>
        match resetLoop startTag.data endTag.data (template.data.length + 1)
            template.data [] [] with
        | none => none
        | some (texts, tags) => some { template := template, texts := texts, tags := tags }

/-- The loop of `Template.ExecuteFunc` over the remaining texts and tags:
write a text, call `f` with the tag, and write the last text at the end.
`none` is the index panic when the tags run out. -/
def executeLoop {σ : Type} (write : σ → String → σ) (f : σ → String → σ) :
    List String → List String → σ → Option σ
  | [], _, _ => none
  | [t], _, st => some (write st t)
  | t :: t1 :: ts, g :: gs, st => executeLoop write f (t1 :: ts) gs (f (write st t) g)
  | _ :: _ :: _, [], _ => none

/-- `t.ExecuteFunc(w, f)` with the writer and the tag function acting on a
state `σ`. -/
def Template.ExecuteFunc {σ : Type} (t : Template) (write : σ → String → σ)
    (f : σ → String → σ) (st : σ) : Option σ :=
  match t.texts with
  | [] => some (write st t.template)
  | texts => executeLoop write f texts t.tags st

/-! ### `AlpTrace` -/

/-- Line 187. -/
def format : String :=
  "\x7b\"time\":\"$\x7btime\x7d\",\"method\":\"$\x7bmethod\x7d\",\"uri\":\"$\x7buri\x7d\",\"status\":$\x7bstatus\x7d,\"response_time\":$\x7bresponse_time\x7d,\"body_bytes\":$\x7bbody_bytes\x7d\x7d" ++ "\n"

/-- The fields of `AlpTrace` that `Stop` reads; the pool and the log file
are passed to `Stop` as `Surroundings`. -/
structure AlpTrace where
  template : Template
  deriving DecidableEq, Repr

/-- `New` (lines 185-201); `none` is a panic of `fasttemplate.New`. -/
def New : Option AlpTrace :=
  (fasttemplateNew format "$\x7b" "\x7d").map (fun t => { template := t })

/-- Lines 203-206. -/
structure AlpTraceRegion where
  parent : AlpTrace
  start : Time
  deriving DecidableEq, Repr

/-- `AlpTrace.Start` (lines 208-214), `now` being the result of `time.Now()`. -/
def AlpTrace.Start (c : AlpTrace) (now : Time) : AlpTraceRegion :=
  { parent := c, start := now }

/-- What one `Stop` call finds around it: the results of the successive
`time.Now()` calls, the contents of the buffer `pool.Get` hands out, the
contents of the log file, and whether `logfile.Write` fails. -/
structure Surroundings where
  clock : Nat → Time
  pooled : String
  logfile : String
  writeFails : Bool

/-- State while the template runs: the buffer and the number of clock
readings taken so far. -/
structure StopState where
  buf : String
  ticks : Nat
  deriving DecidableEq, Repr

/-- The tag function of lines 221-237. -/
def stopTag (env : Surroundings) (r : AlpTraceRegion) (stop : Time) (method uri : String)
    (status body_bytes : Int) (st : StopState) (tag : String) : StopState :=
  if tag = "time" then
    { buf := st.buf ++ (env.clock st.ticks).FormatRFC3339Nano, ticks := st.ticks + 1 }
  else if tag = "uri" then { st with buf := st.buf ++ uri }
  else if tag = "method" then { st with buf := st.buf ++ method }
  else if tag = "status" then { st with buf := st.buf ++ FormatInt status }
  else if tag = "response_time" then
    { st with buf := st.buf ++ FormatFloat9 (Seconds (stop.Sub r.start)) }
  else if tag = "body_bytes" then { st with buf := st.buf ++ FormatInt body_bytes }
  else st

/-- `buf.Reset()` of `bytes.Buffer`: the buffer is emptied. A buffer fresh
from the pool holds 256 zero bytes (line 197), a reused one the line written
last. -/
def bufferReset (_contents : String) : String :=
  ""

/-- Lines 216-239: the contents of the buffer when `ExecuteFunc` is done;
`none` is a panic. -/
def stopBuffer (env : Surroundings) (r : AlpTraceRegion) (method uri : String)
    (status body_bytes : Int) : Option String :=
  let stop := env.clock 0
  let reset : StopState := { buf := bufferReset env.pooled, ticks := 1 }
  (r.parent.template.ExecuteFunc (fun st text => { st with buf := st.buf ++ text })
      (stopTag env r stop method uri status body_bytes) reset).map StopState.buf

/-- `AlpTraceRegion.Stop` (lines 215-244): the contents of the log file
afterwards, or `none` when it panics. -/
def AlpTraceRegion.Stop (env : Surroundings) (r : AlpTraceRegion) (method uri : String)
    (status body_bytes : Int) : Option String :=
  match stopBuffer env r method uri status body_bytes with
  | none => none
  | some bytes => if env.writeFails then none else some (env.logfile ++ bytes)

/-- The line the recorder is expected to write. -/
def expectedLine (T method uri S R B : String) : String :=
  "\x7b\"time\":\"" ++ T ++ "\",\"method\":\"" ++ method ++ "\",\"uri\":\"" ++ uri ++
    "\",\"status\":" ++ S ++ ",\"response_time\":" ++ R ++ ",\"body_bytes\":" ++ B ++ "\x7d\n"

/-! ## Vocabulary for the statements about the finalize goroutine -/

/-- The command lines handed to `ExecuteCommand`, in order. -/
def execs : List Event → List String
  | [] => []
  | Event.exec script :: rest => script :: execs rest
  | _ :: rest => execs rest

/-- Number of sends on `startLoggerToken`. -/
def releases (l : List Event) : Nat :=
  l.count Event.sendStartToken

/-- The verb that goes with each way the wait can end (lines 164-172). -/
def verbOf : Wake → String
  | Wake.stopRequest => "term"
  | Wake.elapsed => "stop"

/-- None of the panicking steps of lines 141-162 fails: closing `cpu.prof`,
creating each profile file, and closing `trace.prof` when tracing is on. -/
def artifactsOk (c : Config) (w : World) : Bool :=
  !w.closeFails (artifact c "cpu.prof")
    && profile_list.all (fun s => !w.createFails (artifact c (s ++ ".prof")))
    && (!c.UseTrace || !w.closeFails (artifact c "trace.prof"))

/-- The Marker Command run with this line reported an error. -/
def commandFails (w : World) (line : String) : Bool :=
  (ExecuteCommand w line).2.isSome

/-- Lines 141-162, the part of the goroutine before the notification. -/
def artifactsPart (c : Config) (w : World) : Run :=
  Run.andThen (closeCpu c w) <|
  Run.andThen ([Event.gc], Exit.returned) <|
  Run.andThen (dumpProfiles c w profile_list) <|
  closeTrace c w

/-- Events of one complete round of the profile loop for the kind `s`
(lines 150-155). -/
def dumpedEvents (c : Config) (s : String) : List Event :=
  [Event.createFile (artifact c (s ++ ".prof")),
   Event.writeProfile s (artifact c (s ++ ".prof")),
   Event.closeFile (artifact c (s ++ ".prof"))]

/-! ## Concrete worlds -/

/-- Every file operation succeeds and every command prints `out` and exits
with status zero. -/
def World.fine (out : String) : World :=
  { shell := fun _ => ProcResult.exited out none
    createFails := fun _ => false
    writeFails := fun _ => false
    closeFails := fun _ => false }

/-- Closing `cpu.prof` fails; everything else succeeds. -/
def World.cpuCloseFails : World :=
  { World.fine "ok" with closeFails := fun f => f.2 == "cpu.prof" }

/-- Creating `heap.prof` fails; everything else succeeds. -/
def World.heapCreateFails : World :=
  { World.fine "ok" with createFails := fun f => f.2 == "heap.prof" }

/-- Every command prints `boom` and exits with status one; file operations
succeed. -/
def World.commandsFail : World :=
  { World.fine "ok" with
      shell := fun _ => ProcResult.exited "boom" (some "exit status 1") }

/-- Writing a profile fails for every file; everything else succeeds. -/
def World.writesFail : World :=
  { World.fine "ok" with writeFails := fun _ => true }

/-- The invariant of the protocol: the token is either in the channel or
with exactly one call; the stop channel never overflows, and it is empty
whenever no call is before its drain. -/
structure Inv (s : Sys) : Prop where
  token : s.startLoggerToken + s.holders = 1
  stopCap : s.stopLoggerToken ≤ 1
  stopEmpty : s.count Pc.beforeDrain = 0 → s.stopLoggerToken = 0

/-! ## Concrete schedules -/

/-- Two calls: `a` takes the token and starts its session; `b` arrives, posts
a stop request, `a` is woken by it, finalizes and releases; `b` takes the
token. -/
def demoActs : List Action :=
  [Action.call "a", Action.takeToken 0, Action.drain 0,
   Action.start 0 (World.fine "ok") true, Action.call "b", Action.postStop 1,
   Action.wakeStop 0, Action.finish 0 (World.fine "ok"), Action.release 0,
   Action.takeToken 1]

/-- State after `demoActs`. -/
def demoState : Sys :=
  { startLoggerToken := 0
    stopLoggerToken := 0
    calls := [{ id := "a", pc := Pc.done }, { id := "b", pc := Pc.acquired }]
    exited := false
    events :=
      (startBody defaultConfig (World.fine "ok") "a").1 ++
      (finalize defaultConfig (World.fine "ok") "a" Wake.stopRequest).1 }

/-- One call that posts a stop request although the token is free, and then
takes the token. -/
def selfPostActs : List Action :=
  [Action.call "a", Action.postStop 0, Action.takeToken 0]

/-- State after `selfPostActs`: the call holds the token and its own stop
request is still in the channel. -/
def selfPostState : Sys :=
  { startLoggerToken := 0
    stopLoggerToken := 1
    calls := [{ id := "a", pc := Pc.acquired }]
    exited := false
    events := [] }

/-- One call whose session is waiting, and no other call. -/
def aloneActs : List Action :=
  [Action.call "a", Action.takeToken 0, Action.drain 0,
   Action.start 0 (World.fine "ok") true]

/-- State after `aloneActs`. -/
def aloneState : Sys :=
  { startLoggerToken := 0
    stopLoggerToken := 0
    calls := [{ id := "a", pc := Pc.waiting }]
    exited := false
    events := (startBody defaultConfig (World.fine "ok") "a").1 }

/-- State after `selfPostActs` followed by the drain of that call. -/
def selfPostDrained : Sys :=
  { startLoggerToken := 0
    stopLoggerToken := 0
    calls := [{ id := "a", pc := Pc.starting }]
    exited := false
    events := [] }

/-! ## A concrete request -/

/-- The reading taken by `AlpTrace.Start`. -/
def demoStart : Time :=
  { year := 2024, month := 3, day := 9, hour := 7, minute := 5, second := 1,
    nsec := 0, offset := 0, mono := 0 }

/-- Readings taken by `Stop`: the first one 2.5 ms after `demoStart`, each
later one a nanosecond after the one before. -/
def demoClock (n : Nat) : Time :=
  { demoStart with nsec := 2500000 + n, mono := 2500000 + n }

/-- A pooled buffer with old contents, an empty log file, a write that
succeeds. -/
def demoSurroundings : Surroundings :=
  { clock := demoClock, pooled := "stale", logfile := "", writeFails := false }

/-- The value `New` returns. -/
def demoTrace : AlpTrace :=
  { template :=
      { template := format
        texts := ["\x7b\"time\":\"", "\",\"method\":\"", "\",\"uri\":\"", "\",\"status\":",
                  ",\"response_time\":", ",\"body_bytes\":", "\x7d\n"]
        tags := ["time", "method", "uri", "status", "response_time", "body_bytes"] } }

/-- A reading of `time.Now()` in a zone nine hours east of UTC, five seconds
on the monotonic clock. -/
def tokyoStart : Time :=
  { year := 2024, month := 3, day := 9, hour := 16, minute := 5, second := 59,
    nsec := 998000000, offset := 32400, mono := 5000000000 }

/-- Readings taken by `Stop`: the first one 2.5 ms after `tokyoStart`, each
later one a microsecond after the one before. -/
def tokyoClock (n : Nat) : Time :=
  { tokyoStart with
      minute := 6, second := 0, nsec := 500000 + 1000 * n, mono := 5002500000 + 1000 * n }

/-- A pooled buffer that holds the line written last, a log file with one
line, a write that succeeds. -/
def tokyoSurroundings : Surroundings :=
  { clock := tokyoClock, pooled := "old line\n", logfile := "first\n", writeFails := false }

/-! ## JSON texts

The grammar of RFC 8259, as relations between a text and the value it
denotes. The escape `\u` followed by four hexadecimal digits is left out,
which only makes the grammar narrower. -/

/-- A JSON value; a number is kept as its literal. -/
inductive Json where
  | null
  | bool (b : Bool)
  | number (literal : String)
  | string (s : String)
  | array (items : List Json)
  | object (members : List (String × Json))

/-- Characters that may stand unescaped inside a JSON string: anything but
the double quote, the backslash and the control characters below U+0020. -/
def jsonPlain (ch : Char) : Bool :=
  ch != '"' && ch != '\\' && decide (32 ≤ ch.toNat)

/-- A string every character of which may stand unescaped in a JSON string. -/
def JsonPlain (s : String) : Prop :=
  ∀ ch ∈ s.data, jsonPlain ch = true

instance (s : String) : Decidable (JsonPlain s) :=
  inferInstanceAs (Decidable (∀ ch ∈ s.data, jsonPlain ch = true))

/-- JSON whitespace. -/
def IsWs (l : List Char) : Prop :=
  ∀ ch ∈ l, ch = ' ' ∨ ch = '\t' ∨ ch = '\n' ∨ ch = '\r'

/-- `JsonChars raw text`: `raw` is what stands between the quotes of a JSON
string, `text` is the string it denotes. -/
inductive JsonChars : List Char → List Char → Prop where
  | nil : JsonChars [] []
  | plain (ch : Char) (raw text : List Char) :
      jsonPlain ch = true → JsonChars raw text → JsonChars (ch :: raw) (ch :: text)
  | quote (raw text : List Char) :
      JsonChars raw text → JsonChars ('\\' :: '"' :: raw) ('"' :: text)
  | backslash (raw text : List Char) :
      JsonChars raw text → JsonChars ('\\' :: '\\' :: raw) ('\\' :: text)
  | slash (raw text : List Char) :
      JsonChars raw text → JsonChars ('\\' :: '/' :: raw) ('/' :: text)
  | backspace (raw text : List Char) :
      JsonChars raw text → JsonChars ('\\' :: 'b' :: raw) (Char.ofNat 8 :: text)
  | formFeed (raw text : List Char) :
      JsonChars raw text → JsonChars ('\\' :: 'f' :: raw) (Char.ofNat 12 :: text)
  | lineFeed (raw text : List Char) :
      JsonChars raw text → JsonChars ('\\' :: 'n' :: raw) ('\n' :: text)
  | carriageReturn (raw text : List Char) :
      JsonChars raw text → JsonChars ('\\' :: 'r' :: raw) ('\r' :: text)
  | tab (raw text : List Char) :
      JsonChars raw text → JsonChars ('\\' :: 't' :: raw) ('\t' :: text)

/-- One or more decimal digits. -/
def IsDigits (l : List Char) : Prop :=
  l ≠ [] ∧ ∀ ch ∈ l, ch.isDigit = true

/-- The `int` of the number grammar: a single zero, or digits that do not
begin with a zero. -/
def IsJsonInt (l : List Char) : Prop :=
  l = ['0'] ∨ ∃ c cs, l = c :: cs ∧ c.isDigit = true ∧ c ≠ '0' ∧ ∀ ch ∈ cs, ch.isDigit = true

/-- The number grammar: `[ minus ] int [ frac ] [ exp ]`. -/
inductive JsonNumber : List Char → Prop where
  | mk (sign int frac exp : List Char) :
      (sign = [] ∨ sign = ['-']) →
      IsJsonInt int →
      (frac = [] ∨ ∃ ds, frac = '.' :: ds ∧ IsDigits ds) →
      (exp = [] ∨ ∃ e sg ds, exp = e :: (sg ++ ds) ∧ (e = 'e' ∨ e = 'E') ∧
        (sg = [] ∨ sg = ['+'] ∨ sg = ['-']) ∧ IsDigits ds) →
      JsonNumber (sign ++ int ++ frac ++ exp)

mutual
/-- `JsonValue l v`: the text `l`, without whitespace around it, denotes `v`. -/
inductive JsonValue : List Char → Json → Prop where
  | null : JsonValue ['n', 'u', 'l', 'l'] Json.null
  | true : JsonValue ['t', 'r', 'u', 'e'] (Json.bool Bool.true)
  | false : JsonValue ['f', 'a', 'l', 's', 'e'] (Json.bool Bool.false)
  | number (l : List Char) : JsonNumber l → JsonValue l (Json.number (String.mk l))
  | string (raw text : List Char) :
      JsonChars raw text → JsonValue ('"' :: raw ++ ['"']) (Json.string (String.mk text))
  | emptyArray (w : List Char) : IsWs w → JsonValue ('[' :: w ++ [']']) (Json.array [])
  | array (l : List Char) (items : List Json) :
      JsonElements l items → JsonValue ('[' :: l ++ [']']) (Json.array items)
  | emptyObject (w : List Char) : IsWs w → JsonValue ('\x7b' :: w ++ ['\x7d']) (Json.object [])
  | object (l : List Char) (members : List (String × Json)) :
      JsonMembers l members → JsonValue ('\x7b' :: l ++ ['\x7d']) (Json.object members)

/-- The elements of a non-empty array, separated by commas. -/
inductive JsonElements : List Char → List Json → Prop where
  | one (w1 l w2 : List Char) (v : Json) :
      IsWs w1 → JsonValue l v → IsWs w2 → JsonElements (w1 ++ l ++ w2) [v]
  | cons (w1 l w2 rest : List Char) (v : Json) (items : List Json) :
      IsWs w1 → JsonValue l v → IsWs w2 → JsonElements rest items →
      JsonElements (w1 ++ l ++ w2 ++ ',' :: rest) (v :: items)

/-- The members of a non-empty object, separated by commas. -/
inductive JsonMembers : List Char → List (String × Json) → Prop where
  | one (w1 raw name w2 w3 l w4 : List Char) (v : Json) :
      IsWs w1 → JsonChars raw name → IsWs w2 → IsWs w3 → JsonValue l v → IsWs w4 →
      JsonMembers (w1 ++ '"' :: raw ++ '"' :: w2 ++ ':' :: w3 ++ l ++ w4)
        [(String.mk name, v)]
  | cons (w1 raw name w2 w3 l w4 rest : List Char) (v : Json)
      (members : List (String × Json)) :
      IsWs w1 → JsonChars raw name → IsWs w2 → IsWs w3 → JsonValue l v → IsWs w4 →
      JsonMembers rest members →
      JsonMembers (w1 ++ '"' :: raw ++ '"' :: w2 ++ ':' :: w3 ++ l ++ w4 ++ ',' :: rest)
        ((String.mk name, v) :: members)
end

/-- The member list of the line the recorder writes. -/
def lineMembers (T method uri S R B : String) : List (String × Json) :=
  [("time", Json.string T), ("method", Json.string method), ("uri", Json.string uri),
   ("status", Json.number S), ("response_time", Json.number R),
   ("body_bytes", Json.number B)]

/-- The value of the member `name`, if the value is a string. -/
def stringMember (name : String) : List (String × Json) → Option String
  | [] => none
  | (k, Json.string s) :: rest => if k = name then some s else stringMember name rest
  | (k, _) :: rest => if k = name then none else stringMember name rest

/-- A string between double quotes, nothing escaped. -/
def quoted (s : String) : List Char :=
  '"' :: s.data ++ ['"']

/-- One member of a JSON object, without whitespace: the quoted name, a
colon, and the text of the value. -/
def memberText (name : String) (value : List Char) : List Char :=
  '"' :: name.data ++ '"' :: ':' :: value

/-- The line of the recorder without its newline, in the shape of the JSON
grammar. -/
def lineText (T method uri S R B : String) : List Char :=
  '\x7b' ::
    (memberText "time" (quoted T) ++ ',' ::
      (memberText "method" (quoted method) ++ ',' ::
        (memberText "uri" (quoted uri) ++ ',' ::
          (memberText "status" S.data ++ ',' ::
            (memberText "response_time" R.data ++ ',' ::
              memberText "body_bytes" B.data))))) ++ ['\x7d']

/-! ## Infinite executions and fairness -/

/-- The call an action moves; a new call moves none of the existing ones. -/
def Action.caller : Action → Option Nat
  | Action.call _ => none
  | Action.takeToken i => some i
  | Action.postStop i => some i
  | Action.drain i => some i
  | Action.start i _ _ => some i
  | Action.wakeStop i => some i
  | Action.wakeTimer i => some i
  | Action.finish i _ => some i
  | Action.release i => some i

/-- The moves the scheduler owes fairness to: every step of a call or of its
goroutine, except the arrival of a new call and the firing of the timer. -/
inductive Move where
  | takeToken (i : Nat)
  | postStop (i : Nat)
  | drain (i : Nat)
  | start (i : Nat)
  | wakeStop (i : Nat)
  | finish (i : Nat)
  | release (i : Nat)
  deriving DecidableEq, Repr

/-- The move an action makes, if it is one the scheduler owes fairness to. -/
def Action.move : Action → Option Move
  | Action.call _ => none
  | Action.takeToken i => some (Move.takeToken i)
  | Action.postStop i => some (Move.postStop i)
  | Action.drain i => some (Move.drain i)
  | Action.start i _ _ => some (Move.start i)
  | Action.wakeStop i => some (Move.wakeStop i)
  | Action.wakeTimer _ => none
  | Action.finish i _ => some (Move.finish i)
  | Action.release i => some (Move.release i)

/-- One action that makes the move. Whether `start` and `finish` are enabled
does not depend on the world they run in. -/
def Move.toAction : Move → Action
  | Move.takeToken i => Action.takeToken i
  | Move.postStop i => Action.postStop i
  | Move.drain i => Action.drain i
  | Move.start i => Action.start i (World.fine "") true
  | Move.wakeStop i => Action.wakeStop i
  | Move.finish i => Action.finish i (World.fine "")
  | Move.release i => Action.release i

/-- The move can be made in state `s`. -/
def Move.enabled (c : Config) (s : Sys) (mv : Move) : Bool :=
  (step c s mv.toAction).isSome

/-- An infinite execution: the state at every instant and what happens
there; `none` means that nothing moves. -/
structure Execution where
  state : Nat → Sys
  act : Nat → Option Action

/-- The execution starts in a reachable state and follows the step function. -/
def Execution.Valid (c : Config) (e : Execution) : Prop :=
  Reachable c (e.state 0) ∧
  ∀ n, match e.act n with
    | none => e.state (n + 1) = e.state n
    | some a => step c (e.state n) a = some (e.state (n + 1))

/-- The move `mv` is made at instant `n`. -/
def Execution.takes (e : Execution) (n : Nat) (mv : Move) : Prop :=
  ∃ a, e.act n = some a ∧ a.move = some mv

/-- Weak fairness: a move that stays enabled from some instant on is made. -/
def Execution.WeakFair (c : Config) (e : Execution) (mv : Move) : Prop :=
  ∀ n, (∀ m, n ≤ m → mv.enabled c (e.state m) = true) → ∃ m, n ≤ m ∧ e.takes m mv

/-- Strong fairness: a move that is enabled again and again is made. -/
def Execution.StrongFair (c : Config) (e : Execution) (mv : Move) : Prop :=
  ∀ n, (∀ k, n ≤ k → ∃ m, k ≤ m ∧ mv.enabled c (e.state m) = true) →
    ∃ m, n ≤ m ∧ e.takes m mv

/-- A fair scheduler: weak fairness for every move, and strong fairness for
the receive of the token, the case of the `select` of line 100 that competes
with the other calls. Nothing is assumed about the timer. -/
def Execution.Fair (c : Config) (e : Execution) : Prop :=
  (∀ mv, e.WeakFair c mv) ∧ ∀ i, e.StrongFair c (Move.takeToken i)

/-- No finalize step fails: every `finish` action runs in a world in which
lines 141-172 return normally. -/
def Execution.FinalizeOk (c : Config) (e : Execution) : Prop :=
  ∀ n i w wake, e.act n = some (Action.finish i w) →
    (e.state n).pcOf i = some (Pc.finalizing wake) →
    (finalizeBody c w ((e.state n).idOf i) wake).2 = Exit.returned

/-- No start step fails: every `start` action runs in a world in which lines
112-130 return normally. -/
def Execution.StartOk (c : Config) (e : Execution) : Prop :=
  ∀ n i w r, e.act n = some (Action.start i w r) →
    (startBody c w ((e.state n).idOf i)).2 = Exit.returned

/-- A session: the goroutine is waiting, finalizing or about to release. -/
def Pc.session : Pc → Bool
  | Pc.waiting => true
  | Pc.finalizing _ => true
  | Pc.releasing _ => true
  | _ => false

/-- The execution that makes the actions of `acts` from `s0`, one at each
instant, and then stands still. -/
def Execution.ofList (c : Config) (s0 : Sys) (acts : List Action) : Execution :=
  { state := fun n => (run c s0 (acts.take n)).getD s0
    act := fun n => acts[n]? }

/-- Creating `cpu.prof` fails; everything else succeeds. -/
def World.cpuCreateFails : World :=
  { World.fine "ok" with createFails := fun f => f.2 == "cpu.prof" }

/-- A session `s` (call 0) is waiting and the calls `x` (call 1) and `y`
(call 2) are in their loops. -/
def contendedActs : List Action :=
  [Action.call "s", Action.takeToken 0, Action.drain 0,
   Action.start 0 (World.fine "ok") true, Action.call "x", Action.call "y"]

/-- State after `contendedActs`. -/
def contendedState : Sys :=
  { startLoggerToken := 0
    stopLoggerToken := 0
    calls := [{ id := "s", pc := Pc.waiting }, { id := "x", pc := Pc.acquiring },
              { id := "y", pc := Pc.acquiring }]
    exited := false
    events := (startBody defaultConfig (World.fine "ok") "s").1 }

/-- From `contendedState`: `y` stops the session, which finalizes without
failure and releases; `y` takes the token, and its `os.Create` of `cpu.prof`
fails, a panic its caller recovers; `x` posts a stop request. -/
def wedgeActs : List Action :=
  [Action.postStop 2, Action.wakeStop 0, Action.finish 0 (World.fine "ok"), Action.release 0,
   Action.takeToken 2, Action.drain 2, Action.start 2 World.cpuCreateFails true,
   Action.postStop 1]

/-- State after `wedgeActs`: the token is with the panicked call for good. -/
def wedgeState : Sys :=
  { startLoggerToken := 0
    stopLoggerToken := 1
    calls := [{ id := "s", pc := Pc.done }, { id := "x", pc := Pc.acquiring },
              { id := "y", pc := Pc.panicked }]
    exited := false
    events :=
      (startBody defaultConfig (World.fine "ok") "s").1 ++
      (finalize defaultConfig (World.fine "ok") "s" Wake.stopRequest).1 ++
      (startBody defaultConfig World.cpuCreateFails "y").1 }

/-- The execution that follows `wedgeActs` and then stands still. -/
def wedgeExecution : Execution :=
  Execution.ofList defaultConfig contendedState wedgeActs

/-- From `contendedState`: `x` stops the session, which finalizes and
releases; `x` takes the token and starts its own session. -/
def handoverActs : List Action :=
  [Action.postStop 1, Action.wakeStop 0, Action.finish 0 (World.fine "ok"), Action.release 0,
   Action.takeToken 1, Action.drain 1, Action.start 1 (World.fine "ok") true,
   Action.postStop 2, Action.wakeStop 1, Action.finish 1 (World.fine "ok"), Action.release 1,
   Action.takeToken 2, Action.drain 2, Action.start 2 (World.fine "ok") true]

/-- The execution that follows `handoverActs` and then stands still. -/
def handoverExecution : Execution :=
  Execution.ofList defaultConfig contendedState handoverActs

/-- The program counters an action can be made from. -/
def Action.source : Action → Pc → Bool
  | Action.takeToken _, Pc.acquiring => true
  | Action.postStop _, Pc.acquiring => true
  | Action.drain _, Pc.acquired => true
  | Action.start _ _ _, Pc.starting => true
  | Action.wakeStop _, Pc.waiting => true
  | Action.wakeTimer _, Pc.waiting => true
  | Action.finish _ _, Pc.finalizing _ => true
  | Action.release _, Pc.releasing _ => true
  | _, _ => false

/-- The program counters of a call that holds the token and will go on: all
holders but a panicked call. -/
def Pc.live : Pc → Bool
  | Pc.acquired => true
  | Pc.starting => true
  | Pc.waiting => true
  | Pc.finalizing _ => true
  | Pc.releasing _ => true
  | _ => false

/-- The token is in the channel, or with a call that will go on. -/
def Sys.Live (s : Sys) : Prop :=
  0 < s.startLoggerToken ∨ ∃ i p, s.pcOf i = some p ∧ p.live = true

/-- The situation the liveness proof refutes: in a fair execution without
failing steps the call `x` stays in its loop for ever, and from instant `N`
on the token is never in the channel. -/
structure Starved (c : Config) (e : Execution) (x N : Nat) : Prop where
  valid : e.Valid c
  fair : e.Fair c
  finalizeOk : e.FinalizeOk c
  startOk : e.StartOk c
  alive : ∀ n, (e.state n).exited = false
  looping : ∀ n, (e.state n).pcOf x = some Pc.acquiring
  empty : ∀ m, N ≤ m → (e.state m).startLoggerToken = 0

/-- State after `handoverActs`. -/
def handoverState : Sys :=
  { startLoggerToken := 0
    stopLoggerToken := 0
    calls := [{ id := "s", pc := Pc.done }, { id := "x", pc := Pc.done },
              { id := "y", pc := Pc.waiting }]
    exited := false
    events :=
      (startBody defaultConfig (World.fine "ok") "s").1 ++
      (finalize defaultConfig (World.fine "ok") "s" Wake.stopRequest).1 ++
      (startBody defaultConfig (World.fine "ok") "x").1 ++
      (finalize defaultConfig (World.fine "ok") "x" Wake.stopRequest).1 ++
      (startBody defaultConfig (World.fine "ok") "y").1 }

/-- The session of call `i`, waiting in the state `s0`, has gone on to the
state `s` with no other call around: every other call has finished, and the
session is still waiting, or its timer has fired, or it has issued its
`stop` command. The events since `s0` hold no other command. -/
def Undisturbed (c : Config) (s0 s : Sys) (i : Nat) : Prop :=
  s.idOf i = s0.idOf i ∧
  (∀ j p, j ≠ i → s.pcOf j = some p → p = Pc.done) ∧
  ∃ ev, s.events = s0.events ++ ev ∧
    ((s.pcOf i = some Pc.waiting ∧ execs ev = []) ∨
     (s.pcOf i = some (Pc.finalizing Wake.elapsed) ∧
        (execs ev = [] ∨
          (s.exited = true ∧ execs ev = [markerLine c "stop" (s0.idOf i)]))) ∨
     ((s.pcOf i = some (Pc.releasing Wake.elapsed) ∨ s.pcOf i = some Pc.done) ∧
        execs ev = [markerLine c "stop" (s0.idOf i)]))

/-- Call `b` enters its loop, then call `c`; `c` receives the token and
starts its session while `b` is still looping; `b` posts a stop request,
which wakes the session of `c`. No call is made after `c`. -/
def earlierActs : List Action :=
  [Action.call "b", Action.call "c", Action.takeToken 1, Action.drain 1,
   Action.start 1 (World.fine "ok") true, Action.postStop 0, Action.wakeStop 1,
   Action.finish 1 (World.fine "ok")]

/-- The session that waits alone in `aloneState` runs to its end: the timer
fires, the goroutine finalizes and puts the token back. -/
def aloneFinishActs : List Action :=
  [Action.wakeTimer 0, Action.finish 0 (World.fine "ok"), Action.release 0]

/-- State after `aloneActs` followed by `aloneFinishActs`. -/
def aloneDoneState : Sys :=
  { startLoggerToken := 1
    stopLoggerToken := 0
    calls := [{ id := "a", pc := Pc.done }]
    exited := false
    events :=
      (startBody defaultConfig (World.fine "ok") "a").1 ++
      (finalize defaultConfig (World.fine "ok") "a" Wake.elapsed).1 }

/-! ## Safety of the channel protocol -/

theorem countP_modify_pc (p : Pc → Bool) (pc : Pc) :
    ∀ (l : List Call) (i : Nat) (k : Call), l[i]? = some k →
      (l.modify (fun k => { k with pc := pc }) i).countP (fun k => p k.pc)
          + (if p k.pc then 1 else 0)
        = l.countP (fun k => p k.pc) + (if p pc then 1 else 0) := by
  intro l
  induction l with
  | nil => intro i k h; simp at h
  | cons a l ih =>
    intro i k h
    cases i with
    | zero =>
      simp at h
      subst h
      simp only [List.modify_zero_cons, List.countP_cons]
      omega
    | succ i =>
      simp at h
      have := ih i k h
      simp only [List.modify_succ_cons, List.countP_cons]
      omega

theorem pcOf_eq_some {s : Sys} {i : Nat} {pc : Pc} (h : s.pcOf i = some pc) :
    ∃ k, s.calls[i]? = some k ∧ k.pc = pc := by
  unfold Sys.pcOf at h
  cases hk : s.calls[i]? with
  | none => simp [hk] at h
  | some k => exact ⟨k, rfl, by simpa [hk] using h⟩

theorem count_setPc (p : Pc → Bool) (s : Sys) (i : Nat) (pc0 pc : Pc)
    (h : s.pcOf i = some pc0) :
    (s.setPc i pc).count p + (if p pc0 then 1 else 0)
      = s.count p + (if p pc then 1 else 0) := by
  obtain ⟨k, hk, hpc⟩ := pcOf_eq_some h
  have := countP_modify_pc p pc s.calls i k hk
  rw [hpc] at this
  simpa [Sys.count, Sys.setPc] using this

theorem count_setPc_pos (p : Pc → Bool) (s : Sys) (i : Nat) (pc0 pc : Pc)
    (h : s.pcOf i = some pc0) (hp : p pc = true) : 0 < (s.setPc i pc).count p := by
  obtain ⟨k, hk, _⟩ := pcOf_eq_some h
  have hget : (s.setPc i pc).calls[i]? = some { k with pc := pc } := by
    simp [Sys.setPc, hk]
  simp only [Sys.count]
  exact List.countP_pos_iff.mpr ⟨_, List.getElem?_mem hget, by simpa using hp⟩

@[simp] theorem setPc_startLoggerToken (s : Sys) (i : Nat) (pc : Pc) :
    (s.setPc i pc).startLoggerToken = s.startLoggerToken := rfl

@[simp] theorem setPc_stopLoggerToken (s : Sys) (i : Nat) (pc : Pc) :
    (s.setPc i pc).stopLoggerToken = s.stopLoggerToken := rfl

@[simp] theorem setPc_exited (s : Sys) (i : Nat) (pc : Pc) :
    (s.setPc i pc).exited = s.exited := rfl

@[simp] theorem setPc_events (s : Sys) (i : Nat) (pc : Pc) :
    (s.setPc i pc).events = s.events := rfl

theorem inv_init : Inv Sys.init := by
  constructor <;> simp [Sys.init, Sys.holders, Sys.count]

/-- How the three quantities of the invariant change when call `i` moves
from `pc0` to `pc` and the channels are set to `a` and `b`. -/
theorem inv_move (s : Sys) (i : Nat) (pc0 pc : Pc) (a b : Nat) (ex : Bool)
    (ev : List Event) (hI : Inv s) (hpc : s.pcOf i = some pc0)
    (ha : a + (if pc.holds then 1 else 0)
        = s.startLoggerToken + (if pc0.holds then 1 else 0))
    (hb : b ≤ 1)
    (hb0 : pc.beforeDrain = false → (b = 0 ∨ (b = s.stopLoggerToken ∧ pc0.beforeDrain = false))) :
    Inv { s.setPc i pc with
            startLoggerToken := a, stopLoggerToken := b, exited := ex, events := ev } := by
  obtain ⟨ht, _, he⟩ := hI
  have h1 := count_setPc Pc.holds s i pc0 pc hpc
  have h2 := count_setPc Pc.beforeDrain s i pc0 pc hpc
  constructor
  · show a + (s.setPc i pc).count Pc.holds = 1
    simp only [Sys.holders] at ht
    omega
  · exact hb
  · intro h
    have h3 : (s.setPc i pc).count Pc.beforeDrain = 0 := h
    show b = 0
    cases hp : pc.beforeDrain with
    | true =>
      have := count_setPc_pos Pc.beforeDrain s i pc0 pc hpc hp
      omega
    | false =>
      rcases hb0 hp with h0 | ⟨hbs, hp0⟩
      · exact h0
      · rw [hp, hp0] at h2
        simp at h2
        rw [hbs]
        exact he (by omega)

theorem inv_same (s : Sys) (ex : Bool) (ev : List Event) (hI : Inv s) :
    Inv { s with exited := ex, events := ev } :=
  ⟨hI.token, hI.stopCap, hI.stopEmpty⟩

theorem step_inv (c : Config) (s s1 : Sys) (a : Action) (hI : Inv s)
    (hs : step c s a = some s1) : Inv s1 := by
  have hcap := hI.stopCap
  cases a with
  | call id =>
    simp only [step] at hs
    split at hs
    · simp at hs
    · simp only [Option.some.injEq] at hs
      subst hs
      constructor
      · simpa [Sys.holders, Sys.count, Pc.holds] using hI.token
      · exact hI.stopCap
      · intro h
        simp [Sys.count, Pc.beforeDrain] at h
  | takeToken i =>
    simp only [step] at hs
    split at hs
    · rename_i hg
      obtain ⟨_, hpc, hpos⟩ := hg
      simp only [Option.some.injEq] at hs
      subst hs
      exact inv_move s i Pc.acquiring Pc.acquired _ _ _ _ hI hpc
        (by simp [Pc.holds]; omega) hcap (by simp [Pc.beforeDrain])
    · simp at hs
  | postStop i =>
    simp only [step] at hs
    split at hs
    · rename_i hg
      obtain ⟨_, hpc, hlt⟩ := hg
      simp only [Option.some.injEq] at hs
      subst hs
      simp only [chanCap] at hlt
      have h2 := count_setPc Pc.beforeDrain s i _ Pc.acquiring hpc
      obtain ⟨k, hk, hkpc⟩ := pcOf_eq_some hpc
      have hmem : k ∈ s.calls := List.getElem?_mem hk
      have hpos : 0 < s.count Pc.beforeDrain := by
        simp only [Sys.count]
        exact List.countP_pos_iff.mpr ⟨k, hmem, by simp [hkpc, Pc.beforeDrain]⟩
      constructor
      · exact hI.token
      · show s.stopLoggerToken + 1 ≤ 1
        omega
      · intro h
        have h3 : s.count Pc.beforeDrain = 0 := h
        omega
    · simp at hs
  | drain i =>
    simp only [step] at hs
    split at hs
    · rename_i hg
      obtain ⟨_, hpc⟩ := hg
      simp only [Option.some.injEq] at hs
      subst hs
      exact inv_move s i Pc.acquired Pc.starting _ _ _ _ hI hpc
        (by simp [Pc.holds]) (by split <;> omega)
        (by intro _; left; split <;> omega)
    · simp at hs
  | start i w recovered =>
    simp only [step] at hs
    split at hs
    · rename_i hg
      obtain ⟨_, hpc⟩ := hg
      split at hs
      · simp only [Option.some.injEq] at hs
        subst hs
        exact inv_move s i Pc.starting Pc.waiting _ _ _ _ hI hpc
          (by simp [Pc.holds]) hcap (by intro _; right; simp [Pc.beforeDrain])
      · simp only [Option.some.injEq] at hs
        subst hs
        exact inv_move s i Pc.starting Pc.panicked _ _ _ _ hI hpc
          (by simp [Pc.holds]) hcap (by intro _; right; simp [Pc.beforeDrain])
      · simp only [Option.some.injEq] at hs
        subst hs
        exact inv_same s _ _ hI
    · simp at hs
  | wakeStop i =>
    simp only [step] at hs
    split at hs
    · rename_i hg
      obtain ⟨_, hpc, hpos⟩ := hg
      simp only [Option.some.injEq] at hs
      subst hs
      exact inv_move s i Pc.waiting (Pc.finalizing Wake.stopRequest) _ _ _ _ hI hpc
        (by simp [Pc.holds]) (by omega) (by intro _; left; omega)
    · simp at hs
  | wakeTimer i =>
    simp only [step] at hs
    split at hs
    · rename_i hg
      obtain ⟨_, hpc⟩ := hg
      simp only [Option.some.injEq] at hs
      subst hs
      exact inv_move s i Pc.waiting (Pc.finalizing Wake.elapsed) _ _ _ _ hI hpc
        (by simp [Pc.holds]) hcap (by intro _; right; simp [Pc.beforeDrain])
    · simp at hs
  | finish i w =>
    simp only [step] at hs
    split at hs
    · rename_i wake hex hpc
      split at hs
      · simp only [Option.some.injEq] at hs
        subst hs
        exact inv_move s i (Pc.finalizing wake) (Pc.releasing wake) _ _ _ _ hI hpc
          (by simp [Pc.holds]) hcap (by intro _; right; simp [Pc.beforeDrain])
      · simp only [Option.some.injEq] at hs
        subst hs
        exact inv_same s _ _ hI
    · simp at hs
  | release i =>
    simp only [step] at hs
    split at hs
    · rename_i wake hex hpc
      split at hs
      · rename_i hlt
        simp only [Option.some.injEq] at hs
        subst hs
        simp only [chanCap] at hlt
        exact inv_move s i (Pc.releasing wake) Pc.done _ _ _ _ hI hpc
          (by simp [Pc.holds]) hcap (by intro _; right; simp [Pc.beforeDrain])
      · simp at hs
    · simp at hs

theorem run_inv (c : Config) : ∀ (acts : List Action) (s s1 : Sys), Inv s →
    run c s acts = some s1 → Inv s1 := by
  intro acts
  induction acts with
  | nil =>
    intro s s1 hI h
    simp only [run, Option.some.injEq] at h
    exact h ▸ hI
  | cons a rest ih =>
    intro s s1 hI h
    simp only [run] at h
    cases hs : step c s a with
    | none => simp [hs] at h
    | some s2 =>
      rw [hs] at h
      exact ih s2 s1 (step_inv c s s2 a hI hs) h

theorem reachable_inv (c : Config) (s : Sys) (h : Reachable c s) : Inv s := by
  obtain ⟨acts, ha⟩ := h
  exact run_inv c acts Sys.init s inv_init ha

/-! ## The finalize goroutine, sequentially -/

theorem execs_append (a b : List Event) : execs (a ++ b) = execs a ++ execs b := by
  induction a with
  | nil => rfl
  | cons e a ih => cases e <;> simp [execs, ih]

theorem releases_append (a b : List Event) :
    releases (a ++ b) = releases a + releases b := by
  simp [releases]

theorem andThen_assoc (a b d : Run) :
    Run.andThen a (Run.andThen b d) = Run.andThen (Run.andThen a b) d := by
  obtain ⟨ea, xa⟩ := a
  obtain ⟨eb, xb⟩ := b
  cases xa <;> cases xb <;> simp [Run.andThen]

theorem andThen_returned (ea : List Event) (b : Run) :
    Run.andThen (ea, Exit.returned) b = (ea ++ b.1, b.2) := rfl

theorem andThen_of_snd_returned (a b : Run) (h : a.2 = Exit.returned) :
    Run.andThen a b = (a.1 ++ b.1, b.2) := by
  obtain ⟨ea, xa⟩ := a
  simp at h
  subst h
  rfl

theorem andThen_of_snd_ne (a b : Run) (h : a.2 ≠ Exit.returned) :
    Run.andThen a b = a := by
  obtain ⟨ea, xa⟩ := a
  cases xa <;> simp_all [Run.andThen]

/-- The profile loop issues no command and no send, and it panics exactly
when a create fails. -/
theorem dumpProfiles_facts (c : Config) (w : World) (l : List String) :
    execs (dumpProfiles c w l).1 = [] ∧ releases (dumpProfiles c w l).1 = 0 ∧
    (dumpProfiles c w l).2 =
      if l.all (fun s => !w.createFails (artifact c (s ++ ".prof")))
      then Exit.returned else Exit.panicked := by
  induction l with
  | nil => simp [dumpProfiles, execs, releases]
  | cons s rest ih =>
    obtain ⟨h1, h2, h3⟩ := ih
    simp only [dumpProfiles, dumpOne]
    cases hc : w.createFails (artifact c (s ++ ".prof")) with
    | true => simp [Run.andThen, execs, releases, hc]
    | false =>
      simp only [Bool.false_eq_true, if_false, andThen_returned, List.all_cons, hc,
        Bool.not_false, Bool.true_and]
      refine ⟨?_, ?_, h3⟩
      · simp [execs, h1]
      · simp only [releases] at h2 ⊢
        simp [h2]

theorem andThen_facts (a b : Run) :
    execs (Run.andThen a b).1
        = execs a.1 ++ (if a.2 = Exit.returned then execs b.1 else []) ∧
    releases (Run.andThen a b).1
        = releases a.1 + (if a.2 = Exit.returned then releases b.1 else 0) ∧
    (Run.andThen a b).2 = (if a.2 = Exit.returned then b.2 else a.2) := by
  obtain ⟨ea, xa⟩ := a
  cases xa <;> simp [Run.andThen, execs_append, releases_append]

theorem closeCpu_facts (c : Config) (w : World) :
    execs (closeCpu c w).1 = [] ∧ releases (closeCpu c w).1 = 0 ∧
    (closeCpu c w).2
      = if w.closeFails (artifact c "cpu.prof") then Exit.panicked else Exit.returned := by
  simp [closeCpu, execs, releases]

theorem closeTrace_facts (c : Config) (w : World) :
    execs (closeTrace c w).1 = [] ∧ releases (closeTrace c w).1 = 0 ∧
    (closeTrace c w).2
      = if c.UseTrace = true ∧ w.closeFails (artifact c "trace.prof") = true
        then Exit.panicked else Exit.returned := by
  unfold closeTrace
  cases c.UseTrace <;> simp [execs, releases]

/-- Lines 141-162 issue no command and no send, and they end normally
exactly when `artifactsOk` holds; otherwise they panic. -/
theorem artifactsPart_facts (c : Config) (w : World) :
    execs (artifactsPart c w).1 = [] ∧ releases (artifactsPart c w).1 = 0 ∧
    (artifactsPart c w).2 = if artifactsOk c w then Exit.returned else Exit.panicked := by
  obtain ⟨d1, d2, d3⟩ := dumpProfiles_facts c w profile_list
  obtain ⟨c1, c2, c3⟩ := closeCpu_facts c w
  obtain ⟨t1, t2, t3⟩ := closeTrace_facts c w
  obtain ⟨x1, x2, x3⟩ := andThen_facts (dumpProfiles c w profile_list) (closeTrace c w)
  obtain ⟨y1, y2, y3⟩ := andThen_facts ([Event.gc], Exit.returned)
    (Run.andThen (dumpProfiles c w profile_list) (closeTrace c w))
  obtain ⟨z1, z2, z3⟩ := andThen_facts (closeCpu c w)
    (Run.andThen ([Event.gc], Exit.returned)
      (Run.andThen (dumpProfiles c w profile_list) (closeTrace c w)))
  rw [d1, t1] at x1
  rw [d2, t2] at x2
  rw [d3, t3] at x3
  rw [x1] at y1
  rw [x2] at y2
  rw [x3] at y3
  rw [c1, y1] at z1
  rw [c2, y2] at z2
  rw [c3, y3] at z3
  unfold artifactsPart
  refine ⟨?_, ?_, ?_⟩
  · rw [z1]; simp [execs]
  · rw [z2]; simp [releases]
  · rw [z3]
    unfold artifactsOk
    cases w.closeFails (artifact c "cpu.prof") <;>
      cases (profile_list.all fun s => !w.createFails (artifact c (s ++ ".prof"))) <;>
      cases c.UseTrace <;>
      cases w.closeFails (artifact c "trace.prof") <;> simp

theorem finalizeBody_eq (c : Config) (w : World) (id : String) (wake : Wake) :
    finalizeBody c w id wake =
      Run.andThen (artifactsPart c w) (notify c w id (decide (wake = Wake.stopRequest))) := by
  simp only [finalizeBody, artifactsPart, andThen_assoc]

/-- What `notify` does, by verb. -/
theorem notify_facts (c : Config) (w : World) (id : String) (wake : Wake) :
    execs (notify c w id (decide (wake = Wake.stopRequest))).1
        = [markerLine c (verbOf wake) id] ∧
    releases (notify c w id (decide (wake = Wake.stopRequest))).1 = 0 ∧
    (notify c w id (decide (wake = Wake.stopRequest))).2 =
      if wake = Wake.elapsed ∧ commandFails w (markerLine c "stop" id) = true
      then Exit.fatal else Exit.returned := by
  cases wake with
  | stopRequest =>
    simp only [notify, decide_True, if_true, verbOf]
    cases h : ExecuteCommand w (markerLine c "term" id) with
    | mk res err => cases err <;> simp [execs, releases]
  | elapsed =>
    simp only [notify, verbOf, MustExecuteCommand, commandFails]
    cases h : ExecuteCommand w (markerLine c "stop" id) with
    | mk res err => cases err <;> simp [execs, releases]

/-- The whole goroutine body: commands issued, sends performed, and exit. -/
theorem finalize_facts (c : Config) (w : World) (id : String) (wake : Wake) :
    execs (finalize c w id wake).1
        = (if artifactsOk c w then [markerLine c (verbOf wake) id] else []) ∧
    releases (finalize c w id wake).1
        = (if artifactsOk c w = true ∧
              ¬ (wake = Wake.elapsed ∧ commandFails w (markerLine c "stop" id) = true)
           then 1 else 0) ∧
    (finalize c w id wake).2
        = (if artifactsOk c w = true then
             (if wake = Wake.elapsed ∧ commandFails w (markerLine c "stop" id) = true
              then Exit.fatal else Exit.returned)
           else Exit.panicked) := by
  obtain ⟨a1, a2, a3⟩ := artifactsPart_facts c w
  obtain ⟨n1, n2, n3⟩ := notify_facts c w id wake
  obtain ⟨x1, x2, x3⟩ := andThen_facts (artifactsPart c w)
    (notify c w id (decide (wake = Wake.stopRequest)))
  obtain ⟨y1, y2, y3⟩ := andThen_facts
    (Run.andThen (artifactsPart c w) (notify c w id (decide (wake = Wake.stopRequest))))
    release
  rw [a1, a3, n1] at x1
  rw [a2, a3, n2] at x2
  rw [a3, n3] at x3
  rw [x1, x3] at y1
  rw [x2, x3] at y2
  rw [x3] at y3
  have r1 : execs release.1 = [] := rfl
  have r2 : releases release.1 = 1 := by decide
  have r3 : release.2 = Exit.returned := rfl
  rw [r1] at y1
  rw [r2] at y2
  rw [r3] at y3
  simp only [finalize, finalizeBody_eq]
  refine ⟨?_, ?_, ?_⟩
  · rw [y1]
    cases artifactsOk c w <;> simp
  · rw [y2]
    cases artifactsOk c w
    · simp
    · by_cases hf : wake = Wake.elapsed ∧ commandFails w (markerLine c "stop" id) = true
      · simp [hf]
      · simp [hf]
  · rw [y3]
    cases artifactsOk c w
    · simp
    · by_cases hf : wake = Wake.elapsed ∧ commandFails w (markerLine c "stop" id) = true
      · simp [hf]
      · simp [hf]

theorem markerLine_term_ne_stop (c : Config) (id : String) :
    markerLine c "term" id ≠ markerLine c "stop" id := by
  intro h
  have := congrArg String.data h
  simp [markerLine, String.data_append] at this

theorem mem_execs_iff (l : List Event) (script : String) :
    script ∈ execs l ↔ Event.exec script ∈ l := by
  induction l with
  | nil => simp [execs]
  | cons e l ih => cases e <;> simp [execs, ih]

theorem andThen_fst (a b : Run) :
    (Run.andThen a b).1 = a.1 ++ (if a.2 = Exit.returned then b.1 else []) := by
  obtain ⟨ea, xa⟩ := a
  cases xa <;> simp [Run.andThen]

/-- The profile loop when every create succeeds. -/
theorem dumpProfiles_ok (c : Config) (w : World) (l : List String)
    (h : ∀ t ∈ l, w.createFails (artifact c (t ++ ".prof")) = false) :
    dumpProfiles c w l = (l.flatMap (dumpedEvents c), Exit.returned) := by
  induction l with
  | nil => rfl
  | cons s rest ih =>
    have hs := h s (List.mem_cons_self _ _)
    have hrest := ih (fun t ht => h t (List.mem_cons_of_mem _ ht))
    have hd : dumpProfiles c w (s :: rest)
        = Run.andThen (dumpOne c w s) (dumpProfiles c w rest) := rfl
    rw [hd, hrest]
    simp [dumpOne, hs, Run.andThen, dumpedEvents]

/-- The profile loop when the create of `s` is the first to fail. -/
theorem dumpProfiles_fail (c : Config) (w : World) (pre : List String) (s : String)
    (post : List String)
    (hpre : ∀ t ∈ pre, w.createFails (artifact c (t ++ ".prof")) = false)
    (hs : w.createFails (artifact c (s ++ ".prof")) = true) :
    dumpProfiles c w (pre ++ s :: post)
      = (pre.flatMap (dumpedEvents c) ++ [Event.createFile (artifact c (s ++ ".prof"))],
          Exit.panicked) := by
  induction pre with
  | nil => simp [dumpProfiles, dumpOne, hs, Run.andThen]
  | cons t rest ih =>
    have ht := hpre t (List.mem_cons_self _ _)
    have hrest := ih (fun u hu => hpre u (List.mem_cons_of_mem _ hu))
    have hd : dumpProfiles c w ((t :: rest) ++ s :: post)
        = Run.andThen (dumpOne c w t) (dumpProfiles c w (rest ++ s :: post)) := rfl
    rw [hd, hrest]
    simp [dumpOne, ht, Run.andThen, dumpedEvents]

/-- Full trace of the goroutine when every panicking step succeeds. -/
theorem finalize_ok_trace (c : Config) (w : World) (id : String) (wake : Wake)
    (hok : artifactsOk c w = true) :
    finalize c w id wake
      = Run.andThen
          ((artifactsPart c w).1 ++ (notify c w id (decide (wake = Wake.stopRequest))).1,
            (notify c w id (decide (wake = Wake.stopRequest))).2)
          release := by
  obtain ⟨_, _, a3⟩ := artifactsPart_facts c w
  rw [hok] at a3
  simp only [if_true] at a3
  simp only [finalize, finalizeBody_eq]
  rw [andThen_of_snd_returned (artifactsPart c w) _ a3]

/-! ## Claims about the finalize goroutine and the Marker Command -/

/-- C2, as amended. The goroutine hands `<script> term <id>` to the shell
exactly when its wait ended with a stop request and no earlier step of
lines 141-162 panicked, and `<script> stop <id>` exactly when the wait ended
with the timer and no earlier step panicked. It never issues both. When no
step panics it issues exactly one command; when a step panics it issues
none. -/
theorem finalize_verb_iff (c : Config) (w : World) (id : String) (wake : Wake) :
    (Event.exec (markerLine c "term" id) ∈ (finalize c w id wake).1
        ↔ wake = Wake.stopRequest ∧ artifactsOk c w = true) ∧
    (Event.exec (markerLine c "stop" id) ∈ (finalize c w id wake).1
        ↔ wake = Wake.elapsed ∧ artifactsOk c w = true) ∧
    ¬ (Event.exec (markerLine c "term" id) ∈ (finalize c w id wake).1 ∧
        Event.exec (markerLine c "stop" id) ∈ (finalize c w id wake).1) ∧
    execs (finalize c w id wake).1
        = (if artifactsOk c w then [markerLine c (verbOf wake) id] else []) := by
  obtain ⟨h1, _, _⟩ := finalize_facts c w id wake
  have hne := markerLine_term_ne_stop c id
  have hterm : (Event.exec (markerLine c "term" id) ∈ (finalize c w id wake).1
      ↔ wake = Wake.stopRequest ∧ artifactsOk c w = true) := by
    rw [← mem_execs_iff, h1]
    cases artifactsOk c w <;> cases wake <;> simp [verbOf, hne]
  have hstop : (Event.exec (markerLine c "stop" id) ∈ (finalize c w id wake).1
      ↔ wake = Wake.elapsed ∧ artifactsOk c w = true) := by
    rw [← mem_execs_iff, h1]
    cases artifactsOk c w <;> cases wake <;> simp [verbOf, Ne.symm hne]
  refine ⟨hterm, hstop, ?_, h1⟩
  rw [hterm, hstop]
  rintro ⟨⟨ha, _⟩, ⟨hb, _⟩⟩
  rw [ha] at hb
  exact absurd hb (by decide)

/-- C2 fails as stated: the wait ended by taking a stop request, closing
`cpu.prof` failed, and the goroutine issued neither `term` nor `stop`. -/
theorem finalize_no_verb_when_cpu_close_fails :
    Event.exec (markerLine defaultConfig "term" "7")
        ∉ (finalize defaultConfig World.cpuCloseFails "7" Wake.stopRequest).1 ∧
    Event.exec (markerLine defaultConfig "stop" "7")
        ∉ (finalize defaultConfig World.cpuCloseFails "7" Wake.stopRequest).1 := by
  decide

/-- C3, as amended. The goroutine never sends on `startLoggerToken` twice.
When closing `cpu.prof`, creating one of the five profile files or closing
the trace file fails, it panics and sends nothing. When those steps succeed
it sends exactly once and returns normally, also when the `term` command
fails. What follows a failing `stop` command is not part of this
statement. -/
theorem finalize_release_count (c : Config) (w : World) (id : String) (wake : Wake) :
    releases (finalize c w id wake).1 ≤ 1 ∧
    (artifactsOk c w = false →
      releases (finalize c w id wake).1 = 0 ∧ (finalize c w id wake).2 = Exit.panicked) ∧
    (artifactsOk c w = true →
      ¬ (wake = Wake.elapsed ∧ commandFails w (markerLine c "stop" id) = true) →
      releases (finalize c w id wake).1 = 1 ∧ (finalize c w id wake).2 = Exit.returned) := by
  obtain ⟨_, h2, h3⟩ := finalize_facts c w id wake
  refine ⟨?_, ?_, ?_⟩
  · rw [h2]; split <;> omega
  · intro hno
    rw [h2, h3]
    simp [hno]
  · intro hok hf
    rw [h2, h3]
    simp [hok, hf]

/-- Witness for C3: closing `cpu.prof` fails (no send, panic); and every
command fails after a stop request, with the files in order (one send). -/
theorem finalize_release_count_witness :
    artifactsOk defaultConfig World.cpuCloseFails = false ∧
    (releases (finalize defaultConfig World.cpuCloseFails "7" Wake.stopRequest).1 = 0 ∧
      (finalize defaultConfig World.cpuCloseFails "7" Wake.stopRequest).2 = Exit.panicked) ∧
    artifactsOk defaultConfig World.commandsFail = true ∧
    commandFails World.commandsFail (markerLine defaultConfig "term" "7") = true ∧
    (releases (finalize defaultConfig World.commandsFail "7" Wake.stopRequest).1 = 1 ∧
      (finalize defaultConfig World.commandsFail "7" Wake.stopRequest).2 = Exit.returned) :=
  ⟨by decide,
    (finalize_release_count defaultConfig World.cpuCloseFails "7" Wake.stopRequest).2.1
      (by decide),
    by decide, by decide,
    (finalize_release_count defaultConfig World.commandsFail "7" Wake.stopRequest).2.2
      (by decide) (by decide)⟩

/-- C3 fails as stated: creating `heap.prof` fails, the goroutine panics and
the token is not put back. -/
theorem finalize_no_release_when_create_fails :
    releases (finalize defaultConfig World.heapCreateFails "7" Wake.elapsed).1 = 0 ∧
    (finalize defaultConfig World.heapCreateFails "7" Wake.elapsed).2 = Exit.panicked := by
  decide

/-- What the goroutine does when its command fails, once the artifacts are
written. A failing `term` command is logged (its output, then its error)
and the goroutine goes on to log `Stopped logger` and to put the token
back. A failing `stop` command is logged through `log.Fatalf`, which ends the
process: nothing follows. -/
theorem finalize_command_failure (c : Config) (w : World) (id : String)
    (hok : artifactsOk c w = true) :
    (∀ err, (ExecuteCommand w (markerLine c "term" id)).2 = some err →
      finalize c w id Wake.stopRequest
        = ((artifactsPart c w).1 ++
            [Event.exec (markerLine c "term" id),
             Event.log (ExecuteCommand w (markerLine c "term" id)).1,
             Event.log err,
             Event.log "Stopped logger",
             Event.sendStartToken],
           Exit.returned)) ∧
    (commandFails w (markerLine c "stop" id) = true →
      finalize c w id Wake.elapsed
        = ((artifactsPart c w).1 ++
            [Event.exec (markerLine c "stop" id),
             Event.log (fatalText (markerLine c "stop" id)
               (ExecuteCommand w (markerLine c "stop" id)).1)],
           Exit.fatal)) := by
  constructor
  · intro err herr
    rw [finalize_ok_trace c w id _ hok]
    cases hx : ExecuteCommand w (markerLine c "term" id) with
    | mk res e =>
      rw [hx] at herr
      simp only at herr
      subst herr
      simp [notify, hx, Run.andThen, release]
  · intro hf
    rw [finalize_ok_trace c w id _ hok]
    cases hx : ExecuteCommand w (markerLine c "stop" id) with
    | mk res e =>
      cases e with
      | none => simp [commandFails, hx] at hf
      | some err => simp [notify, MustExecuteCommand, hx, Run.andThen]

/-- C8, at the failing input. The wait of session `7` ended with the timer,
every file operation succeeds and every command exits with status one. The
`stop` command is issued, its failure goes to `log.Fatalf` (lines 171, 83)
and the process ends there: `Stopped logger` is not logged and nothing is
sent on `startLoggerToken`. In the same world after a stop request, the
branch of lines 165-169 logs the failure of `term`, logs `Stopped logger`,
sends the token and returns. -/
theorem finalize_stop_failure_is_fatal :
    artifactsOk defaultConfig World.commandsFail = true ∧
    commandFails World.commandsFail (markerLine defaultConfig "stop" "7") = true ∧
    finalize defaultConfig World.commandsFail "7" Wake.elapsed
        = ((artifactsPart defaultConfig World.commandsFail).1 ++
            [Event.exec (markerLine defaultConfig "stop" "7"),
             Event.log (fatalText (markerLine defaultConfig "stop" "7") "boom")],
           Exit.fatal) ∧
    Event.sendStartToken ∉ (finalize defaultConfig World.commandsFail "7" Wake.elapsed).1 ∧
    Event.log "Stopped logger"
        ∉ (finalize defaultConfig World.commandsFail "7" Wake.elapsed).1 ∧
    finalize defaultConfig World.commandsFail "7" Wake.stopRequest
        = ((artifactsPart defaultConfig World.commandsFail).1 ++
            [Event.exec (markerLine defaultConfig "term" "7"),
             Event.log "boom",
             Event.log "exit status 1",
             Event.log "Stopped logger",
             Event.sendStartToken],
           Exit.returned) := by
  decide

/-- C9, as amended. If the create of a profile file is the first step to
fail, the goroutine panics right there: its last event is that create, so
no later kind is dumped, no command is issued and the token is not sent.
Whatever the results of the profile writes, if no create and no close fails
the goroutine dumps all five kinds, issues its command and does not
panic. -/
theorem finalize_profile_failures (c : Config) (w : World) (id : String) (wake : Wake) :
    (∀ pre s post, profile_list = pre ++ s :: post →
      w.closeFails (artifact c "cpu.prof") = false →
      (∀ t ∈ pre, w.createFails (artifact c (t ++ ".prof")) = false) →
      w.createFails (artifact c (s ++ ".prof")) = true →
      finalize c w id wake
        = ([Event.stopCPUProfile, Event.closeFile (artifact c "cpu.prof"), Event.gc]
            ++ pre.flatMap (dumpedEvents c)
            ++ [Event.createFile (artifact c (s ++ ".prof"))],
           Exit.panicked)) ∧
    (artifactsOk c w = true →
      (∀ s ∈ profile_list, w.closeFails (artifact c (s ++ ".prof")) = false) →
      (∀ s ∈ profile_list, ∀ e ∈ dumpedEvents c s, e ∈ (finalize c w id wake).1) ∧
      execs (finalize c w id wake).1 = [markerLine c (verbOf wake) id] ∧
      (finalize c w id wake).2 ≠ Exit.panicked) := by
  constructor
  · intro pre s post hl hcpu hpre hs
    have hd := dumpProfiles_fail c w pre s post hpre hs
    rw [← hl] at hd
    simp [finalize, finalizeBody, closeCpu, hcpu, hd, Run.andThen]
  · intro hok _
    obtain ⟨h1, _, h3⟩ := finalize_facts c w id wake
    rw [hok] at h1
    rw [hok] at h3
    refine ⟨?_, by simpa using h1, ?_⟩
    · intro s hs e he
      have hparts : w.closeFails (artifact c "cpu.prof") = false ∧
          ∀ t ∈ profile_list, w.createFails (artifact c (t ++ ".prof")) = false := by
        simp only [artifactsOk, Bool.and_eq_true, Bool.not_eq_true', List.all_eq_true] at hok
        exact ⟨hok.1.1, fun t ht => by simpa using hok.1.2 t ht⟩
      have hd := dumpProfiles_ok c w profile_list hparts.2
      have hmem : e ∈ (dumpProfiles c w profile_list).1 := by
        rw [hd]
        exact List.mem_flatMap.mpr ⟨s, hs, he⟩
      simp only [finalize, finalizeBody, closeCpu, hparts.1, andThen_fst]
      simp [hd] at hmem ⊢
      simp [hd, hmem]
    · simp only [if_true] at h3
      rw [h3]
      split <;> decide

/-- Witness for C9: `heap.prof` cannot be created (first part), and every
profile write fails (second part). -/
theorem finalize_profile_failures_witness :
    (profile_list = ["goroutine"] ++ "heap" :: ["threadcreate", "block", "mutex"] ∧
      finalize defaultConfig World.heapCreateFails "7" Wake.elapsed
        = ([Event.stopCPUProfile, Event.closeFile (artifact defaultConfig "cpu.prof"),
              Event.gc]
            ++ ["goroutine"].flatMap (dumpedEvents defaultConfig)
            ++ [Event.createFile (artifact defaultConfig ("heap" ++ ".prof"))],
           Exit.panicked)) ∧
    (artifactsOk defaultConfig World.writesFail = true ∧
      World.writesFail.writeFails (artifact defaultConfig "heap.prof") = true ∧
      execs (finalize defaultConfig World.writesFail "7" Wake.elapsed).1
        = [markerLine defaultConfig (verbOf Wake.elapsed) "7"] ∧
      (finalize defaultConfig World.writesFail "7" Wake.elapsed).2 ≠ Exit.panicked) :=
  ⟨⟨rfl,
      (finalize_profile_failures defaultConfig World.heapCreateFails "7" Wake.elapsed).1
        ["goroutine"] "heap" ["threadcreate", "block", "mutex"] rfl (by decide)
        (by decide) (by decide)⟩,
    by decide, by decide,
    ((finalize_profile_failures defaultConfig World.writesFail "7" Wake.elapsed).2
      (by decide) (by decide)).2⟩

/-- C9 fails as stated: every profile write fails, and the goroutine still
dumps the next kind, issues its `stop` command and returns normally. -/
theorem finalize_continues_when_writes_fail :
    World.writesFail.writeFails (artifact defaultConfig "goroutine.prof") = true ∧
    Event.createFile (artifact defaultConfig "heap.prof")
        ∈ (finalize defaultConfig World.writesFail "7" Wake.elapsed).1 ∧
    Event.exec (markerLine defaultConfig "stop" "7")
        ∈ (finalize defaultConfig World.writesFail "7" Wake.elapsed).1 ∧
    (finalize defaultConfig World.writesFail "7" Wake.elapsed).2 = Exit.returned := by
  decide

/-- C10, as amended. When `<script> nextid` succeeds, `GetNextLogID` returns
the combined output of the command unchanged, so the `start` command line
built from it ends with that very text. -/
theorem GetNextLogID_verbatim (c : Config) (w : World) (out : String)
    (h : w.shell (c.LoggerBashScript ++ " nextid") = ProcResult.exited out none) :
    GetNextLogID c w = Except.ok out ∧
    markerLine c "start" out = c.LoggerBashScript ++ " start " ++ out := by
  constructor
  · simp [GetNextLogID, MustExecuteCommand, ExecuteCommand, h]
  · simp [markerLine, String.append_assoc]

/-- Witness for C10: the command prints `42` and a newline. -/
theorem GetNextLogID_verbatim_witness :
    (World.fine "42\n").shell (defaultConfig.LoggerBashScript ++ " nextid")
        = ProcResult.exited "42\n" none ∧
    GetNextLogID defaultConfig (World.fine "42\n") = Except.ok "42\n" :=
  ⟨rfl, (GetNextLogID_verbatim defaultConfig (World.fine "42\n") "42\n" rfl).1⟩

/-- C10 fails as stated: an output of `42` followed by a newline is returned
with its newline, not as `42`. -/
theorem GetNextLogID_keeps_newline :
    GetNextLogID defaultConfig (World.fine "42\n") = Except.ok "42\n" ∧
    GetNextLogID defaultConfig (World.fine "42\n") ≠ Except.ok "42" := by
  refine ⟨rfl, ?_⟩
  intro h
  have h2 : GetNextLogID defaultConfig (World.fine "42\n") = Except.ok "42\n" := rfl
  rw [h2] at h
  injection h with h
  exact absurd h (by decide)

/-! ### What one step does -/

theorem pcOf_setPc_self (s : Sys) (i : Nat) (p pc : Pc) (h : s.pcOf i = some p) :
    (s.setPc i pc).pcOf i = some pc := by
  obtain ⟨k, hk, _⟩ := pcOf_eq_some h
  simp [Sys.pcOf, Sys.setPc, hk]

theorem pcOf_setPc_ne (s : Sys) (i j : Nat) (pc : Pc) (h : i ≠ j) :
    (s.setPc i pc).pcOf j = s.pcOf j := by
  simp [Sys.pcOf, Sys.setPc, List.getElem?_modify_ne _ _ h]

theorem step_takeToken_inv (c : Config) (s s1 : Sys) (i : Nat)
    (h : step c s (Action.takeToken i) = some s1) :
    s.exited = false ∧ s.pcOf i = some Pc.acquiring ∧ 0 < s.startLoggerToken ∧
    s1 = { s.setPc i Pc.acquired with startLoggerToken := s.startLoggerToken - 1 } := by
  simp only [step] at h
  split at h
  · rename_i hg
    simp only [Option.some.injEq] at h
    exact ⟨hg.1, hg.2.1, hg.2.2, h.symm⟩
  · simp at h

theorem step_postStop_inv (c : Config) (s s1 : Sys) (i : Nat)
    (h : step c s (Action.postStop i) = some s1) :
    s.exited = false ∧ s.pcOf i = some Pc.acquiring ∧ s.stopLoggerToken < 1 ∧
    s1 = { s with stopLoggerToken := s.stopLoggerToken + 1 } := by
  simp only [step] at h
  split at h
  · rename_i hg
    simp only [Option.some.injEq] at h
    exact ⟨hg.1, hg.2.1, hg.2.2, h.symm⟩
  · simp at h

theorem step_drain_inv (c : Config) (s s1 : Sys) (i : Nat)
    (h : step c s (Action.drain i) = some s1) :
    s.exited = false ∧ s.pcOf i = some Pc.acquired ∧
    s1 = { s.setPc i Pc.starting with
            stopLoggerToken := if 0 < s.stopLoggerToken then s.stopLoggerToken - 1 else 0 } := by
  simp only [step] at h
  split at h
  · rename_i hg
    simp only [Option.some.injEq] at h
    exact ⟨hg.1, hg.2, h.symm⟩
  · simp at h

theorem step_start_inv (c : Config) (s s1 : Sys) (i : Nat) (w : World) (r : Bool)
    (h : step c s (Action.start i w r) = some s1) :
    s.exited = false ∧ s.pcOf i = some Pc.starting ∧
    s1.startLoggerToken = s.startLoggerToken ∧ s1.stopLoggerToken = s.stopLoggerToken ∧
    (∀ j, j ≠ i → s1.pcOf j = s.pcOf j) ∧
    ((startBody c w (s.idOf i)).2 = Exit.returned →
      s1.exited = false ∧ s1.pcOf i = some Pc.waiting) := by
  simp only [step] at h
  split at h
  · rename_i hg
    refine ⟨hg.1, hg.2, ?_⟩
    split at h
    · rename_i ev hb
      simp only [Option.some.injEq] at h
      subst h
      exact ⟨rfl, rfl, fun j hj => pcOf_setPc_ne s i j _ (Ne.symm hj),
        fun _ => ⟨hg.1, pcOf_setPc_self s i _ _ hg.2⟩⟩
    · rename_i ev hb
      simp only [Option.some.injEq] at h
      subst h
      exact ⟨rfl, rfl, fun j hj => pcOf_setPc_ne s i j _ (Ne.symm hj),
        fun hr => by rw [hb] at hr; simp at hr⟩
    · rename_i ev hb
      simp only [Option.some.injEq] at h
      subst h
      exact ⟨rfl, rfl, fun j _ => rfl, fun hr => by rw [hb] at hr; simp at hr⟩
  · simp at h

theorem step_wakeStop_inv (c : Config) (s s1 : Sys) (i : Nat)
    (h : step c s (Action.wakeStop i) = some s1) :
    s.exited = false ∧ s.pcOf i = some Pc.waiting ∧ 0 < s.stopLoggerToken ∧
    s1 = { s.setPc i (Pc.finalizing Wake.stopRequest) with
            stopLoggerToken := s.stopLoggerToken - 1 } := by
  simp only [step] at h
  split at h
  · rename_i hg
    simp only [Option.some.injEq] at h
    exact ⟨hg.1, hg.2.1, hg.2.2, h.symm⟩
  · simp at h

theorem step_wakeTimer_inv (c : Config) (s s1 : Sys) (i : Nat)
    (h : step c s (Action.wakeTimer i) = some s1) :
    s.exited = false ∧ s.pcOf i = some Pc.waiting ∧
    s1 = s.setPc i (Pc.finalizing Wake.elapsed) := by
  simp only [step] at h
  split at h
  · rename_i hg
    simp only [Option.some.injEq] at h
    exact ⟨hg.1, hg.2, h.symm⟩
  · simp at h

theorem step_finish_inv (c : Config) (s s1 : Sys) (i : Nat) (w : World)
    (h : step c s (Action.finish i w) = some s1) :
    s.exited = false ∧ ∃ wake, s.pcOf i = some (Pc.finalizing wake) ∧
    s1.startLoggerToken = s.startLoggerToken ∧ s1.stopLoggerToken = s.stopLoggerToken ∧
    (∀ j, j ≠ i → s1.pcOf j = s.pcOf j) ∧
    (s1.pcOf i = some (Pc.finalizing wake) ∨ s1.pcOf i = some (Pc.releasing wake)) ∧
    ((finalizeBody c w (s.idOf i) wake).2 = Exit.returned →
      s1.exited = false ∧ s1.pcOf i = some (Pc.releasing wake)) := by
  simp only [step] at h
  split at h
  · rename_i wake hex hpc
    refine ⟨hex, wake, hpc, ?_⟩
    split at h
    · rename_i ev hb
      simp only [Option.some.injEq] at h
      subst h
      exact ⟨rfl, rfl, fun j hj => pcOf_setPc_ne s i j _ (Ne.symm hj),
        Or.inr (pcOf_setPc_self s i _ _ hpc), fun _ => ⟨hex, pcOf_setPc_self s i _ _ hpc⟩⟩
    · rename_i ev x hne hb
      simp only [Option.some.injEq] at h
      subst h
      exact ⟨rfl, rfl, fun j _ => rfl, Or.inl hpc,
        fun hr => by rw [hb] at hr; exact absurd hr (by simpa using hne)⟩
  · simp at h

theorem step_release_inv (c : Config) (s s1 : Sys) (i : Nat)
    (h : step c s (Action.release i) = some s1) :
    s.exited = false ∧ (∃ wake, s.pcOf i = some (Pc.releasing wake)) ∧
    s.startLoggerToken < 1 ∧
    s1 = { s.setPc i Pc.done with
            startLoggerToken := s.startLoggerToken + 1,
            events := s.events ++ [Event.sendStartToken] } := by
  simp only [step] at h
  split at h
  · rename_i wake hex hpc
    split at h
    · rename_i hlt
      simp only [Option.some.injEq] at h
      exact ⟨hex, ⟨wake, hpc⟩, hlt, h.symm⟩
    · simp at h
  · simp at h

theorem step_call_inv (c : Config) (s s1 : Sys) (id : String)
    (h : step c s (Action.call id) = some s1) :
    s.exited = false ∧
    s1 = { s with calls := s.calls ++ [{ id := id, pc := Pc.acquiring }] } := by
  simp only [step] at h
  split at h
  · simp at h
  · rename_i hex
    simp only [Option.some.injEq] at h
    exact ⟨by simpa using hex, h.symm⟩

theorem step_exited (c : Config) (s s1 : Sys) (a : Action) (h : step c s a = some s1) :
    s.exited = false := by
  cases a with
  | call id => exact (step_call_inv c s s1 id h).1
  | takeToken i => exact (step_takeToken_inv c s s1 i h).1
  | postStop i => exact (step_postStop_inv c s s1 i h).1
  | drain i => exact (step_drain_inv c s s1 i h).1
  | start i w r => exact (step_start_inv c s s1 i w r h).1
  | wakeStop i => exact (step_wakeStop_inv c s s1 i h).1
  | wakeTimer i => exact (step_wakeTimer_inv c s s1 i h).1
  | finish i w => exact (step_finish_inv c s s1 i w h).1
  | release i => exact (step_release_inv c s s1 i h).1

/-- An action is made from a program counter of its own call that fits it. -/
theorem step_source (c : Config) (s s1 : Sys) (a : Action) (i : Nat)
    (h : step c s a = some s1) (hc : a.caller = some i) :
    ∃ p, s.pcOf i = some p ∧ a.source p = true := by
  cases a with
  | call id => simp [Action.caller] at hc
  | takeToken j =>
    simp only [Action.caller, Option.some.injEq] at hc; subst hc
    exact ⟨_, (step_takeToken_inv c s s1 _ h).2.1, rfl⟩
  | postStop j =>
    simp only [Action.caller, Option.some.injEq] at hc; subst hc
    exact ⟨_, (step_postStop_inv c s s1 _ h).2.1, rfl⟩
  | drain j =>
    simp only [Action.caller, Option.some.injEq] at hc; subst hc
    exact ⟨_, (step_drain_inv c s s1 _ h).2.1, rfl⟩
  | start j w r =>
    simp only [Action.caller, Option.some.injEq] at hc; subst hc
    exact ⟨_, (step_start_inv c s s1 _ w r h).2.1, rfl⟩
  | wakeStop j =>
    simp only [Action.caller, Option.some.injEq] at hc; subst hc
    exact ⟨_, (step_wakeStop_inv c s s1 _ h).2.1, rfl⟩
  | wakeTimer j =>
    simp only [Action.caller, Option.some.injEq] at hc; subst hc
    exact ⟨_, (step_wakeTimer_inv c s s1 _ h).2.1, rfl⟩
  | finish j w =>
    simp only [Action.caller, Option.some.injEq] at hc; subst hc
    obtain ⟨_, wake, hp, _⟩ := step_finish_inv c s s1 _ w h
    exact ⟨_, hp, rfl⟩
  | release j =>
    simp only [Action.caller, Option.some.injEq] at hc; subst hc
    obtain ⟨_, ⟨wake, hp⟩, _⟩ := step_release_inv c s s1 _ h
    exact ⟨_, hp, rfl⟩

theorem pcOf_append (s : Sys) (k : Call) (i : Nat) (p : Pc) (h : s.pcOf i = some p) :
    Sys.pcOf { s with calls := s.calls ++ [k] } i = some p := by
  obtain ⟨k0, hk, hp⟩ := pcOf_eq_some h
  have hlt : i < s.calls.length := by
    by_contra hge
    rw [List.getElem?_eq_none (by omega)] at hk
    simp at hk
  simp [Sys.pcOf, List.getElem?_append_left hlt, hk, hp]

/-- A step leaves the program counters of the other calls alone. -/
theorem step_frame (c : Config) (s s1 : Sys) (a : Action) (i : Nat) (p : Pc)
    (h : step c s a = some s1) (hc : a.caller ≠ some i) (hp : s.pcOf i = some p) :
    s1.pcOf i = some p := by
  cases a with
  | call id =>
    rw [(step_call_inv c s s1 id h).2]
    exact pcOf_append s _ i p hp
  | takeToken j =>
    have hne : j ≠ i := fun e => hc (by simp [Action.caller, e])
    rw [(step_takeToken_inv c s s1 j h).2.2.2]
    exact (pcOf_setPc_ne s j i _ hne).trans hp
  | postStop j =>
    rw [(step_postStop_inv c s s1 j h).2.2.2]
    exact hp
  | drain j =>
    have hne : j ≠ i := fun e => hc (by simp [Action.caller, e])
    rw [(step_drain_inv c s s1 j h).2.2]
    exact (pcOf_setPc_ne s j i _ hne).trans hp
  | start j w r =>
    have hne : i ≠ j := fun e => hc (by simp [Action.caller, e])
    rw [(step_start_inv c s s1 j w r h).2.2.2.2.1 i hne]
    exact hp
  | wakeStop j =>
    have hne : j ≠ i := fun e => hc (by simp [Action.caller, e])
    rw [(step_wakeStop_inv c s s1 j h).2.2.2]
    exact (pcOf_setPc_ne s j i _ hne).trans hp
  | wakeTimer j =>
    have hne : j ≠ i := fun e => hc (by simp [Action.caller, e])
    rw [(step_wakeTimer_inv c s s1 j h).2.2]
    exact (pcOf_setPc_ne s j i _ hne).trans hp
  | finish j w =>
    have hne : i ≠ j := fun e => hc (by simp [Action.caller, e])
    obtain ⟨_, wake, _, _, _, hfr, _⟩ := step_finish_inv c s s1 j w h
    rw [hfr i hne]
    exact hp
  | release j =>
    have hne : j ≠ i := fun e => hc (by simp [Action.caller, e])
    rw [(step_release_inv c s s1 j h).2.2.2]
    exact (pcOf_setPc_ne s j i _ hne).trans hp

/-! ## Claims about the channel protocol -/

theorem two_le_countP (p : Call → Bool) :
    ∀ (l : List Call) (i j : Nat) (ki kj : Call), l[i]? = some ki → l[j]? = some kj →
      p ki = true → p kj = true → i ≠ j → 2 ≤ l.countP p := by
  intro l
  induction l with
  | nil => intro i j ki kj h; simp at h
  | cons a l ih =>
    intro i j ki kj hi hj pi pj hne
    cases i with
    | zero =>
      cases j with
      | zero => exact absurd rfl hne
      | succ j =>
        simp at hi hj
        subst hi
        have : 0 < l.countP p := List.countP_pos_iff.mpr ⟨kj, List.getElem?_mem hj, pj⟩
        simp only [List.countP_cons, pi, if_true]
        omega
    | succ i =>
      cases j with
      | zero =>
        simp at hi hj
        subst hj
        have : 0 < l.countP p := List.countP_pos_iff.mpr ⟨ki, List.getElem?_mem hi, pi⟩
        simp only [List.countP_cons, pj, if_true]
        omega
      | succ j =>
        simp at hi hj
        have := ih i j ki kj hi hj pi pj (by omega)
        simp only [List.countP_cons]
        omega

/-- Two different calls never hold the token together. -/
theorem holders_unique (s : Sys) (hI : Inv s) (i j : Nat) (p q : Pc)
    (hi : s.pcOf i = some p) (hj : s.pcOf j = some q)
    (hp : p.holds = true) (hq : q.holds = true) : i = j := by
  by_contra hne
  obtain ⟨ki, hki, hkp⟩ := pcOf_eq_some hi
  obtain ⟨kj, hkj, hkq⟩ := pcOf_eq_some hj
  have h2 := two_le_countP (fun k => k.pc.holds) s.calls i j ki kj hki hkj
    (by simp [hkp, hp]) (by simp [hkq, hq]) hne
  have ht := hI.token
  simp only [Sys.holders, Sys.count] at ht
  omega

/-- C1. In every state reachable from the state set up by `init`, under any
interleaving of any number of `StartLogger` calls and their goroutines, the
number of values in `startLoggerToken` plus the number of calls between the
receive of line 101 and the send of line 174 is one; so at most one call is
in that stretch, and two calls in it are the same call. Steps that fail are
part of the model: the failing call keeps the token. -/
theorem token_conservation (c : Config) (acts : List Action) (s : Sys)
    (h : run c Sys.init acts = some s) :
    s.startLoggerToken + s.holders = 1 ∧ s.holders ≤ 1 ∧
    (∀ i j p q, s.pcOf i = some p → s.pcOf j = some q →
      p.holds = true → q.holds = true → i = j) := by
  have hI := reachable_inv c s ⟨acts, h⟩
  refine ⟨hI.token, ?_, ?_⟩
  · have := hI.token
    omega
  · intro i j p q hi hj hp hq
    exact holders_unique s hI i j p q hi hj hp hq

/-- Witness for C1: the schedule `demoActs`. -/
theorem token_conservation_witness :
    run defaultConfig Sys.init demoActs = some demoState ∧
    demoState.startLoggerToken + demoState.holders = 1 ∧ demoState.holders ≤ 1 :=
  ⟨by decide,
    (token_conservation defaultConfig demoActs demoState (by decide)).1,
    (token_conservation defaultConfig demoActs demoState (by decide)).2.1⟩

theorem finalizeBody_execs (c : Config) (w : World) (id : String) (wake : Wake) :
    execs (finalizeBody c w id wake).1
      = (if artifactsOk c w then [markerLine c (verbOf wake) id] else []) := by
  obtain ⟨a1, _, a3⟩ := artifactsPart_facts c w
  obtain ⟨n1, _, _⟩ := notify_facts c w id wake
  obtain ⟨x1, _, _⟩ := andThen_facts (artifactsPart c w)
    (notify c w id (decide (wake = Wake.stopRequest)))
  rw [a1, a3, n1] at x1
  rw [finalizeBody_eq, x1]
  cases artifactsOk c w <;> simp

/-- The events a `finish` step adds are those of `finalizeBody`, followed by
the log line of line 173 when the body returned. -/
theorem finish_events (c : Config) (s s1 : Sys) (i : Nat) (w : World) (wake : Wake)
    (hpc : s.pcOf i = some (Pc.finalizing wake))
    (hs : step c s (Action.finish i w) = some s1) :
    ∃ ev, s1.events = s.events ++ ev ∧
      execs ev = execs (finalizeBody c w (s.idOf i) wake).1 := by
  simp only [step] at hs
  split at hs
  · rename_i wake1 hex hpc1
    rw [hpc] at hpc1
    simp only [Option.some.injEq, Pc.finalizing.injEq] at hpc1
    subst hpc1
    split at hs
    · rename_i ev hb
      simp only [Option.some.injEq] at hs
      subst hs
      refine ⟨ev ++ [Event.log "Stopped logger"], by simp, ?_⟩
      rw [hb, execs_append]
      simp [execs]
    · rename_i ev x _ hb
      simp only [Option.some.injEq] at hs
      subst hs
      exact ⟨ev, rfl, by rw [hb]⟩
  · simp at hs

/-! ### A session nobody disturbs -/

theorem idOf_setPc (s : Sys) (i j : Nat) (pc : Pc) : (s.setPc i pc).idOf j = s.idOf j := by
  simp only [Sys.idOf, Sys.setPc]
  by_cases h : i = j
  · subst h
    cases hk : s.calls[i]? <;> simp [List.getElem?_modify_eq, hk]
  · simp [List.getElem?_modify_ne _ _ h]

/-- The two outcomes of a `finish` step. -/
theorem step_finish_cases (c : Config) (s s1 : Sys) (i : Nat) (w : World) (wake : Wake)
    (hpc : s.pcOf i = some (Pc.finalizing wake))
    (h : step c s (Action.finish i w) = some s1) :
    ((finalizeBody c w (s.idOf i) wake).2 = Exit.returned ∧
      s1 = { s.setPc i (Pc.releasing wake) with
              events := s.events ++ (finalizeBody c w (s.idOf i) wake).1 ++
                [Event.log "Stopped logger"] }) ∨
    ((finalizeBody c w (s.idOf i) wake).2 ≠ Exit.returned ∧
      s1 = { s with
              events := s.events ++ (finalizeBody c w (s.idOf i) wake).1, exited := true }) := by
  simp only [step] at h
  split at h
  · rename_i wake1 hex hpc1
    rw [hpc] at hpc1
    simp only [Option.some.injEq, Pc.finalizing.injEq] at hpc1
    subst hpc1
    split at h
    · rename_i ev hb
      simp only [Option.some.injEq] at h
      left
      rw [hb]
      exact ⟨rfl, h.symm⟩
    · rename_i ev x hne hb
      simp only [Option.some.injEq] at h
      right
      rw [hb]
      exact ⟨by simpa using hne, h.symm⟩
  · simp at h

/-- The body of the goroutine returns only when no artifact step panicked. -/
theorem finalizeBody_returned (c : Config) (w : World) (id : String) (wake : Wake)
    (h : (finalizeBody c w id wake).2 = Exit.returned) : artifactsOk c w = true := by
  obtain ⟨_, _, a3⟩ := artifactsPart_facts c w
  obtain ⟨_, _, x3⟩ := andThen_facts (artifactsPart c w)
    (notify c w id (decide (wake = Wake.stopRequest)))
  rw [finalizeBody_eq, x3, a3] at h
  cases hok : artifactsOk c w
  · rw [hok] at h
    simp at h
  · rfl

theorem undisturbed_pcs (c : Config) (s0 s : Sys) (i : Nat) (hU : Undisturbed c s0 s i)
    (j : Nat) (p : Pc) (hp : s.pcOf j = some p) :
    p = Pc.waiting ∨ p = Pc.finalizing Wake.elapsed ∨ p = Pc.releasing Wake.elapsed ∨
      p = Pc.done := by
  obtain ⟨_, hoth, ev, _, htr⟩ := hU
  by_cases hj : j = i
  · subst hj
    rcases htr with ⟨h, _⟩ | ⟨h, _⟩ | ⟨h | h, _⟩ <;>
      (rw [hp] at h; simp only [Option.some.injEq] at h; simp [h])
  · exact Or.inr (Or.inr (Or.inr (hoth j p hj hp)))

theorem undisturbed_stop_empty (c : Config) (s0 s : Sys) (i : Nat)
    (hU : Undisturbed c s0 s i) (hI : Inv s) : s.stopLoggerToken = 0 := by
  apply hI.stopEmpty
  simp only [Sys.count, List.countP_eq_zero]
  intro k hk
  obtain ⟨j, hj⟩ := List.mem_iff_getElem?.mp hk
  have hpj : s.pcOf j = some k.pc := by simp [Sys.pcOf, hj]
  rcases undisturbed_pcs c s0 s i hU j k.pc hpj with h | h | h | h <;>
    (rw [h]; simp [Pc.beforeDrain])

theorem undisturbed_step (c : Config) (s0 s s1 : Sys) (i : Nat) (a : Action)
    (hU : Undisturbed c s0 s i) (hI : Inv s) (hs : step c s a = some s1)
    (hq : ∀ j, j ≠ i → s1.pcOf j ≠ some Pc.acquiring) : Undisturbed c s0 s1 i := by
  have hpcs := undisturbed_pcs c s0 s i hU
  have hstop := undisturbed_stop_empty c s0 s i hU hI
  have hexit := step_exited c s s1 a hs
  obtain ⟨hid, hoth, ev, hev, htr⟩ := hU
  cases a with
  | call id =>
    exfalso
    obtain ⟨_, h1⟩ := step_call_inv c s s1 id hs
    have hi : ∃ p, s.pcOf i = some p := by
      rcases htr with ⟨h, _⟩ | ⟨h, _⟩ | ⟨h | h, _⟩ <;> exact ⟨_, h⟩
    obtain ⟨p, hp⟩ := hi
    obtain ⟨k, hk, _⟩ := pcOf_eq_some hp
    have hlt : i < s.calls.length := by
      by_contra hge
      rw [List.getElem?_eq_none (by omega)] at hk
      simp at hk
    apply hq s.calls.length (by omega)
    rw [h1]
    simp [Sys.pcOf]
  | takeToken j =>
    exfalso
    have hp := (step_takeToken_inv c s s1 j hs).2.1
    rcases hpcs j _ hp with h | h | h | h <;> cases h
  | postStop j =>
    exfalso
    have hp := (step_postStop_inv c s s1 j hs).2.1
    rcases hpcs j _ hp with h | h | h | h <;> cases h
  | drain j =>
    exfalso
    have hp := (step_drain_inv c s s1 j hs).2.1
    rcases hpcs j _ hp with h | h | h | h <;> cases h
  | start j w r =>
    exfalso
    have hp := (step_start_inv c s s1 j w r hs).2.1
    rcases hpcs j _ hp with h | h | h | h <;> cases h
  | wakeStop j =>
    exfalso
    have hp := (step_wakeStop_inv c s s1 j hs).2.2.1
    omega
  | wakeTimer j =>
    obtain ⟨_, hpj, h1⟩ := step_wakeTimer_inv c s s1 j hs
    have hji : j = i := by
      by_contra hne
      have := hoth j _ hne hpj
      cases this
    subst hji
    have hw : execs ev = [] := by
      rcases htr with ⟨_, h⟩ | ⟨h, _⟩ | ⟨h | h, _⟩
      · exact h
      all_goals (rw [hpj] at h; cases h)
    refine ⟨?_, ?_, ev, ?_, ?_⟩
    · rw [h1, idOf_setPc]
      exact hid
    · intro k p hk hp
      rw [h1, pcOf_setPc_ne _ _ _ _ (Ne.symm hk)] at hp
      exact hoth k p hk hp
    · rw [h1]
      exact hev
    · right; left
      exact ⟨by rw [h1]; exact pcOf_setPc_self s j _ _ hpj, Or.inl hw⟩
  | finish j w =>
    obtain ⟨_, wake, hpj, _⟩ := step_finish_inv c s s1 j w hs
    have hji : j = i := by
      by_contra hne
      have := hoth j _ hne hpj
      cases this
    subst hji
    have hwake : wake = Wake.elapsed := by
      rcases hpcs j _ hpj with h | h | h | h <;> cases h
      rfl
    subst hwake
    have hw : execs ev = [] := by
      rcases htr with ⟨h, _⟩ | ⟨_, h | ⟨h, _⟩⟩ | ⟨h | h, _⟩
      · rw [hpj] at h; cases h
      · exact h
      · rw [hexit] at h; cases h
      · rw [hpj] at h; cases h
      · rw [hpj] at h; cases h
    have hbx := finalizeBody_execs c w (s.idOf j) Wake.elapsed
    rcases step_finish_cases c s s1 j w _ hpj hs with ⟨hret, h1⟩ | ⟨hne, h1⟩
    · have hok := finalizeBody_returned c w _ _ hret
      refine ⟨?_, ?_, ev ++ (finalizeBody c w (s.idOf j) Wake.elapsed).1 ++
          [Event.log "Stopped logger"], ?_, ?_⟩
      · rw [h1]
        show (s.setPc j _).idOf j = _
        rw [idOf_setPc]
        exact hid
      · intro k p hk hp
        rw [h1] at hp
        have hp2 : (s.setPc j (Pc.releasing Wake.elapsed)).pcOf k = some p := hp
        rw [pcOf_setPc_ne _ _ _ _ (Ne.symm hk)] at hp2
        exact hoth k p hk hp2
      · rw [h1]
        show s.events ++ _ ++ _ = _
        rw [hev]
        simp [List.append_assoc]
      · right; right
        refine ⟨Or.inl ?_, ?_⟩
        · rw [h1]
          exact pcOf_setPc_self s j _ _ hpj
        · rw [execs_append, execs_append, hw, hbx, hok, hid]
          simp [execs, verbOf]
    · refine ⟨?_, ?_, ev ++ (finalizeBody c w (s.idOf j) Wake.elapsed).1, ?_, ?_⟩
      · rw [h1]
        exact hid
      · intro k p hk hp
        rw [h1] at hp
        exact hoth k p hk hp
      · rw [h1]
        show s.events ++ _ = _
        rw [hev]
        simp [List.append_assoc]
      · right; left
        refine ⟨by rw [h1]; exact hpj, ?_⟩
        rw [execs_append, hw, hbx, hid]
        by_cases hok : artifactsOk c w = true
        · right
          exact ⟨by rw [h1], by simp [hok, verbOf]⟩
        · left
          simp [hok]
  | release j =>
    obtain ⟨_, ⟨wake, hpj⟩, _, h1⟩ := step_release_inv c s s1 j hs
    have hji : j = i := by
      by_contra hne
      have := hoth j _ hne hpj
      cases this
    subst hji
    have hw : execs ev = [markerLine c "stop" (s0.idOf j)] := by
      rcases htr with ⟨h, _⟩ | ⟨h, _⟩ | ⟨_, h⟩
      · rw [hpj] at h; cases h
      · rw [hpj] at h; cases h
      · exact h
    refine ⟨?_, ?_, ev ++ [Event.sendStartToken], ?_, ?_⟩
    · rw [h1]
      show (s.setPc j _).idOf j = _
      rw [idOf_setPc]
      exact hid
    · intro k p hk hp
      rw [h1] at hp
      have hp2 : (s.setPc j Pc.done).pcOf k = some p := hp
      rw [pcOf_setPc_ne _ _ _ _ (Ne.symm hk)] at hp2
      exact hoth k p hk hp2
    · rw [h1]
      show s.events ++ _ = _
      rw [hev]
      simp [List.append_assoc]
    · right; right
      refine ⟨Or.inr ?_, ?_⟩
      · rw [h1]
        exact pcOf_setPc_self s j _ _ hpj
      · rw [execs_append, hw]
        simp [execs]

theorem undisturbed_run (c : Config) (s0 : Sys) (i : Nat) :
    ∀ (mid : List Action) (s s2 : Sys), Undisturbed c s0 s i → Inv s →
      run c s mid = some s2 →
      (∀ k sk, run c s (mid.take k) = some sk →
        ∀ j, j ≠ i → sk.pcOf j ≠ some Pc.acquiring) →
      Undisturbed c s0 s2 i := by
  intro mid
  induction mid with
  | nil =>
    intro s s2 hU _ h _
    simp only [run, Option.some.injEq] at h
    exact h ▸ hU
  | cons a rest ih =>
    intro s s2 hU hI h hq
    simp only [run] at h
    cases hs : step c s a with
    | none => simp [hs] at h
    | some s1 =>
      rw [hs] at h
      have hq1 : ∀ j, j ≠ i → s1.pcOf j ≠ some Pc.acquiring :=
        hq 1 s1 (by simp [run, hs])
      refine ih s1 s2 (undisturbed_step c s0 s s1 i a hU hI hs hq1)
        (step_inv c s s1 a hI hs) h ?_
      intro k sk hk
      exact hq (k + 1) sk (by simpa [run, hs] using hk)

theorem undisturbed_init (c : Config) (s : Sys) (i : Nat) (hI : Inv s)
    (hp : s.pcOf i = some Pc.waiting)
    (hq : ∀ j, j ≠ i → s.pcOf j ≠ some Pc.acquiring) : Undisturbed c s s i := by
  refine ⟨rfl, ?_, [], by simp, Or.inl ⟨hp, rfl⟩⟩
  intro j p hj hpj
  cases p with
  | acquiring => exact absurd hpj (hq j hj)
  | done => rfl
  | acquired => exact absurd (holders_unique s hI j i _ _ hpj hp rfl rfl) hj
  | starting => exact absurd (holders_unique s hI j i _ _ hpj hp rfl rfl) hj
  | waiting => exact absurd (holders_unique s hI j i _ _ hpj hp rfl rfl) hj
  | finalizing _ => exact absurd (holders_unique s hI j i _ _ hpj hp rfl rfl) hj
  | releasing _ => exact absurd (holders_unique s hI j i _ _ hpj hp rfl rfl) hj
  | panicked => exact absurd (holders_unique s hI j i _ _ hpj hp rfl rfl) hj

theorem alone_quiet : ∀ k sk,
    run defaultConfig aloneState (aloneFinishActs.take k) = some sk →
    ∀ j, j ≠ 0 → sk.pcOf j ≠ some Pc.acquiring := by
  intro k sk hk j hj hp
  have hlen : (run defaultConfig aloneState (aloneFinishActs.take k)).map
      (fun s => s.calls.length) = some 1 := by
    rcases k with _ | _ | _ | _ | k
    · decide
    · decide
    · decide
    · decide
    · have ht : aloneFinishActs.take (k + 1 + 1 + 1 + 1) = aloneFinishActs :=
        List.take_of_length_le (by simp [aloneFinishActs])
      rw [ht]
      decide
  rw [hk] at hlen
  simp only [Option.map_some', Option.some.injEq] at hlen
  obtain ⟨kk, hkk, _⟩ := pcOf_eq_some hp
  have hlt : j < sk.calls.length := by
    by_contra hge
    rw [List.getElem?_eq_none (by omega)] at hkk
    simp at hkk
  omega

/-- C4, as amended. In every reachable state: the drain step leaves
`stopLoggerToken` empty, whatever it held; when no call is in its loop or
between the loop and the drain, `stopLoggerToken` is empty and the stop case
of no session can fire; the stop case fires for a session only while another
call is in its loop; a `finish` step whose artifact steps succeed issues one
command, `term` after a stop request and `stop` after the timer, and none
when an artifact step panics. A waiting session during which no other call
is ever in its loop, whether that call was made before or after the
session's own, is never finalized after a stop request: it stays waiting or
goes on through the timer, the only command issued meanwhile is its `stop`,
never a `term`, and once its goroutine is past line 172 that `stop` has
been issued. -/
theorem drain_protects_session (c : Config) (acts : List Action) (s : Sys)
    (h : run c Sys.init acts = some s) :
    (∀ i s1, step c s (Action.drain i) = some s1 → s1.stopLoggerToken = 0) ∧
    (s.count Pc.beforeDrain = 0 →
      s.stopLoggerToken = 0 ∧ ∀ i, step c s (Action.wakeStop i) = none) ∧
    (∀ i s1, step c s (Action.wakeStop i) = some s1 →
      ∃ j, j ≠ i ∧ s.pcOf j = some Pc.acquiring) ∧
    (∀ i w wake s1, s.pcOf i = some (Pc.finalizing wake) →
      step c s (Action.finish i w) = some s1 →
      ∃ ev, s1.events = s.events ++ ev ∧
        execs ev
          = (if artifactsOk c w then [markerLine c (verbOf wake) (s.idOf i)] else [])) ∧
    (∀ i mid s2, s.pcOf i = some Pc.waiting → run c s mid = some s2 →
      (∀ k sk, run c s (mid.take k) = some sk →
        ∀ j, j ≠ i → sk.pcOf j ≠ some Pc.acquiring) →
      (s2.pcOf i = some Pc.waiting ∨ s2.pcOf i = some (Pc.finalizing Wake.elapsed) ∨
        s2.pcOf i = some (Pc.releasing Wake.elapsed) ∨ s2.pcOf i = some Pc.done) ∧
      ∃ ev, s2.events = s.events ++ ev ∧
        (∀ line ∈ execs ev, line = markerLine c "stop" (s.idOf i)) ∧
        Event.exec (markerLine c "term" (s.idOf i)) ∉ ev ∧
        ((s2.pcOf i = some (Pc.releasing Wake.elapsed) ∨ s2.pcOf i = some Pc.done) →
          execs ev = [markerLine c "stop" (s.idOf i)])) := by
  have hI := reachable_inv c s ⟨acts, h⟩
  refine ⟨?_, ?_, ?_, ?_, ?_⟩
  · intro i s1 hs
    have hcap := hI.stopCap
    simp only [step] at hs
    split at hs
    · simp only [Option.some.injEq] at hs
      subst hs
      show (if 0 < s.stopLoggerToken then s.stopLoggerToken - 1 else 0) = 0
      split <;> omega
    · simp at hs
  · intro h0
    have hz := hI.stopEmpty h0
    refine ⟨hz, ?_⟩
    intro i
    simp [step, hz]
  · intro i s1 hs
    simp only [step] at hs
    split at hs
    · rename_i hg
      obtain ⟨_, hpc, hpos⟩ := hg
      have hcount : 0 < s.count Pc.beforeDrain := by
        by_contra hc
        have := hI.stopEmpty (by omega)
        omega
      obtain ⟨k, hk, hkp⟩ := List.countP_pos_iff.mp hcount
      obtain ⟨j, hj⟩ := List.mem_iff_getElem?.mp hk
      have hpj : s.pcOf j = some k.pc := by simp [Sys.pcOf, hj]
      have hne : j ≠ i := by
        intro hji
        subst hji
        rw [hpc] at hpj
        simp only [Option.some.injEq] at hpj
        rw [← hpj] at hkp
        simp [Pc.beforeDrain] at hkp
      refine ⟨j, hne, ?_⟩
      cases hkpc : k.pc with
      | acquiring => rw [hpj, hkpc]
      | acquired =>
        rw [hkpc] at hpj
        exact absurd (holders_unique s hI j i _ _ hpj hpc (by simp [Pc.holds])
          (by simp [Pc.holds])) hne
      | starting => simp [hkpc, Pc.beforeDrain] at hkp
      | waiting => simp [hkpc, Pc.beforeDrain] at hkp
      | finalizing _ => simp [hkpc, Pc.beforeDrain] at hkp
      | releasing _ => simp [hkpc, Pc.beforeDrain] at hkp
      | done => simp [hkpc, Pc.beforeDrain] at hkp
      | panicked => simp [hkpc, Pc.beforeDrain] at hkp
    · simp at hs
  · intro i w wake s1 hpc hs
    obtain ⟨ev, hev, hx⟩ := finish_events c s s1 i w wake hpc hs
    exact ⟨ev, hev, hx.trans (finalizeBody_execs c w (s.idOf i) wake)⟩
  · intro i mid s2 hp hrun hq
    have hU0 := undisturbed_init c s i hI hp (hq 0 s (by simp [run]))
    obtain ⟨_, _, ev, hev, htr⟩ := undisturbed_run c s i mid s s2 hU0 hI hrun hq
    have hne := markerLine_term_ne_stop c (s.idOf i)
    have hlines : execs ev = [] ∨ execs ev = [markerLine c "stop" (s.idOf i)] := by
      rcases htr with ⟨_, h⟩ | ⟨_, h | ⟨_, h⟩⟩ | ⟨_, h⟩
      · exact Or.inl h
      · exact Or.inl h
      · exact Or.inr h
      · exact Or.inr h
    refine ⟨?_, ev, hev, ?_, ?_, ?_⟩
    · rcases htr with ⟨h, _⟩ | ⟨h, _⟩ | ⟨h | h, _⟩
      · exact Or.inl h
      · exact Or.inr (Or.inl h)
      · exact Or.inr (Or.inr (Or.inl h))
      · exact Or.inr (Or.inr (Or.inr h))
    · intro line hl
      rcases hlines with h | h <;> rw [h] at hl <;> simp at hl
      exact hl
    · intro hmem
      rw [← mem_execs_iff] at hmem
      rcases hlines with h | h <;> rw [h] at hmem <;> simp at hmem
      exact hne hmem
    · intro hpc
      rcases htr with ⟨h, _⟩ | ⟨h, _⟩ | ⟨_, h⟩
      · rcases hpc with h2 | h2 <;> rw [h] at h2 <;> cases h2
      · rcases hpc with h2 | h2 <;> rw [h] at h2 <;> cases h2
      · exact h

/-- Witness for C4: a call posts a stop request while the token is free,
takes the token, and its drain empties the channel; a session that waits
alone cannot be woken by a stop request, and when it runs to its end with no
other call around the one command it issues is `stop`. -/
theorem drain_protects_session_witness :
    run defaultConfig Sys.init [Action.call "a", Action.postStop 0]
      = some { startLoggerToken := 1, stopLoggerToken := 1,
               calls := [{ id := "a", pc := Pc.acquiring }], exited := false, events := [] } ∧
    run defaultConfig Sys.init selfPostActs = some selfPostState ∧
    selfPostState.stopLoggerToken = 1 ∧
    step defaultConfig selfPostState (Action.drain 0) = some selfPostDrained ∧
    selfPostDrained.stopLoggerToken = 0 ∧
    run defaultConfig Sys.init aloneActs = some aloneState ∧
    aloneState.count Pc.beforeDrain = 0 ∧
    step defaultConfig aloneState (Action.wakeStop 0) = none ∧
    aloneState.pcOf 0 = some Pc.waiting ∧
    run defaultConfig aloneState aloneFinishActs = some aloneDoneState ∧
    aloneDoneState.pcOf 0 = some Pc.done ∧
    ∃ ev, aloneDoneState.events = aloneState.events ++ ev ∧
      (∀ line ∈ execs ev, line = markerLine defaultConfig "stop" (aloneState.idOf 0)) ∧
      Event.exec (markerLine defaultConfig "term" (aloneState.idOf 0)) ∉ ev ∧
      ((aloneDoneState.pcOf 0 = some (Pc.releasing Wake.elapsed) ∨
          aloneDoneState.pcOf 0 = some Pc.done) →
        execs ev = [markerLine defaultConfig "stop" (aloneState.idOf 0)]) :=
  ⟨by decide, by decide, by decide, by decide,
    (drain_protects_session defaultConfig selfPostActs selfPostState (by decide)).1
      0 selfPostDrained (by decide),
    by decide, by decide,
    ((drain_protects_session defaultConfig aloneActs aloneState (by decide)).2.1
      (by decide)).2 0,
    by decide, by decide, by decide,
    ((drain_protects_session defaultConfig aloneActs aloneState (by decide)).2.2.2.2
      0 aloneFinishActs aloneDoneState (by decide) (by decide) alone_quiet).2⟩

/-- C4 fails as stated: call `b` is made before call `c` and is still in its
loop when `c` has the token; the stop request `b` posts there ends the
session of `c`, which issues `term c`, although no call is made after
`c`. -/
theorem earlier_call_ends_session :
    (run defaultConfig Sys.init earlierActs).map
        (fun s => (s.calls.map Call.id, s.pcOf 0, s.pcOf 1, execs s.events))
      = some (["b", "c"], some Pc.acquiring, some (Pc.releasing Wake.stopRequest),
          [markerLine defaultConfig "start" "c", markerLine defaultConfig "term" "c"]) := by
  decide

/-! ## The recorder -/

set_option maxRecDepth 100000 in
/-- The template `New` builds from the format of line 187. -/
theorem New_eq :
    New = some { template :=
      { template := format
        texts := ["\x7b\"time\":\"", "\",\"method\":\"", "\",\"uri\":\"", "\",\"status\":",
                  ",\"response_time\":", ",\"body_bytes\":", "\x7d\n"]
        tags := ["time", "method", "uri", "status", "response_time", "body_bytes"] } } := by
  decide

/-- The buffer `Stop` hands to `logfile.Write`. -/
theorem stopBuffer_eq (c : AlpTrace) (hc : New = some c) (env : Surroundings) (t0 : Time)
    (method uri : String) (status body_bytes : Int) :
    stopBuffer env (c.Start t0) method uri status body_bytes
      = some (expectedLine (env.clock 1).FormatRFC3339Nano method uri (FormatInt status)
          (FormatFloat9 (Seconds ((env.clock 0).Sub t0))) (FormatInt body_bytes)) := by
  rw [New_eq] at hc
  simp only [Option.some.injEq] at hc
  subst hc
  simp [stopBuffer, bufferReset, Template.ExecuteFunc, executeLoop, stopTag, AlpTrace.Start,
    expectedLine, String.append_assoc]

/-! ### Decimal numerals -/

theorem digitChar_isDigit (d : Nat) (h : d < 10) : (Nat.digitChar d).isDigit = true := by
  interval_cases d <;> decide

theorem digitChar_ne_zero (d : Nat) (h : d < 10) (h0 : d ≠ 0) : Nat.digitChar d ≠ '0' := by
  interval_cases d <;> first | exact absurd rfl h0 | decide

theorem fixedDigits_length (w n : Nat) : (fixedDigits w n).length = w := by
  induction w generalizing n with
  | zero => rfl
  | succ w ih => simp [fixedDigits, ih]

theorem fixedDigits_isDigit (w n : Nat) : ∀ ch ∈ fixedDigits w n, ch.isDigit = true := by
  induction w generalizing n with
  | zero => simp [fixedDigits]
  | succ w ih =>
    intro ch hch
    simp only [fixedDigits, List.mem_append, List.mem_singleton] at hch
    rcases hch with h | h
    · exact ih _ ch h
    · rw [h]; exact digitChar_isDigit _ (Nat.mod_lt _ (by decide))

/-- Shape of the output of `Nat.toDigitsCore 10` when the fuel suffices: the
digits put in front of `ds` are a decimal numeral without a leading zero. -/
theorem toDigitsCore_shape : ∀ (fuel n : Nat) (ds : List Char), n < fuel →
    ∃ c cs, Nat.toDigitsCore 10 fuel n ds = c :: cs ++ ds ∧ c.isDigit = true ∧
      (∀ ch ∈ cs, ch.isDigit = true) ∧ (c = '0' → n = 0 ∧ cs = []) := by
  intro fuel
  induction fuel with
  | zero => intro n ds h; omega
  | succ fuel ih =>
    intro n ds h
    rw [Nat.toDigitsCore]
    by_cases h0 : n / 10 = 0
    · simp only [h0, if_true]
      have hlt : n < 10 := by omega
      refine ⟨Nat.digitChar (n % 10), [], rfl, digitChar_isDigit _ (Nat.mod_lt _ (by decide)),
        by simp, ?_⟩
      intro hz
      refine ⟨?_, rfl⟩
      by_contra hn
      have : n % 10 ≠ 0 := by omega
      exact digitChar_ne_zero _ (Nat.mod_lt _ (by decide)) this hz
    · simp only [h0, if_false]
      obtain ⟨c, cs, heq, hc, hcs, hz⟩ := ih (n / 10) (Nat.digitChar (n % 10) :: ds) (by omega)
      refine ⟨c, cs ++ [Nat.digitChar (n % 10)], by simp [heq], hc, ?_, ?_⟩
      · intro ch hch
        simp only [List.mem_append, List.mem_singleton] at hch
        rcases hch with h1 | h1
        · exact hcs ch h1
        · rw [h1]; exact digitChar_isDigit _ (Nat.mod_lt _ (by decide))
      · intro hz0
        exact absurd (hz hz0).1 h0

theorem toDigits_shape (n : Nat) :
    ∃ c cs, Nat.toDigits 10 n = c :: cs ∧ c.isDigit = true ∧
      (∀ ch ∈ cs, ch.isDigit = true) ∧ (c = '0' → n = 0 ∧ cs = []) := by
  obtain ⟨c, cs, heq, h⟩ := toDigitsCore_shape (n + 1) n [] (by omega)
  exact ⟨c, cs, by simpa [Nat.toDigits] using heq, h⟩

theorem toDigits_isDigit (n : Nat) : ∀ ch ∈ Nat.toDigits 10 n, ch.isDigit = true := by
  obtain ⟨c, cs, heq, hc, hcs, _⟩ := toDigits_shape n
  intro ch hch
  rw [heq] at hch
  rcases List.mem_cons.mp hch with h | h
  · rw [h]; exact hc
  · exact hcs ch h

/-- `FormatFloat9` renders an optional sign, the digits of the integer part,
a point, and exactly nine digits. -/
theorem FormatFloat9_shape (x : Float64) :
    ∃ ip fp, (FormatFloat9 x).data = ip ++ '.' :: fp ∧ '.' ∉ ip ∧ fp.length = 9 ∧
      ∀ ch ∈ fp, ch.isDigit = true := by
  unfold FormatFloat9
  refine ⟨_, _, rfl, ?_, fixedDigits_length 9 _, fixedDigits_isDigit 9 _⟩
  intro hmem
  rcases List.mem_append.mp hmem with h | h
  · cases x.neg <;> simp at h
  · have := toDigits_isDigit _ _ h
    exact absurd this (by decide)

/-! ### Exactness of the `float64` seconds

The model of `float64` is related to the rationals: rounding has a relative
error of at most `2 ^ -53`, and below `2 ^ 22` seconds the accumulated error
of `Duration.Seconds` stays under half a nanosecond, so that `FormatFloat`
with nine decimals prints the nanosecond count itself. -/

theorem div_eq_quot_add (a b : Nat) (hb : 0 < b) :
    (a : ℚ) / b = (a / b : Nat) + ((a % b : Nat) : ℚ) / b := by
  have hbq : (b : ℚ) ≠ 0 := by exact_mod_cast hb.ne'
  have hdm : (a : ℚ) = b * (a / b : Nat) + (a % b : Nat) := by
    exact_mod_cast (Nat.div_add_mod a b).symm
  field_simp
  linarith

theorem roundHalfEven_err (a b : Nat) (hb : 0 < b) :
    |(roundHalfEven a b : ℚ) - (a : ℚ) / b| ≤ 1 / 2 := by
  have hbq : (0 : ℚ) < b := by exact_mod_cast hb
  have hdiv := div_eq_quot_add a b hb
  have hr : a % b < b := Nat.mod_lt _ hb
  have ht0 : (0 : ℚ) ≤ ((a % b : Nat) : ℚ) / b := by positivity
  rw [hdiv, abs_le]
  unfold roundHalfEven
  simp only
  split
  · rename_i h
    have : ((a % b : Nat) : ℚ) / b < 1 / 2 := by
      rw [div_lt_iff₀ hbq]
      have : ((2 * (a % b) : Nat) : ℚ) < b := by exact_mod_cast h
      push_cast at this
      linarith
    constructor <;> linarith
  · rename_i h
    split
    · rename_i h2
      have : 1 / 2 < ((a % b : Nat) : ℚ) / b := by
        rw [lt_div_iff₀ hbq]
        have : (b : ℚ) < ((2 * (a % b) : Nat) : ℚ) := by exact_mod_cast h2
        push_cast at this
        linarith
      have h1 : ((a % b : Nat) : ℚ) / b < 1 := by
        rw [div_lt_iff₀ hbq]
        have : ((a % b : Nat) : ℚ) < b := by exact_mod_cast hr
        linarith
      push_cast
      constructor <;> linarith
    · rename_i h2
      have heq : ((a % b : Nat) : ℚ) / b = 1 / 2 := by
        have : 2 * (a % b) = b := by omega
        rw [div_eq_iff hbq.ne']
        have : ((2 * (a % b) : Nat) : ℚ) = b := by exact_mod_cast this
        push_cast at this
        linarith
      split
      · constructor <;> linarith
      · push_cast
        constructor <;> linarith

/-- A ratio closer than one half to an integer rounds to it. -/
theorem roundHalfEven_eq (a b D : Nat) (hb : 0 < b)
    (h : |(a : ℚ) / b - D| < 1 / 2) : roundHalfEven a b = D := by
  have h1 := roundHalfEven_err a b hb
  have h2 : |(roundHalfEven a b : ℚ) - D| < 1 := by
    have := abs_sub_lt_iff.mp h
    have := abs_le.mp h1
    rw [abs_lt]
    constructor <;> linarith
  have h3 : |((roundHalfEven a b : Int) - (D : Int))| < 1 := by
    have : ((|((roundHalfEven a b : Int) - (D : Int))| : Int) : ℚ) < 1 := by
      push_cast
      exact h2
    exact_mod_cast this
  have h4 : (roundHalfEven a b : Int) - (D : Int) = 0 := by
    rw [abs_lt] at h3
    omega
  omega

/-- `normalize` keeps the value and, with fuel enough, ends in `[2^52, 2^53)`. -/
theorem normalize_spec : ∀ (fuel n d : Nat) (e : Int), 0 < n → 0 < d →
    2 ^ 52 * d ≤ n * 2 ^ fuel → n < 2 ^ 53 * d * 2 ^ fuel →
    0 < (normalize fuel n d e).1 ∧ 0 < (normalize fuel n d e).2.1 ∧
    2 ^ 52 * (normalize fuel n d e).2.1 ≤ (normalize fuel n d e).1 ∧
    (normalize fuel n d e).1 < 2 ^ 53 * (normalize fuel n d e).2.1 ∧
    ((normalize fuel n d e).1 : ℚ) / (normalize fuel n d e).2.1
        * (2 : ℚ) ^ (normalize fuel n d e).2.2 = (n : ℚ) / d * (2 : ℚ) ^ e := by
  intro fuel
  induction fuel with
  | zero =>
    intro n d e hn hd h1 h2
    simp only [pow_zero, mul_one] at h1 h2
    exact ⟨hn, hd, h1, h2, rfl⟩
  | succ fuel ih =>
    intro n d e hn hd h1 h2
    have hpos : 0 < 2 ^ fuel := by positivity
    have hf : (2 : Nat) ^ (fuel + 1) = 2 ^ fuel * 2 := Nat.pow_succ 2 fuel
    rw [hf] at h1 h2
    unfold normalize
    split
    · rename_i hlt
      have := ih (2 * n) d (e - 1) (by omega) hd
        (by calc 2 ^ 52 * d ≤ n * (2 ^ fuel * 2) := h1
              _ = 2 * n * 2 ^ fuel := by ring)
        (by calc 2 * n < 2 * (2 ^ 52 * d) := by omega
              _ = 2 ^ 53 * d * 1 := by ring
              _ ≤ 2 ^ 53 * d * 2 ^ fuel := Nat.mul_le_mul_left _ hpos)
      refine ⟨this.1, this.2.1, this.2.2.1, this.2.2.2.1, ?_⟩
      rw [this.2.2.2.2, zpow_sub_one₀ (by norm_num : (2 : ℚ) ≠ 0)]
      have hdq : (d : ℚ) ≠ 0 := by exact_mod_cast hd.ne'
      push_cast
      field_simp
      ring
    · rename_i hge
      split
      · rename_i hbig
        have := ih n (2 * d) (e + 1) hn (by omega)
          (by calc 2 ^ 52 * (2 * d) = 2 ^ 53 * d * 1 := by ring
                _ ≤ n * 1 := by omega
                _ ≤ n * 2 ^ fuel := Nat.mul_le_mul_left _ hpos)
          (by calc n < 2 ^ 53 * d * (2 ^ fuel * 2) := h2
                _ = 2 ^ 53 * (2 * d) * 2 ^ fuel := by ring)
        refine ⟨this.1, this.2.1, this.2.2.1, this.2.2.2.1, ?_⟩
        rw [this.2.2.2.2, zpow_add_one₀ (by norm_num : (2 : ℚ) ≠ 0)]
        have hdq : (d : ℚ) ≠ 0 := by exact_mod_cast hd.ne'
        push_cast
        field_simp
        ring
      · rename_i hsmall
        refine ⟨hn, hd, ?_, ?_, rfl⟩
        · show 2 ^ 52 * d ≤ n
          omega
        · show n < 2 ^ 53 * d
          omega

theorem round_fields (neg : Bool) (n d : Nat) (hn : n ≠ 0) :
    Float64.round neg n d
      = { neg := neg
          m := roundHalfEven (normalize 256 n d 0).1 (normalize 256 n d 0).2.1
          e := (normalize 256 n d 0).2.2 } := by
  unfold Float64.round
  rw [if_neg hn]

theorem round_zero (neg : Bool) (d : Nat) :
    Float64.round neg 0 d = { neg := false, m := 0, e := 0 } := by
  unfold Float64.round
  rw [if_pos rfl]

/-- Rounding to `float64`: the sign is kept, the result lies within half a
unit in the last place, and the unit is `2 ^ e` with the value in
`[2^52 * 2^e, 2^53 * 2^e)`. -/
theorem round_spec (neg : Bool) (n d : Nat) (hn : 0 < n) (hd : 0 < d)
    (h1 : 2 ^ 52 * d ≤ n * 2 ^ 256) (h2 : n < 2 ^ 53 * d * 2 ^ 256) :
    (Float64.round neg n d).neg = neg ∧
    |(Float64.round neg n d).mag - (n : ℚ) / d| ≤ (2 : ℚ) ^ (Float64.round neg n d).e / 2 ∧
    (2 : ℚ) ^ 52 * (2 : ℚ) ^ (Float64.round neg n d).e ≤ (n : ℚ) / d ∧
    (n : ℚ) / d < (2 : ℚ) ^ 53 * (2 : ℚ) ^ (Float64.round neg n d).e := by
  obtain ⟨hn1, hd1, hlo, hhi, hval⟩ := normalize_spec 256 n d 0 hn hd h1 h2
  rw [round_fields neg n d hn.ne']
  simp only [Float64.mag]
  generalize (normalize 256 n d 0).1 = n1 at *
  generalize (normalize 256 n d 0).2.1 = d1 at *
  generalize (normalize 256 n d 0).2.2 = e1 at *
  have hd1q : (0 : ℚ) < d1 := by exact_mod_cast hd1
  have hpow : (0 : ℚ) < (2 : ℚ) ^ e1 := zpow_pos (by norm_num) e1
  rw [zpow_zero, mul_one] at hval
  have herr := roundHalfEven_err n1 d1 hd1
  have hlo1 : (2 : ℚ) ^ 52 ≤ (n1 : ℚ) / d1 := by
    rw [le_div_iff₀ hd1q]
    exact_mod_cast hlo
  have hhi1 : (n1 : ℚ) / d1 < (2 : ℚ) ^ 53 := by
    rw [div_lt_iff₀ hd1q]
    exact_mod_cast hhi
  refine ⟨trivial, ?_, ?_, ?_⟩
  · rw [← hval]
    have : (roundHalfEven n1 d1 : ℚ) * (2 : ℚ) ^ e1 - (n1 : ℚ) / d1 * (2 : ℚ) ^ e1
        = ((roundHalfEven n1 d1 : ℚ) - (n1 : ℚ) / d1) * (2 : ℚ) ^ e1 := by ring
    rw [this, abs_mul, abs_of_pos hpow]
    calc |(roundHalfEven n1 d1 : ℚ) - (n1 : ℚ) / d1| * (2 : ℚ) ^ e1
        ≤ 1 / 2 * (2 : ℚ) ^ e1 := mul_le_mul_of_nonneg_right herr hpow.le
      _ = (2 : ℚ) ^ e1 / 2 := by ring
  · rw [← hval]
    exact mul_le_mul_of_nonneg_right hlo1 hpow.le
  · rw [← hval]
    exact mul_lt_mul_of_pos_right hhi1 hpow

/-- The relative error of rounding to `float64` is at most `2 ^ -53`. -/
theorem round_rel (neg : Bool) (n d : Nat) (hn : 0 < n) (hd : 0 < d)
    (h1 : 2 ^ 52 * d ≤ n * 2 ^ 256) (h2 : n < 2 ^ 53 * d * 2 ^ 256) :
    |(Float64.round neg n d).mag - (n : ℚ) / d| ≤ (n : ℚ) / d / 2 ^ 53 := by
  obtain ⟨_, herr, hlo, _⟩ := round_spec neg n d hn hd h1 h2
  refine herr.trans ?_
  have : (2 : ℚ) ^ (Float64.round neg n d).e ≤ (n : ℚ) / d / 2 ^ 52 := by
    rw [le_div_iff₀ (by positivity)]
    linarith
  calc (2 : ℚ) ^ (Float64.round neg n d).e / 2 ≤ (n : ℚ) / d / 2 ^ 52 / 2 := by linarith
    _ = (n : ℚ) / d / 2 ^ 53 := by ring

/-- An integer below `2 ^ 53` is a `float64`. -/
theorem round_int_exact (neg : Bool) (n : Nat) (hn : 0 < n) (h53 : n < 2 ^ 53) :
    (Float64.round neg n 1).mag = n ∧ (Float64.round neg n 1).neg = neg := by
  have h1 : 2 ^ 52 * 1 ≤ n * 2 ^ 256 := by
    calc 2 ^ 52 * 1 ≤ 1 * 2 ^ 256 := by norm_num
      _ ≤ n * 2 ^ 256 := Nat.mul_le_mul_right _ hn
  have h2 : n < 2 ^ 53 * 1 * 2 ^ 256 := by
    calc n < 2 ^ 53 := h53
      _ ≤ 2 ^ 53 * 1 * 2 ^ 256 := by norm_num
  obtain ⟨hn1, hd1, hlo, hhi, hval⟩ := normalize_spec 256 n 1 0 hn Nat.one_pos h1 h2
  obtain ⟨hneg, _, hlo2, _⟩ := round_spec neg n 1 hn Nat.one_pos h1 h2
  refine ⟨?_, hneg⟩
  rw [round_fields neg n 1 hn.ne'] at hlo2 ⊢
  simp only [Float64.mag] at hlo2 ⊢
  generalize (normalize 256 n 1 0).1 = n1 at *
  generalize (normalize 256 n 1 0).2.1 = d1 at *
  generalize (normalize 256 n 1 0).2.2 = e1 at *
  have hd1q : (0 : ℚ) < d1 := by exact_mod_cast hd1
  have hpow : (0 : ℚ) < (2 : ℚ) ^ e1 := zpow_pos (by norm_num) e1
  simp only [Nat.cast_one, div_one, zpow_zero, mul_one] at hval hlo2
  -- the exponent is not positive
  have he : e1 ≤ 0 := by
    by_contra hpos
    have h1e : (1 : Int) ≤ e1 := by omega
    have : (2 : ℚ) ^ (1 : Int) ≤ (2 : ℚ) ^ e1 := zpow_le_zpow_right₀ (by norm_num) h1e
    have hnq : (n : ℚ) < 2 ^ 53 := by exact_mod_cast h53
    have : (2 : ℚ) ^ 52 * 2 ≤ n := by
      calc (2 : ℚ) ^ 52 * 2 = (2 : ℚ) ^ 52 * (2 : ℚ) ^ (1 : Int) := by norm_num
        _ ≤ (2 : ℚ) ^ 52 * (2 : ℚ) ^ e1 := by gcongr
        _ ≤ n := hlo2
    norm_num at this hnq
    linarith
  -- so the scaled ratio is an integer
  have hk : (2 : ℚ) ^ e1 * (2 : ℚ) ^ (-e1).toNat = 1 := by
    have : ((-e1).toNat : Int) = -e1 := Int.toNat_of_nonneg (by omega)
    rw [← zpow_natCast, this, ← zpow_add₀ (by norm_num : (2 : ℚ) ≠ 0)]
    simp
  have hratio : (n1 : ℚ) / d1 = ((n * 2 ^ (-e1).toNat : Nat) : ℚ) := by
    push_cast
    have : (n1 : ℚ) / d1 = (n : ℚ) / (2 : ℚ) ^ e1 := by
      rw [eq_div_iff hpow.ne']
      exact hval
    rw [this, div_eq_iff hpow.ne', mul_assoc, mul_comm ((2 : ℚ) ^ (-e1).toNat), hk, mul_one]
  have hm : roundHalfEven n1 d1 = n * 2 ^ (-e1).toNat :=
    roundHalfEven_eq n1 d1 _ hd1 (by rw [hratio]; simp)
  rw [hm]
  push_cast
  rw [mul_assoc, mul_comm ((2 : ℚ) ^ (-e1).toNat), hk, mul_one]

/-- `float64(i)` is exact for `0 ≤ i < 2 ^ 53`. -/
theorem ofInt_exact (N : Nat) (h : N < 2 ^ 53) :
    (Float64.ofInt N).mag = N ∧ (Float64.ofInt N).neg = false := by
  unfold Float64.ofInt
  have hneg : decide ((N : Int) < 0) = false := by simp
  rw [hneg, Int.natAbs_ofNat]
  rcases Nat.eq_zero_or_pos N with h0 | hpos
  · subst h0
    rw [round_zero]
    simp [Float64.mag]
  · exact round_int_exact false N hpos h

/-- The bounds on the fuel of `normalize`, from bounds on the ratio. -/
theorem fuel_of_ratio (n d : Nat) (hd : 0 < d)
    (h1 : (2 : ℚ) ^ 52 ≤ (n : ℚ) / d * 2 ^ 256) (h2 : (n : ℚ) / d < 2 ^ 53 * 2 ^ 256) :
    2 ^ 52 * d ≤ n * 2 ^ 256 ∧ n < 2 ^ 53 * d * 2 ^ 256 := by
  have hdq : (0 : ℚ) < d := by exact_mod_cast hd
  constructor
  · have : (2 : ℚ) ^ 52 * d ≤ n * 2 ^ 256 := by
      have := mul_le_mul_of_nonneg_right h1 hdq.le
      calc (2 : ℚ) ^ 52 * d ≤ (n : ℚ) / d * 2 ^ 256 * d := this
        _ = n * 2 ^ 256 := by field_simp
    exact_mod_cast this
  · have : (n : ℚ) < 2 ^ 53 * d * 2 ^ 256 := by
      have := (div_lt_iff₀ hdq).mp h2
      linarith
    exact_mod_cast this

/-- `x / y` in `float64` is the rounded quotient of the values. -/
theorem divNat_rel (x : Float64) (y : Nat) (hy : 0 < y) (hx : 0 < x.mag)
    (h1 : (2 : ℚ) ^ 52 ≤ x.mag / y * 2 ^ 256) (h2 : x.mag / y < 2 ^ 53 * 2 ^ 256) :
    |(x.divNat y).mag - x.mag / y| ≤ x.mag / y / 2 ^ 53 ∧ (x.divNat y).neg = x.neg := by
  have hyq : (0 : ℚ) < y := by exact_mod_cast hy
  have hm : 0 < x.m := by
    rcases Nat.eq_zero_or_pos x.m with h0 | hpos
    · simp [Float64.mag, h0] at hx
    · exact hpos
  unfold Float64.divNat
  split
  · rename_i he
    have hratio : ((x.m * 2 ^ x.e.toNat : Nat) : ℚ) / y = x.mag / y := by
      simp only [Float64.mag]
      push_cast
      rw [← zpow_natCast, Int.toNat_of_nonneg he]
    rw [← hratio] at h1 h2 ⊢
    obtain ⟨f1, f2⟩ := fuel_of_ratio _ y hy h1 h2
    have hn : 0 < x.m * 2 ^ x.e.toNat := Nat.mul_pos hm (by positivity)
    exact ⟨round_rel _ _ _ hn hy f1 f2, (round_spec _ _ _ hn hy f1 f2).1⟩
  · rename_i he
    have hd : 0 < y * 2 ^ (-x.e).toNat := Nat.mul_pos hy (by positivity)
    have hratio : (x.m : ℚ) / ((y * 2 ^ (-x.e).toNat : Nat) : ℚ) = x.mag / y := by
      simp only [Float64.mag]
      push_cast
      have : (((-x.e).toNat : Nat) : Int) = -x.e := Int.toNat_of_nonneg (by omega)
      rw [← zpow_natCast, this, zpow_neg]
      field_simp
    rw [← hratio] at h1 h2 ⊢
    obtain ⟨f1, f2⟩ := fuel_of_ratio _ _ hd h1 h2
    exact ⟨round_rel _ _ _ hm hd f1 f2, (round_spec _ _ _ hm hd f1 f2).1⟩

theorem divNat_zero (x : Float64) (y : Nat) (hx : x.m = 0) :
    (x.divNat y).mag = 0 ∧ (x.divNat y).neg = false := by
  unfold Float64.divNat
  split <;> simp [hx, round_zero, Float64.mag]

theorem scaled_nonneg (x : Float64) (k : Nat) (hneg : x.neg = false) (hk : -x.e ≤ k) :
    ((x.scaled k : Int) : ℚ) = x.mag * 2 ^ k ∧ 0 ≤ x.scaled k := by
  unfold Float64.scaled
  simp only [hneg, Bool.false_eq_true, if_false]
  constructor
  · simp only [Float64.mag]
    push_cast
    have : (((x.e + k).toNat : Nat) : Int) = x.e + k := Int.toNat_of_nonneg (by omega)
    rw [← zpow_natCast (2 : ℚ) (x.e + k).toNat, this, zpow_add₀ (by norm_num : (2 : ℚ) ≠ 0),
      zpow_natCast]
    ring
  · positivity

/-- `x + y` in `float64`, for two values that are not negative, is the
rounded sum of the values. -/
theorem add_rel (x y : Float64) (hx : x.neg = false) (hy : y.neg = false)
    (hpos : 0 < x.mag + y.mag)
    (h1 : (2 : ℚ) ^ 52 ≤ (x.mag + y.mag) * 2 ^ 256)
    (h2 : x.mag + y.mag < 2 ^ 53 * 2 ^ 256) :
    |(x.add y).mag - (x.mag + y.mag)| ≤ (x.mag + y.mag) / 2 ^ 53 ∧ (x.add y).neg = false := by
  unfold Float64.add
  simp only
  generalize hk : (max (-x.e) (max (-y.e) 0)).toNat = k
  have hkx : -x.e ≤ k := by
    have : ((max (-x.e) (max (-y.e) 0)).toNat : Int) = max (-x.e) (max (-y.e) 0) :=
      Int.toNat_of_nonneg (by simp)
    rw [← hk, this]
    exact le_max_left _ _
  have hky : -y.e ≤ k := by
    have : ((max (-x.e) (max (-y.e) 0)).toNat : Int) = max (-x.e) (max (-y.e) 0) :=
      Int.toNat_of_nonneg (by simp)
    rw [← hk, this]
    exact le_trans (le_max_left _ _) (le_max_right _ _)
  obtain ⟨sx, sx0⟩ := scaled_nonneg x k hx hkx
  obtain ⟨sy, sy0⟩ := scaled_nonneg y k hy hky
  have hs0 : 0 ≤ x.scaled k + y.scaled k := by omega
  have hdec : decide (x.scaled k + y.scaled k < 0) = false := by
    simp only [decide_eq_false_iff_not, not_lt]
    exact hs0
  rw [hdec]
  have h2k : (0 : ℚ) < 2 ^ k := by positivity
  have hcast : (((x.scaled k + y.scaled k).natAbs : Nat) : ℚ)
      = (x.mag + y.mag) * 2 ^ k := by
    have : (((x.scaled k + y.scaled k).natAbs : Nat) : Int) = x.scaled k + y.scaled k :=
      Int.natAbs_of_nonneg hs0
    have h3 : ((((x.scaled k + y.scaled k).natAbs : Nat) : Int) : ℚ)
        = ((x.scaled k + y.scaled k : Int) : ℚ) := by rw [this]
    rw [Int.cast_natCast] at h3
    rw [h3]
    push_cast
    rw [sx, sy]
    ring
  have hratio : (((x.scaled k + y.scaled k).natAbs : Nat) : ℚ) / ((2 ^ k : Nat) : ℚ)
      = x.mag + y.mag := by
    rw [hcast]
    push_cast
    field_simp
  have hn : 0 < (x.scaled k + y.scaled k).natAbs := by
    have : (0 : ℚ) < (((x.scaled k + y.scaled k).natAbs : Nat) : ℚ) := by
      rw [hcast]
      positivity
    exact_mod_cast this
  have hd : 0 < 2 ^ k := by positivity
  rw [← hratio] at h1 h2 ⊢
  obtain ⟨f1, f2⟩ := fuel_of_ratio _ _ hd h1 h2
  exact ⟨round_rel _ _ _ hn hd f1 f2, (round_spec _ _ _ hn hd f1 f2).1⟩

set_option maxRecDepth 100000 in
theorem Seconds_zero : FormatFloat9 (Seconds 0)
    = String.mk (Nat.toDigits 10 (0 / 1000000000) ++ '.' :: fixedDigits 9 (0 % 1000000000)) := by
  decide

set_option maxHeartbeats 1600000 in
/-- The seconds of a duration of `D` nanoseconds, as `float64`, lie within
`(t + 2) / 2 ^ 53` of `t = D / 1e9`. -/
theorem Seconds_close (D : Nat) (hpos : 0 < D) (hD : D < 2 ^ 22 * 1000000000) :
    (Seconds (D : Int)).neg = false ∧
    |(Seconds (D : Int)).mag * 1000000000 - D| < 1 / 2 := by
  have hsec : (D : Int).tdiv 1000000000 = ((D / 1000000000 : Nat) : Int) :=
    (Int.ofNat_tdiv D 1000000000).symm
  have hnsec : (D : Int).tmod 1000000000 = ((D % 1000000000 : Nat) : Int) :=
    (Int.ofNat_tmod D 1000000000).symm
  unfold Seconds
  simp only
  rw [hsec, hnsec]
  generalize hA : D / 1000000000 = A
  generalize hB : D % 1000000000 = B
  have hAB : D = 1000000000 * A + B := by
    rw [← hA, ← hB]
    exact (Nat.div_add_mod D 1000000000).symm
  have hBlt : B < 1000000000 := by
    rw [← hB]
    exact Nat.mod_lt _ (by norm_num)
  have hAlt : A < 2 ^ 22 := by omega
  obtain ⟨hX, hXn⟩ := ofInt_exact A (by omega)
  obtain ⟨hY, hYn⟩ := ofInt_exact B (by omega)
  set X := Float64.ofInt (A : Int) with hXdef
  set Y := Float64.ofInt (B : Int) with hYdef
  -- the quotient
  have hAq : (A : ℚ) < 2 ^ 22 := by exact_mod_cast hAlt
  have hBq : (B : ℚ) < 1000000000 := by exact_mod_cast hBlt
  have hB0 : (0 : ℚ) ≤ B := by positivity
  have hA0 : (0 : ℚ) ≤ A := by positivity
  have hQ : |(Y.divNat 1000000000).mag - (B : ℚ) / 1000000000|
        ≤ (B : ℚ) / 1000000000 / 2 ^ 53 ∧ (Y.divNat 1000000000).neg = false := by
    rcases Nat.eq_zero_or_pos B with hz | hBpos
    · have hm : Y.m = 0 := by
        rw [hYdef, hz]
        rfl
      obtain ⟨h1, h2⟩ := divNat_zero Y 1000000000 hm
      rw [h1, hz]
      simp [h2]
    · have hB1 : (1 : ℚ) ≤ B := by exact_mod_cast hBpos
      have := divNat_rel Y 1000000000 (by norm_num) (by rw [hY]; exact_mod_cast hBpos)
        (by rw [hY]; push_cast
            calc (2 : ℚ) ^ 52 ≤ 1 / 1000000000 * 2 ^ 256 := by norm_num
              _ ≤ (B : ℚ) / 1000000000 * 2 ^ 256 := by gcongr)
        (by rw [hY]; push_cast
            calc (B : ℚ) / 1000000000 ≤ 1000000000 / 1000000000 := by gcongr
              _ < 2 ^ 53 * 2 ^ 256 := by norm_num)
      rw [hY, hYn] at this
      push_cast at this
      exact this
  obtain ⟨hQerr, hQn⟩ := hQ
  set Q := Y.divNat 1000000000 with hQdef
  set q : ℚ := (B : ℚ) / 1000000000 with hq
  have hq0 : 0 ≤ q := by positivity
  have hq1 : q < 1 := by
    rw [hq, div_lt_one (by norm_num)]
    exact hBq
  have hQle := (abs_le.mp hQerr)
  have hQlo : q * (1 - 1 / 2 ^ 53) ≤ Q.mag := by
    have := hQle.1
    linarith
  have hQhi : Q.mag ≤ q * (1 + 1 / 2 ^ 53) := by
    have := hQle.2
    linarith
  -- the sum is positive
  have hSpos : 0 < X.mag + Q.mag := by
    rw [hX]
    rcases Nat.eq_zero_or_pos A with hz | hApos
    · have hBpos : 0 < B := by omega
      have hB1 : (1 : ℚ) ≤ B := by exact_mod_cast hBpos
      have : 0 < q := by rw [hq]; positivity
      have : 0 < q * (1 - 1 / 2 ^ 53) := mul_pos this (by norm_num)
      have : (0 : ℚ) ≤ A := hA0
      linarith
    · have : (1 : ℚ) ≤ A := by exact_mod_cast hApos
      have : 0 ≤ q * (1 - 1 / 2 ^ 53) := mul_nonneg hq0 (by norm_num)
      linarith
  have hSlow : (1 : ℚ) / 2000000000 ≤ X.mag + Q.mag := by
    rw [hX]
    rcases Nat.eq_zero_or_pos A with hz | hApos
    · have hBpos : 0 < B := by omega
      have hB1 : (1 : ℚ) ≤ B := by exact_mod_cast hBpos
      have hq9 : (1 : ℚ) / 1000000000 ≤ q := by
        rw [hq]
        gcongr
      have : (1 : ℚ) / 1000000000 * (1 - 1 / 2 ^ 53) ≤ q * (1 - 1 / 2 ^ 53) :=
        mul_le_mul_of_nonneg_right hq9 (by norm_num)
      have h3 : (1 : ℚ) / 2000000000 ≤ 1 / 1000000000 * (1 - 1 / 2 ^ 53) := by norm_num
      linarith
    · have : (1 : ℚ) ≤ A := by exact_mod_cast hApos
      have : 0 ≤ q * (1 - 1 / 2 ^ 53) := mul_nonneg hq0 (by norm_num)
      have h3 : (1 : ℚ) / 2000000000 ≤ 1 := by norm_num
      linarith
  have hShi : X.mag + Q.mag < 2 ^ 22 + 2 := by
    rw [hX]
    have : q * (1 + 1 / 2 ^ 53) < 1 * (1 + 1) := by
      apply mul_lt_mul hq1 (by norm_num) (by norm_num) (by norm_num)
    linarith
  obtain ⟨hSerr, hSn⟩ := add_rel X Q hXn hQn hSpos
    (by calc (2 : ℚ) ^ 52 ≤ 1 / 2000000000 * 2 ^ 256 := by norm_num
          _ ≤ (X.mag + Q.mag) * 2 ^ 256 := by gcongr)
    (by calc X.mag + Q.mag < 2 ^ 22 + 2 := hShi
          _ < 2 ^ 53 * 2 ^ 256 := by norm_num)
  refine ⟨hSn, ?_⟩
  have hSle := abs_le.mp hSerr
  have ht : (D : ℚ) = 1000000000 * (A + q) := by
    rw [hq, hAB]
    push_cast
    field_simp
    ring
  rw [hX] at hSle hShi
  rw [ht, abs_lt]
  have e1 : ((A : ℚ) + Q.mag) / 2 ^ 53 < (2 ^ 22 + 2) / 2 ^ 53 := by
    apply div_lt_div_of_pos_right hShi (by norm_num)
  have e2 : q / 2 ^ 53 < 1 / 2 ^ 53 := by
    apply div_lt_div_of_pos_right hq1 (by norm_num)
  have hQle2 := hQle
  have c1 : (1000000000 : ℚ) * ((2 ^ 22 + 2) / 2 ^ 53 + 1 / 2 ^ 53) < 1 / 2 := by norm_num
  constructor <;> linarith [hSle.1, hSle.2, hQle2.1, hQle2.2, e1, e2, c1]

/-- Below `2 ^ 22` seconds the `float64` rendering with nine fractional
digits is the exact decimal expansion of the nanosecond count. -/
theorem FormatFloat9_Seconds (D : Nat) (hD : D < 2 ^ 22 * 1000000000) :
    FormatFloat9 (Seconds (D : Int))
      = String.mk (Nat.toDigits 10 (D / 1000000000) ++
          '.' :: fixedDigits 9 (D % 1000000000)) := by
  rcases Nat.eq_zero_or_pos D with hz | hpos
  · subst hz
    exact Seconds_zero
  obtain ⟨hneg, hclose⟩ := Seconds_close D hpos hD
  generalize Seconds (D : Int) = x at hneg hclose
  have hn : (if 0 ≤ x.e then x.m * 2 ^ x.e.toNat * 1000000000
      else roundHalfEven (x.m * 1000000000) (2 ^ (-x.e).toNat)) = D := by
    split
    · rename_i he
      have hmag : x.mag = ((x.m * 2 ^ x.e.toNat : Nat) : ℚ) := by
        unfold Float64.mag
        push_cast
        congr 1
        rw [← zpow_natCast]
        congr 1
        exact (Int.toNat_of_nonneg he).symm
      rw [hmag] at hclose
      have h2 : |((x.m * 2 ^ x.e.toNat * 1000000000 : Nat) : ℚ) - D| < 1 := by
        push_cast
        push_cast at hclose
        linarith
      have h3 : |((x.m * 2 ^ x.e.toNat * 1000000000 : Nat) : Int) - (D : Int)| < 1 := by
        exact_mod_cast h2
      have h4 := abs_lt.mp h3
      omega
    · rename_i he
      have he : x.e < 0 := not_le.mp he
      apply roundHalfEven_eq _ _ _ (by positivity)
      have hmag : ((x.m * 1000000000 : Nat) : ℚ) / ((2 ^ (-x.e).toNat : Nat) : ℚ)
          = x.mag * 1000000000 := by
        unfold Float64.mag
        push_cast
        have h2 : ((2 : ℚ) ^ (-x.e).toNat) = (2 : ℚ) ^ (-x.e) := by
          rw [← zpow_natCast]
          congr 1
          exact Int.toNat_of_nonneg (by omega)
        rw [h2, zpow_neg]
        field_simp
        ring
      rw [hmag]
      exact hclose
  unfold FormatFloat9
  simp only [hn, hneg]
  rfl

/-! ### Claims about the recorder -/

/-- C6. For the `AlpTrace` built by `New`, every region made by `Start` and
all arguments, the buffer `Stop` hands to `logfile.Write` is `expectedLine`:
the six fields `time`, `method`, `uri`, `status`, `response_time` and
`body_bytes` in the layout of line 187, closed by a newline, with the values
`T`, `M`, `U`, `S`, `R`, `B`: `M`, `U` the arguments as they are, `S`, `B` the decimal
renderings of `status` and `body_bytes`, `R` the rendering with nine decimals
of the seconds between the start of the region and the first clock reading
of `Stop`, and `T` the RFC3339Nano rendering of the second clock reading of
`Stop`. When the write succeeds the log file grows by exactly that line. `R`
has nine digits after its one decimal point. The elapsed time is the
monotonic reading of the first `time.Now()` of `Stop` minus the monotonic
reading the region took at `Start`, as long as that difference is a
`Duration`; when the difference is `D` nanoseconds with `D < 2 ^ 22 * 1e9`,
`R` is the decimal numeral of `D / 1e9` followed by the point and the nine
digits of `D % 1e9`, so the `float64` arithmetic loses nothing. Of the
reading taken at `Start` only the monotonic part reaches the line: its wall
clock does not, so `T` is not the start of the region. The contents the
pooled buffer had before play no role. -/
theorem Stop_writes_line (c : AlpTrace) (hc : New = some c) (env : Surroundings) (t0 : Time)
    (method uri : String) (status body_bytes : Int) :
    stopBuffer env (c.Start t0) method uri status body_bytes
      = some (expectedLine (env.clock 1).FormatRFC3339Nano method uri (FormatInt status)
          (FormatFloat9 (Seconds ((env.clock 0).Sub t0))) (FormatInt body_bytes)) ∧
    (env.writeFails = false →
      (c.Start t0).Stop env method uri status body_bytes
        = some (env.logfile ++
            expectedLine (env.clock 1).FormatRFC3339Nano method uri (FormatInt status)
              (FormatFloat9 (Seconds ((env.clock 0).Sub t0))) (FormatInt body_bytes))) ∧
    (∃ ip fp, (FormatFloat9 (Seconds ((env.clock 0).Sub t0))).data = ip ++ '.' :: fp ∧
      '.' ∉ ip ∧ fp.length = 9 ∧ ∀ ch ∈ fp, ch.isDigit = true) ∧
    (minDuration ≤ (env.clock 0).mono - t0.mono →
      (env.clock 0).mono - t0.mono ≤ maxDuration →
      (env.clock 0).Sub (c.Start t0).start = (env.clock 0).mono - t0.mono) ∧
    (∀ D : Nat, (env.clock 0).mono - t0.mono = (D : Int) → D < 2 ^ 22 * 1000000000 →
      stopBuffer env (c.Start t0) method uri status body_bytes
        = some (expectedLine (env.clock 1).FormatRFC3339Nano method uri (FormatInt status)
            (String.mk (Nat.toDigits 10 (D / 1000000000) ++
              '.' :: fixedDigits 9 (D % 1000000000)))
            (FormatInt body_bytes))) ∧
    (∀ t1 : Time, t1.mono = t0.mono →
      stopBuffer env (c.Start t1) method uri status body_bytes
        = stopBuffer env (c.Start t0) method uri status body_bytes) ∧
    (∀ prior, stopBuffer { env with pooled := prior } (c.Start t0) method uri status body_bytes
      = stopBuffer env (c.Start t0) method uri status body_bytes) := by
  have hb := stopBuffer_eq c hc env t0 method uri status body_bytes
  refine ⟨hb, ?_, FormatFloat9_shape _, ?_, ?_, ?_, ?_⟩
  · intro hw
    simp [AlpTraceRegion.Stop, hb, hw]
  · intro hlo hhi
    show (env.clock 0).Sub t0 = _
    unfold Time.Sub
    simp only
    rw [if_neg (by omega), if_neg (by omega)]
  · intro D hsub hD
    have hd : (env.clock 0).Sub t0 = (D : Int) := by
      unfold Time.Sub
      simp only
      rw [hsub]
      have h1 : ¬ ((D : Int) < minDuration) := by
        unfold minDuration
        omega
      have h2 : ¬ (maxDuration < (D : Int)) := by
        unfold maxDuration
        norm_num at hD ⊢
        omega
      rw [if_neg h1, if_neg h2]
    rw [hb, hd, FormatFloat9_Seconds D hD]
  · intro t1 h1
    rw [hb, stopBuffer_eq c hc env t1 method uri status body_bytes]
    have hs : (env.clock 0).Sub t1 = (env.clock 0).Sub t0 := by
      unfold Time.Sub
      rw [h1]
    rw [hs]
  · intro prior
    rw [hb]
    exact stopBuffer_eq c hc { env with pooled := prior } t0 method uri status body_bytes

set_option maxRecDepth 100000 in
/-- Witness for C6: `GET /ping` answered with status 200 and 14 bytes. The
region was started at 16:05:59.998 with the monotonic clock at 5 s; `Stop`
reads the clock 2.5 ms later and again a microsecond after that. The line
carries the elapsed 2.5 ms and the second reading, its trailing zeros
dropped. -/
theorem Stop_writes_line_witness :
    New = some demoTrace ∧
    (tokyoSurroundings.clock 0).mono - tokyoStart.mono = ((2500000 : Nat) : Int) ∧
    stopBuffer tokyoSurroundings (demoTrace.Start tokyoStart) "GET" "/ping" 200 14
      = some "\x7b\"time\":\"2024-03-09T16:06:00.000501+09:00\",\"method\":\"GET\",\"uri\":\"/ping\",\"status\":200,\"response_time\":0.002500000,\"body_bytes\":14\x7d\n" :=
  ⟨by decide, by decide,
    ((Stop_writes_line demoTrace (by decide) tokyoSurroundings tokyoStart
        "GET" "/ping" 200 14).2.2.2.2.1 2500000 (by decide) (by decide)).trans (by decide)⟩

/-! ### The written line as a JSON text -/

theorem isDigit_plain (ch : Char) (h : ch.isDigit = true) : jsonPlain ch = true := by
  have h48 : 48 ≤ ch.toNat := by
    simp only [Char.isDigit, Bool.and_eq_true, decide_eq_true_eq] at h
    exact h.1
  have hq : ch ≠ '"' := by
    rintro rfl
    exact absurd h (by decide)
  have hb : ch ≠ '\\' := by
    rintro rfl
    exact absurd h (by decide)
  simp only [jsonPlain, Bool.and_eq_true, bne_iff_ne, ne_eq, decide_eq_true_eq]
  exact ⟨⟨hq, hb⟩, by omega⟩

theorem plain_ne_newline (ch : Char) (h : jsonPlain ch = true) : ch ≠ '\n' := by
  rintro rfl
  exact absurd h (by decide)

theorem isDigit_ne_newline (ch : Char) (h : ch.isDigit = true) : ch ≠ '\n' :=
  plain_ne_newline ch (isDigit_plain ch h)

/-- A text without quote, backslash and control characters is its own JSON
string body. -/
theorem plain_chars (l : List Char) (h : ∀ ch ∈ l, jsonPlain ch = true) : JsonChars l l := by
  induction l with
  | nil => exact JsonChars.nil
  | cons c l ih =>
    exact JsonChars.plain c l l (h c (List.mem_cons_self _ _))
      (ih (fun ch hch => h ch (List.mem_cons_of_mem _ hch)))

theorem padInt_isDigit (x width : Nat) : ∀ ch ∈ padInt x width, ch.isDigit = true := by
  intro ch hch
  simp only [padInt, List.mem_append, List.mem_replicate] at hch
  rcases hch with ⟨_, h⟩ | h
  · rw [h]; decide
  · exact toDigits_isDigit x ch h

theorem padInt_plain (x width : Nat) : ∀ ch ∈ padInt x width, jsonPlain ch = true :=
  fun ch hch => isDigit_plain ch (padInt_isDigit x width ch hch)

theorem appendInt_plain (x : Int) (width : Nat) :
    ∀ ch ∈ appendInt x width, jsonPlain ch = true := by
  intro ch hch
  unfold appendInt at hch
  split at hch
  · rcases List.mem_cons.mp hch with h | h
    · rw [h]; decide
    · exact padInt_plain _ _ ch h
  · exact padInt_plain _ _ ch hch

theorem mem_trimZeros (l : List Char) (ch : Char) (h : ch ∈ trimZeros l) : ch ∈ l := by
  unfold trimZeros at h
  rw [List.mem_reverse] at h
  have := (List.dropWhile_sublist (fun c => c == '0') (l := l.reverse)).subset h
  exact List.mem_reverse.mp this

theorem appendNano_plain (nsec : Nat) : ∀ ch ∈ appendNano nsec, jsonPlain ch = true := by
  intro ch hch
  unfold appendNano at hch
  split at hch
  · simp at hch
  · rcases List.mem_cons.mp hch with h | h
    · rw [h]; decide
    · exact isDigit_plain ch (fixedDigits_isDigit 9 nsec ch (mem_trimZeros _ ch h))

theorem appendZone_plain (offset : Int) : ∀ ch ∈ appendZone offset, jsonPlain ch = true := by
  intro ch hch
  unfold appendZone at hch
  split at hch
  · simp only [List.mem_singleton] at hch
    rw [hch]; decide
  · simp only [List.mem_cons, List.mem_append] at hch
    rcases hch with h | h | h | h
    · rw [h]; split <;> decide
    · exact padInt_plain _ _ ch h
    · rw [h]; decide
    · exact padInt_plain _ _ ch h

/-- The RFC3339Nano rendering holds only digits and the signs `-`, `:`, `T`,
`.`, `Z`, `+`. -/
theorem FormatRFC3339Nano_plain (t : Time) : JsonPlain t.FormatRFC3339Nano := by
  intro ch hch
  simp only [Time.FormatRFC3339Nano, List.mem_append, List.mem_cons, or_assoc] at hch
  rcases hch with h | h | h | h | h | h | h | h | h | h | h | h | h
  · exact appendInt_plain _ _ ch h
  · rw [h]; decide
  · exact padInt_plain _ _ ch h
  · rw [h]; decide
  · exact padInt_plain _ _ ch h
  · rw [h]; decide
  · exact padInt_plain _ _ ch h
  · rw [h]; decide
  · exact padInt_plain _ _ ch h
  · rw [h]; decide
  · exact padInt_plain _ _ ch h
  · exact appendNano_plain _ ch h
  · exact appendZone_plain _ ch h

theorem toDigits_isJsonInt (n : Nat) : IsJsonInt (Nat.toDigits 10 n) := by
  obtain ⟨c, cs, heq, hc, hcs, hz⟩ := toDigits_shape n
  by_cases h0 : c = '0'
  · left
    rw [heq, h0, (hz h0).2]
  · right
    exact ⟨c, cs, heq, hc, h0, hcs⟩

theorem FormatInt_number (i : Int) : JsonNumber (FormatInt i).data := by
  unfold FormatInt
  split
  · have := JsonNumber.mk ['-'] (Nat.toDigits 10 i.natAbs) [] [] (Or.inr rfl)
      (toDigits_isJsonInt _) (Or.inl rfl) (Or.inl rfl)
    simpa [String.data_append, Nat.repr, List.asString] using this
  · have := JsonNumber.mk [] (Nat.toDigits 10 i.natAbs) [] [] (Or.inl rfl)
      (toDigits_isJsonInt _) (Or.inl rfl) (Or.inl rfl)
    simpa [Nat.repr, List.asString] using this

theorem FormatInt_ne_newline (i : Int) : ∀ ch ∈ (FormatInt i).data, ch ≠ '\n' := by
  intro ch hch
  unfold FormatInt at hch
  split at hch
  · simp only [String.data_append, List.mem_append, Nat.repr, List.asString] at hch
    rcases hch with h | h
    · have : ch = '-' := by simpa using h
      rw [this]; decide
    · exact isDigit_ne_newline ch (toDigits_isDigit _ ch h)
  · simp only [Nat.repr, List.asString] at hch
    exact isDigit_ne_newline ch (toDigits_isDigit _ ch hch)

theorem FormatFloat9_number (x : Float64) : JsonNumber (FormatFloat9 x).data := by
  unfold FormatFloat9
  have hfrac : IsDigits (fixedDigits 9
      ((if 0 ≤ x.e then x.m * 2 ^ x.e.toNat * 1000000000
        else roundHalfEven (x.m * 1000000000) (2 ^ (-x.e).toNat)) % 1000000000)) := by
    refine ⟨?_, fixedDigits_isDigit 9 _⟩
    intro h
    have := fixedDigits_length 9
      ((if 0 ≤ x.e then x.m * 2 ^ x.e.toNat * 1000000000
        else roundHalfEven (x.m * 1000000000) (2 ^ (-x.e).toNat)) % 1000000000)
    rw [h] at this
    simp at this
  have := JsonNumber.mk (if x.neg then ['-'] else [])
    (Nat.toDigits 10 ((if 0 ≤ x.e then x.m * 2 ^ x.e.toNat * 1000000000
        else roundHalfEven (x.m * 1000000000) (2 ^ (-x.e).toNat)) / 1000000000))
    ('.' :: fixedDigits 9 ((if 0 ≤ x.e then x.m * 2 ^ x.e.toNat * 1000000000
        else roundHalfEven (x.m * 1000000000) (2 ^ (-x.e).toNat)) % 1000000000)) []
    (by cases x.neg <;> simp) (toDigits_isJsonInt _) (Or.inr ⟨_, rfl, hfrac⟩) (Or.inl rfl)
  simpa using this

theorem FormatFloat9_ne_newline (x : Float64) : ∀ ch ∈ (FormatFloat9 x).data, ch ≠ '\n' := by
  intro ch hch
  unfold FormatFloat9 at hch
  simp only [List.mem_append, List.mem_cons] at hch
  rcases hch with (h | h) | h | h
  · cases hx : x.neg <;> simp [hx] at h
    rw [h]; decide
  · exact isDigit_ne_newline ch (toDigits_isDigit _ ch h)
  · rw [h]; decide
  · exact isDigit_ne_newline ch (fixedDigits_isDigit 9 _ ch h)

theorem expectedLine_eq (T method uri S R B : String) :
    expectedLine T method uri S R B = String.mk (lineText T method uri S R B ++ ['\n']) := by
  apply String.ext
  simp [expectedLine, lineText, memberText, quoted, String.data_append]

theorem quoted_value (s : String) (h : JsonPlain s) : JsonValue (quoted s) (Json.string s) :=
  JsonValue.string s.data s.data (plain_chars s.data h)

theorem number_value (s : String) (h : JsonNumber s.data) : JsonValue s.data (Json.number s) :=
  JsonValue.number s.data h

theorem members_one (name : String) (hn : JsonPlain name) (l : List Char) (v : Json)
    (hv : JsonValue l v) : JsonMembers (memberText name l) [(name, v)] := by
  have := JsonMembers.one [] name.data name.data [] [] l [] v (by simp [IsWs])
    (plain_chars _ hn) (by simp [IsWs]) (by simp [IsWs]) hv (by simp [IsWs])
  simpa [memberText] using this

theorem members_cons (name : String) (hn : JsonPlain name) (l : List Char) (v : Json)
    (rest : List Char) (members : List (String × Json)) (hv : JsonValue l v)
    (hr : JsonMembers rest members) :
    JsonMembers (memberText name l ++ ',' :: rest) ((name, v) :: members) := by
  have := JsonMembers.cons [] name.data name.data [] [] l [] rest v members (by simp [IsWs])
    (plain_chars _ hn) (by simp [IsWs]) (by simp [IsWs]) hv (by simp [IsWs]) hr
  simpa [memberText] using this

/-- The line is a JSON object with the six members, as soon as the two
strings taken from the request need no escaping. -/
theorem lineText_json (t : Time) (method uri : String) (status body_bytes : Int)
    (x : Float64) (hm : JsonPlain method) (hu : JsonPlain uri) :
    JsonValue
      (lineText t.FormatRFC3339Nano method uri (FormatInt status) (FormatFloat9 x)
        (FormatInt body_bytes))
      (Json.object (lineMembers t.FormatRFC3339Nano method uri (FormatInt status)
        (FormatFloat9 x) (FormatInt body_bytes))) := by
  unfold lineText lineMembers
  refine JsonValue.object _ _ ?_
  refine members_cons "time" (by decide) _ _ _ _
    (quoted_value _ (FormatRFC3339Nano_plain t)) ?_
  refine members_cons "method" (by decide) _ _ _ _ (quoted_value _ hm) ?_
  refine members_cons "uri" (by decide) _ _ _ _ (quoted_value _ hu) ?_
  refine members_cons "status" (by decide) _ _ _ _
    (number_value _ (FormatInt_number status)) ?_
  refine members_cons "response_time" (by decide) _ _ _ _
    (number_value _ (FormatFloat9_number x)) ?_
  exact members_one "body_bytes" (by decide) _ _
    (number_value _ (FormatInt_number body_bytes))

theorem lineText_no_newline (t : Time) (method uri : String) (status body_bytes : Int)
    (x : Float64) (hm : JsonPlain method) (hu : JsonPlain uri) :
    '\n' ∉ lineText t.FormatRFC3339Nano method uri (FormatInt status) (FormatFloat9 x)
        (FormatInt body_bytes) := by
  intro hmem
  have ht := fun h => plain_ne_newline '\n' (FormatRFC3339Nano_plain t '\n' h) rfl
  have hm1 := fun h => plain_ne_newline '\n' (hm '\n' h) rfl
  have hu1 := fun h => plain_ne_newline '\n' (hu '\n' h) rfl
  have hs := fun h => FormatInt_ne_newline status '\n' h rfl
  have hb := fun h => FormatInt_ne_newline body_bytes '\n' h rfl
  have hr := fun h => FormatFloat9_ne_newline x '\n' h rfl
  simp [lineText, memberText, quoted] at hmem
  rcases hmem with h | h | h | h | h | h
  · exact ht h
  · exact hm1 h
  · exact hu1 h
  · exact hs h
  · exact hr h
  · exact hb h

/-- C7, as amended. When `method` and `uri` hold no double quote, no
backslash and no control character, the buffer `Stop` hands to
`logfile.Write` is one line: a text without newline, followed by one
newline, and that text is a JSON object whose members `method` and `uri` are
the strings `method` and `uri`. -/
theorem Stop_line_is_json (c : AlpTrace) (hc : New = some c) (env : Surroundings) (t0 : Time)
    (method uri : String) (status body_bytes : Int)
    (hm : JsonPlain method) (hu : JsonPlain uri) :
    ∃ text members,
      stopBuffer env (c.Start t0) method uri status body_bytes
        = some (String.mk (text ++ ['\n'])) ∧
      '\n' ∉ text ∧
      JsonValue text (Json.object members) ∧
      stringMember "method" members = some method ∧
      stringMember "uri" members = some uri := by
  refine ⟨lineText (env.clock 1).FormatRFC3339Nano method uri (FormatInt status)
      (FormatFloat9 (Seconds ((env.clock 0).Sub t0))) (FormatInt body_bytes),
    lineMembers (env.clock 1).FormatRFC3339Nano method uri (FormatInt status)
      (FormatFloat9 (Seconds ((env.clock 0).Sub t0))) (FormatInt body_bytes), ?_, ?_, ?_, ?_, ?_⟩
  · rw [stopBuffer_eq c hc, expectedLine_eq]
  · exact lineText_no_newline _ _ _ _ _ _ hm hu
  · exact lineText_json _ _ _ _ _ _ hm hu
  · simp [lineMembers, stringMember]
  · simp [lineMembers, stringMember]

set_option maxRecDepth 100000 in
/-- Witness for C7: the request `GET /ping`. -/
theorem Stop_line_is_json_witness :
    New = some demoTrace ∧ JsonPlain "GET" ∧ JsonPlain "/ping" ∧
    ∃ text members,
      stopBuffer demoSurroundings (demoTrace.Start demoStart) "GET" "/ping" 200 14
        = some (String.mk (text ++ ['\n'])) ∧
      '\n' ∉ text ∧
      JsonValue text (Json.object members) ∧
      stringMember "method" members = some "GET" ∧
      stringMember "uri" members = some "/ping" :=
  ⟨by decide, by decide, by decide,
    Stop_line_is_json demoTrace (by decide) demoSurroundings demoStart "GET" "/ping" 200 14
      (by decide) (by decide)⟩

set_option maxRecDepth 100000 in
/-- C7 fails as stated: for the uri made of `/a`, a newline and `b` the bytes
written hold two newlines, the first of them inside the line; for a uri
that is one double quote the quote is written unescaped, right before the
closing quote of the member. -/
theorem Stop_line_breaks_on_newline :
    (stopBuffer demoSurroundings (demoTrace.Start demoStart) "GET" "/a\nb" 200 14).map
        (fun bytes => bytes.data.count '\n') = some 2 ∧
    stopBuffer demoSurroundings (demoTrace.Start demoStart) "GET" "\"" 200 14
      = some "\x7b\"time\":\"2024-03-09T07:05:01.002500001Z\",\"method\":\"GET\",\"uri\":\"\"\",\"status\":200,\"response_time\":0.002500000,\"body_bytes\":14\x7d\n" := by
  decide

/-! ## Liveness of the acquisition loop -/

theorem wedge_run : run defaultConfig contendedState wedgeActs = some wedgeState := by
  decide

theorem contended_run : run defaultConfig Sys.init contendedActs = some contendedState := by
  decide

theorem handover_run : (run defaultConfig contendedState handoverActs).isSome = true := by
  decide

/-! ### Moves and their enabledness -/

theorem move_caller (a : Action) (mv : Move) (h : a.move = some mv) :
    a.caller = mv.toAction.caller := by
  cases a <;> simp [Action.move] at h <;> subst h <;> rfl

theorem move_takeToken (a : Action) (i : Nat) (h : a.move = some (Move.takeToken i)) :
    a = Action.takeToken i := by
  cases a <;> simp [Action.move] at h
  subst h; rfl

theorem move_postStop (a : Action) (i : Nat) (h : a.move = some (Move.postStop i)) :
    a = Action.postStop i := by
  cases a <;> simp [Action.move] at h
  subst h; rfl

theorem move_release (a : Action) (i : Nat) (h : a.move = some (Move.release i)) :
    a = Action.release i := by
  cases a <;> simp [Action.move] at h
  subst h; rfl

theorem enabled_takeToken (c : Config) (s : Sys) (i : Nat) (hex : s.exited = false)
    (hp : s.pcOf i = some Pc.acquiring) (ht : 0 < s.startLoggerToken) :
    (Move.takeToken i).enabled c s = true := by
  simp [Move.enabled, Move.toAction, step, hex, hp, ht]

theorem enabled_postStop (c : Config) (s : Sys) (i : Nat) (hex : s.exited = false)
    (hp : s.pcOf i = some Pc.acquiring) (ht : s.stopLoggerToken = 0) :
    (Move.postStop i).enabled c s = true := by
  simp [Move.enabled, Move.toAction, step, hex, hp, ht, chanCap]

theorem enabled_drain (c : Config) (s : Sys) (i : Nat) (hex : s.exited = false)
    (hp : s.pcOf i = some Pc.acquired) : (Move.drain i).enabled c s = true := by
  simp [Move.enabled, Move.toAction, step, hex, hp]

theorem enabled_start (c : Config) (s : Sys) (i : Nat) (hex : s.exited = false)
    (hp : s.pcOf i = some Pc.starting) : (Move.start i).enabled c s = true := by
  simp only [Move.enabled, Move.toAction, step, hex, hp, and_self, if_true]
  split <;> rfl

theorem enabled_wakeStop (c : Config) (s : Sys) (i : Nat) (hex : s.exited = false)
    (hp : s.pcOf i = some Pc.waiting) (ht : 0 < s.stopLoggerToken) :
    (Move.wakeStop i).enabled c s = true := by
  simp [Move.enabled, Move.toAction, step, hex, hp, ht]

theorem enabled_finish (c : Config) (s : Sys) (i : Nat) (wake : Wake) (hex : s.exited = false)
    (hp : s.pcOf i = some (Pc.finalizing wake)) : (Move.finish i).enabled c s = true := by
  simp only [Move.enabled, Move.toAction, step, hex, hp]
  split <;> rfl

theorem enabled_release (c : Config) (s : Sys) (i : Nat) (wake : Wake) (hex : s.exited = false)
    (hp : s.pcOf i = some (Pc.releasing wake)) (ht : s.startLoggerToken = 0) :
    (Move.release i).enabled c s = true := by
  simp [Move.enabled, Move.toAction, step, hex, hp, ht, chanCap]

/-- The token leaves `startLoggerToken` only through the receive of line 101. -/
theorem step_token_cases (c : Config) (s s1 : Sys) (a : Action) (h : step c s a = some s1) :
    (∃ i, a = Action.takeToken i ∧ s1.pcOf i = some Pc.acquired) ∨
      s.startLoggerToken ≤ s1.startLoggerToken := by
  cases a with
  | call id => right; rw [(step_call_inv c s s1 id h).2]
  | takeToken i =>
    left
    obtain ⟨_, hp, _, heq⟩ := step_takeToken_inv c s s1 i h
    refine ⟨i, rfl, ?_⟩
    rw [heq]
    exact pcOf_setPc_self s i _ _ hp
  | postStop i => right; rw [(step_postStop_inv c s s1 i h).2.2.2]
  | drain i => right; rw [(step_drain_inv c s s1 i h).2.2]; exact Nat.le_refl _
  | start i w r => right; rw [(step_start_inv c s s1 i w r h).2.2.1]
  | wakeStop i => right; rw [(step_wakeStop_inv c s s1 i h).2.2.2]; exact Nat.le_refl _
  | wakeTimer i => right; rw [(step_wakeTimer_inv c s s1 i h).2.2]; exact Nat.le_refl _
  | finish i w =>
    right
    obtain ⟨_, wake, _, ht, _⟩ := step_finish_inv c s s1 i w h
    rw [ht]
  | release i =>
    right
    rw [(step_release_inv c s s1 i h).2.2.2]
    exact Nat.le_succ _

/-- A value leaves `stopLoggerToken` only through the drain of line 108 or
the receive of line 136. -/
theorem step_stop_cases (c : Config) (s s1 : Sys) (a : Action) (h : step c s a = some s1) :
    (∃ i, a = Action.drain i) ∨ (∃ i, a = Action.wakeStop i) ∨
      s.stopLoggerToken ≤ s1.stopLoggerToken := by
  cases a with
  | call id => right; right; rw [(step_call_inv c s s1 id h).2]
  | takeToken i =>
    right; right; rw [(step_takeToken_inv c s s1 i h).2.2.2]; exact Nat.le_refl _
  | postStop i =>
    right; right; rw [(step_postStop_inv c s s1 i h).2.2.2]; exact Nat.le_succ _
  | drain i => left; exact ⟨i, rfl⟩
  | start i w r => right; right; rw [(step_start_inv c s s1 i w r h).2.2.2.1]
  | wakeStop i => right; left; exact ⟨i, rfl⟩
  | wakeTimer i =>
    right; right; rw [(step_wakeTimer_inv c s s1 i h).2.2]; exact Nat.le_refl _
  | finish i w =>
    right; right
    obtain ⟨_, wake, _, _, hs, _⟩ := step_finish_inv c s s1 i w h
    rw [hs]
  | release i =>
    right; right; rw [(step_release_inv c s s1 i h).2.2.2]; exact Nat.le_refl _

/-! ### Along an execution -/

theorem exec_step (c : Config) (e : Execution) (hv : e.Valid c) (n : Nat) (a : Action)
    (ha : e.act n = some a) : step c (e.state n) a = some (e.state (n + 1)) := by
  have := hv.2 n
  rw [ha] at this
  exact this

theorem exec_idle (c : Config) (e : Execution) (hv : e.Valid c) (n : Nat)
    (ha : e.act n = none) : e.state (n + 1) = e.state n := by
  have := hv.2 n
  rw [ha] at this
  exact this

theorem exec_inv (c : Config) (e : Execution) (hv : e.Valid c) : ∀ n, Inv (e.state n) := by
  intro n
  induction n with
  | zero => exact reachable_inv c _ hv.1
  | succ n ih =>
    cases ha : e.act n with
    | none => rw [exec_idle c e hv n ha]; exact ih
    | some a => exact step_inv c _ _ a ih (exec_step c e hv n a ha)

/-- One step keeps the process alive when the start and finalize steps in
it do not fail. -/
theorem step_alive (c : Config) (s s1 : Sys) (a : Action) (h : step c s a = some s1)
    (hst : ∀ i w r, a = Action.start i w r → (startBody c w (s.idOf i)).2 = Exit.returned)
    (hfin : ∀ i w wake, a = Action.finish i w → s.pcOf i = some (Pc.finalizing wake) →
      (finalizeBody c w (s.idOf i) wake).2 = Exit.returned) :
    s1.exited = false := by
  have hex := step_exited c s s1 a h
  cases a with
  | call id => rw [(step_call_inv c s s1 id h).2]; exact hex
  | takeToken i => rw [(step_takeToken_inv c s s1 i h).2.2.2]; exact hex
  | postStop i => rw [(step_postStop_inv c s s1 i h).2.2.2]; exact hex
  | drain i => rw [(step_drain_inv c s s1 i h).2.2]; exact hex
  | start i w r =>
    exact ((step_start_inv c s s1 i w r h).2.2.2.2.2 (hst i w r rfl)).1
  | wakeStop i => rw [(step_wakeStop_inv c s s1 i h).2.2.2]; exact hex
  | wakeTimer i => rw [(step_wakeTimer_inv c s s1 i h).2.2]; exact hex
  | finish i w =>
    obtain ⟨_, wake, hp, _, _, _, _, hok⟩ := step_finish_inv c s s1 i w h
    exact (hok (hfin i w wake rfl hp)).1
  | release i => rw [(step_release_inv c s s1 i h).2.2.2]; exact hex

theorem exec_alive (c : Config) (e : Execution) (hv : e.Valid c) (hfin : e.FinalizeOk c)
    (hst : e.StartOk c) (h0 : (e.state 0).exited = false) :
    ∀ n, (e.state n).exited = false := by
  intro n
  induction n with
  | zero => exact h0
  | succ n ih =>
    cases ha : e.act n with
    | none => rw [exec_idle c e hv n ha]; exact ih
    | some a =>
      refine step_alive c _ _ a (exec_step c e hv n a ha) ?_ ?_
      · intro i w r hawk
        exact hst n i w r (by rw [ha, hawk])
      · intro i w wake hawk hp
        exact hfin n i w wake (by rw [ha, hawk]) hp

theorem exec_pc_next (c : Config) (e : Execution) (hv : e.Valid c) (n i : Nat) (p : Pc)
    (hp : (e.state n).pcOf i = some p)
    (hno : ∀ a, e.act n = some a → a.caller ≠ some i) :
    (e.state (n + 1)).pcOf i = some p := by
  cases ha : e.act n with
  | none => rw [exec_idle c e hv n ha]; exact hp
  | some a => exact step_frame c _ _ a i p (exec_step c e hv n a ha) (hno a ha) hp

/-- A call that makes no step from `p` stays at `p`. -/
theorem exec_stays (c : Config) (e : Execution) (hv : e.Valid c) (n i : Nat) (p : Pc)
    (hp : (e.state n).pcOf i = some p)
    (hno : ∀ m, n ≤ m → (e.state m).pcOf i = some p →
      ∀ a, e.act m = some a → a.caller ≠ some i) :
    ∀ m, n ≤ m → (e.state m).pcOf i = some p := by
  intro m hm
  induction m, hm using Nat.le_induction with
  | base => exact hp
  | succ m hm ih => exact exec_pc_next c e hv m i p ih (hno m hm ih)

/-- Weak fairness makes a call move when its move stays enabled as long as
the call stays where it is. -/
theorem exec_moves (c : Config) (e : Execution) (hv : e.Valid c) (mv : Move) (i : Nat)
    (p : Pc) (n : Nat) (hcaller : mv.toAction.caller = some i) (hfair : e.WeakFair c mv)
    (hen : ∀ m, n ≤ m → (e.state m).pcOf i = some p → mv.enabled c (e.state m) = true)
    (hp : (e.state n).pcOf i = some p) :
    ∃ m a, n ≤ m ∧ (e.state m).pcOf i = some p ∧ e.act m = some a ∧ a.caller = some i := by
  by_contra hno
  have stay := exec_stays c e hv n i p hp
    (fun m hm hpm a ha hc => hno ⟨m, a, hm, hpm, ha, hc⟩)
  obtain ⟨m, hm, a, ha, hmv⟩ := hfair n (fun m hm => hen m hm (stay m hm))
  exact hno ⟨m, a, hm, stay m hm, ha, (move_caller a mv hmv).trans hcaller⟩

/-- One step keeps the token in the channel or with a call that goes on,
when the start and finalize steps in it do not fail. -/
theorem step_live (c : Config) (s s1 : Sys) (a : Action) (h : step c s a = some s1)
    (hl : s.Live)
    (hst : ∀ i w r, a = Action.start i w r → (startBody c w (s.idOf i)).2 = Exit.returned)
    (hfin : ∀ i w wake, a = Action.finish i w → s.pcOf i = some (Pc.finalizing wake) →
      (finalizeBody c w (s.idOf i) wake).2 = Exit.returned) :
    s1.Live := by
  rcases hl with ht | ⟨i, p, hp, hlive⟩
  · rcases step_token_cases c s s1 a h with ⟨j, _, hj⟩ | hle
    · exact Or.inr ⟨j, _, hj, rfl⟩
    · exact Or.inl (by omega)
  · by_cases hc : a.caller = some i
    · obtain ⟨p1, hp1, hsrc⟩ := step_source c s s1 a i h hc
      rw [hp] at hp1
      simp only [Option.some.injEq] at hp1
      subst hp1
      cases a with
      | call id => simp [Action.caller] at hc
      | takeToken j => cases p <;> simp [Action.source, Pc.live] at hsrc hlive
      | postStop j => cases p <;> simp [Action.source, Pc.live] at hsrc hlive
      | drain j =>
        simp only [Action.caller, Option.some.injEq] at hc; subst hc
        obtain ⟨_, hpj, heq⟩ := step_drain_inv c s s1 j h
        refine Or.inr ⟨j, Pc.starting, ?_, rfl⟩
        rw [heq]
        exact pcOf_setPc_self s j _ _ hpj
      | start j w r =>
        simp only [Action.caller, Option.some.injEq] at hc; subst hc
        exact Or.inr ⟨j, Pc.waiting,
          ((step_start_inv c s s1 j w r h).2.2.2.2.2 (hst j w r rfl)).2, rfl⟩
      | wakeStop j =>
        simp only [Action.caller, Option.some.injEq] at hc; subst hc
        obtain ⟨_, hpj, _, heq⟩ := step_wakeStop_inv c s s1 j h
        refine Or.inr ⟨j, Pc.finalizing Wake.stopRequest, ?_, rfl⟩
        rw [heq]
        exact pcOf_setPc_self s j _ _ hpj
      | wakeTimer j =>
        simp only [Action.caller, Option.some.injEq] at hc; subst hc
        obtain ⟨_, hpj, heq⟩ := step_wakeTimer_inv c s s1 j h
        refine Or.inr ⟨j, Pc.finalizing Wake.elapsed, ?_, rfl⟩
        rw [heq]
        exact pcOf_setPc_self s j _ _ hpj
      | finish j w =>
        simp only [Action.caller, Option.some.injEq] at hc; subst hc
        obtain ⟨_, wake, hpj, _, _, _, _, hok⟩ := step_finish_inv c s s1 j w h
        exact Or.inr ⟨j, Pc.releasing wake, (hok (hfin j w wake rfl hpj)).2, rfl⟩
      | release j =>
        left
        rw [(step_release_inv c s s1 j h).2.2.2]
        exact Nat.succ_pos _
    · exact Or.inr ⟨i, p, step_frame c s s1 a i p h hc hp, hlive⟩

theorem exec_live (c : Config) (e : Execution) (hv : e.Valid c) (hfin : e.FinalizeOk c)
    (hst : e.StartOk c) (h0 : (e.state 0).Live) : ∀ n, (e.state n).Live := by
  intro n
  induction n with
  | zero => exact h0
  | succ n ih =>
    cases ha : e.act n with
    | none => rw [exec_idle c e hv n ha]; exact ih
    | some a =>
      refine step_live c _ _ a (exec_step c e hv n a ha) ih ?_ ?_
      · intro i w r hawk
        exact hst n i w r (by rw [ha, hawk])
      · intro i w wake hawk hp
        exact hfin n i w wake (by rw [ha, hawk]) hp

/-! ### The holder of the token goes on to release it -/

theorem source_acquiring (a : Action) (h : a.source Pc.acquiring = true) :
    (∃ j, a = Action.takeToken j) ∨ ∃ j, a = Action.postStop j := by
  cases a <;> simp [Action.source] at h ⊢

theorem source_acquired (a : Action) (h : a.source Pc.acquired = true) :
    ∃ j, a = Action.drain j := by
  cases a <;> simp [Action.source] at h ⊢

theorem source_starting (a : Action) (h : a.source Pc.starting = true) :
    ∃ j w r, a = Action.start j w r := by
  cases a <;> simp [Action.source] at h ⊢

theorem source_waiting (a : Action) (h : a.source Pc.waiting = true) :
    (∃ j, a = Action.wakeStop j) ∨ ∃ j, a = Action.wakeTimer j := by
  cases a <;> simp [Action.source] at h ⊢

theorem source_finalizing (a : Action) (wake : Wake)
    (h : a.source (Pc.finalizing wake) = true) : ∃ j w, a = Action.finish j w := by
  cases a <;> simp [Action.source] at h ⊢

theorem source_releasing (a : Action) (wake : Wake)
    (h : a.source (Pc.releasing wake) = true) : ∃ j, a = Action.release j := by
  cases a <;> simp [Action.source] at h ⊢

/-- The action a call makes from `p` fits `p`. -/
theorem exec_source (c : Config) (e : Execution) (hv : e.Valid c) (m i : Nat) (p : Pc)
    (a : Action) (hp : (e.state m).pcOf i = some p) (ha : e.act m = some a)
    (hc : a.caller = some i) : a.source p = true := by
  obtain ⟨p1, hp1, hsrc⟩ := step_source c _ _ a i (exec_step c e hv m a ha) hc
  rw [hp] at hp1
  simp only [Option.some.injEq] at hp1
  rw [hp1]
  exact hsrc

theorem starved_releasing (c : Config) (e : Execution) (x N : Nat) (H : Starved c e x N)
    (i n : Nat) (wake : Wake) (hn : N ≤ n)
    (hp : (e.state n).pcOf i = some (Pc.releasing wake)) : False := by
  obtain ⟨m, a, hm, hpm, ha, hc⟩ := exec_moves c e H.valid (Move.release i) i
    (Pc.releasing wake) n rfl (H.fair.1 _)
    (fun m hm hpm => enabled_release c _ i wake (H.alive m) hpm (H.empty m (by omega))) hp
  obtain ⟨j, hj⟩ := source_releasing a wake (exec_source c e H.valid m i _ a hpm ha hc)
  subst hj
  have heq := (step_release_inv c _ _ j (exec_step c e H.valid m _ ha)).2.2.2
  have h0 := H.empty (m + 1) (by omega)
  rw [heq] at h0
  simp at h0

theorem starved_finalizing (c : Config) (e : Execution) (x N : Nat) (H : Starved c e x N)
    (i n : Nat) (wake : Wake) (hn : N ≤ n)
    (hp : (e.state n).pcOf i = some (Pc.finalizing wake)) : False := by
  obtain ⟨m, a, hm, hpm, ha, hc⟩ := exec_moves c e H.valid (Move.finish i) i
    (Pc.finalizing wake) n rfl (H.fair.1 _)
    (fun m _ hpm => enabled_finish c _ i wake (H.alive m) hpm) hp
  obtain ⟨j, w, hj⟩ := source_finalizing a wake (exec_source c e H.valid m i _ a hpm ha hc)
  subst hj
  simp only [Action.caller, Option.some.injEq] at hc
  subst hc
  obtain ⟨_, wake1, hp1, _, _, _, _, hok⟩ :=
    step_finish_inv c _ _ j w (exec_step c e H.valid m _ ha)
  have hrel := (hok (H.finalizeOk m j w wake1 ha hp1)).2
  exact starved_releasing c e x N H j (m + 1) wake1 (by omega) hrel

theorem starved_waiting (c : Config) (e : Execution) (x N : Nat) (H : Starved c e x N)
    (i n : Nat) (hn : N ≤ n) (hp : (e.state n).pcOf i = some Pc.waiting) : False := by
  have hmove : ∃ m a, n ≤ m ∧ (e.state m).pcOf i = some Pc.waiting ∧ e.act m = some a ∧
      a.caller = some i := by
    by_contra hno
    have stay := exec_stays c e H.valid n i Pc.waiting hp
      (fun m hm hpm a ha hc => hno ⟨m, a, hm, hpm, ha, hc⟩)
    have hstop : ∃ m, n ≤ m ∧ 0 < (e.state m).stopLoggerToken := by
      by_contra hnone
      have hzero : ∀ m, n ≤ m → (e.state m).stopLoggerToken = 0 := by
        intro m hm
        by_contra hpos
        exact hnone ⟨m, hm, by omega⟩
      obtain ⟨m, hm, a, ha, hmv⟩ := H.fair.1 (Move.postStop x) n
        (fun m hm => enabled_postStop c _ x (H.alive m) (H.looping m) (hzero m hm))
      have ha1 := move_postStop a x hmv
      subst ha1
      have heq := (step_postStop_inv c _ _ x (exec_step c e H.valid m _ ha)).2.2.2
      have h1 := hzero (m + 1) (by omega)
      rw [heq] at h1
      simp at h1
    obtain ⟨m0, hm0, hpos⟩ := hstop
    have hkeep : ∀ m, m0 ≤ m → 0 < (e.state m).stopLoggerToken := by
      intro m hm
      induction m, hm using Nat.le_induction with
      | base => exact hpos
      | succ m hm ih =>
        cases ha : e.act m with
        | none => rw [exec_idle c e H.valid m ha]; exact ih
        | some a =>
          have hs := exec_step c e H.valid m a ha
          have hwait := stay m (by omega)
          rcases step_stop_cases c _ _ a hs with ⟨j, hj⟩ | ⟨j, hj⟩ | hle
          · subst hj
            have hpj := (step_drain_inv c _ _ j hs).2.1
            have hji := holders_unique _ (exec_inv c e H.valid m) j i _ _ hpj hwait rfl rfl
            subst hji
            rw [hwait] at hpj
            simp at hpj
          · subst hj
            have hpj := (step_wakeStop_inv c _ _ j hs).2.1
            have hji := holders_unique _ (exec_inv c e H.valid m) j i _ _ hpj hwait rfl rfl
            subst hji
            exact absurd ⟨m, _, by omega, hwait, ha, rfl⟩ hno
          · omega
    obtain ⟨m, hm, a, ha, hmv⟩ := H.fair.1 (Move.wakeStop i) m0
      (fun m hm => enabled_wakeStop c _ i (H.alive m) (stay m (by omega)) (hkeep m hm))
    exact hno ⟨m, a, by omega, stay m (by omega), ha, (move_caller a _ hmv).trans rfl⟩
  obtain ⟨m, a, hm, hpm, ha, hc⟩ := hmove
  have hs := exec_step c e H.valid m a ha
  rcases source_waiting a (exec_source c e H.valid m i _ a hpm ha hc) with ⟨j, hj⟩ | ⟨j, hj⟩
  · subst hj
    simp only [Action.caller, Option.some.injEq] at hc
    subst hc
    have heq := (step_wakeStop_inv c _ _ j hs).2.2.2
    refine starved_finalizing c e x N H j (m + 1) Wake.stopRequest (by omega) ?_
    rw [heq]
    exact pcOf_setPc_self _ j _ _ hpm
  · subst hj
    simp only [Action.caller, Option.some.injEq] at hc
    subst hc
    have heq := (step_wakeTimer_inv c _ _ j hs).2.2
    refine starved_finalizing c e x N H j (m + 1) Wake.elapsed (by omega) ?_
    rw [heq]
    exact pcOf_setPc_self _ j _ _ hpm

theorem starved_starting (c : Config) (e : Execution) (x N : Nat) (H : Starved c e x N)
    (i n : Nat) (hn : N ≤ n) (hp : (e.state n).pcOf i = some Pc.starting) : False := by
  obtain ⟨m, a, hm, hpm, ha, hc⟩ := exec_moves c e H.valid (Move.start i) i
    Pc.starting n rfl (H.fair.1 _)
    (fun m _ hpm => enabled_start c _ i (H.alive m) hpm) hp
  obtain ⟨j, w, r, hj⟩ := source_starting a (exec_source c e H.valid m i _ a hpm ha hc)
  subst hj
  simp only [Action.caller, Option.some.injEq] at hc
  subst hc
  have hw := ((step_start_inv c _ _ j w r (exec_step c e H.valid m _ ha)).2.2.2.2.2
    (H.startOk m j w r ha)).2
  exact starved_waiting c e x N H j (m + 1) (by omega) hw

theorem starved_acquired (c : Config) (e : Execution) (x N : Nat) (H : Starved c e x N)
    (i n : Nat) (hn : N ≤ n) (hp : (e.state n).pcOf i = some Pc.acquired) : False := by
  obtain ⟨m, a, hm, hpm, ha, hc⟩ := exec_moves c e H.valid (Move.drain i) i
    Pc.acquired n rfl (H.fair.1 _)
    (fun m _ hpm => enabled_drain c _ i (H.alive m) hpm) hp
  obtain ⟨j, hj⟩ := source_acquired a (exec_source c e H.valid m i _ a hpm ha hc)
  subst hj
  simp only [Action.caller, Option.some.injEq] at hc
  subst hc
  have heq := (step_drain_inv c _ _ j (exec_step c e H.valid m _ ha)).2.2
  refine starved_starting c e x N H j (m + 1) (by omega) ?_
  rw [heq]
  exact pcOf_setPc_self _ j _ _ hpm

/-- The situation `Starved` cannot arise. -/
theorem not_starved (c : Config) (e : Execution) (x N : Nat) (H : Starved c e x N)
    (hl : (e.state 0).Live) : False := by
  rcases exec_live c e H.valid H.finalizeOk H.startOk hl N with ht | ⟨i, p, hp, hlive⟩
  · have := H.empty N (Nat.le_refl _)
    omega
  · cases p with
    | acquiring => simp [Pc.live] at hlive
    | acquired => exact starved_acquired c e x N H i N (Nat.le_refl _) hp
    | starting => exact starved_starting c e x N H i N (Nat.le_refl _) hp
    | waiting => exact starved_waiting c e x N H i N (Nat.le_refl _) hp
    | finalizing wake => exact starved_finalizing c e x N H i N wake (Nat.le_refl _) hp
    | releasing wake => exact starved_releasing c e x N H i N wake (Nat.le_refl _) hp
    | done => simp [Pc.live] at hlive
    | panicked => simp [Pc.live] at hlive

/-! ### The claim about the acquisition loop -/

theorem session_holds (p : Pc) (h : p.session = true) : p.holds = true ∧ p.live = true := by
  cases p <;> simp [Pc.session, Pc.holds, Pc.live] at h ⊢

/-- C5, as amended. In a fair execution in which no finalize step and no
start step (lines 112-130) of any call fails, started in a live state where
the session of call `j` is waiting, finalizing or releasing and call `x` is
in its acquisition loop: `x` makes the receive of line 101 at some instant,
and `j` made the send of line 174 before that instant. Fairness says
nothing about the timer, so this does not wait for the benchmark duration
to elapse: when the session was still waiting and its timer never fires, it
is the receive of a stop request (line 136) that ended its wait. -/
theorem acquisition_liveness (c : Config) (e : Execution) (x j : Nat) (p : Pc)
    (hv : e.Valid c) (hfair : e.Fair c) (hfin : e.FinalizeOk c) (hst : e.StartOk c)
    (h0 : (e.state 0).exited = false)
    (hx : (e.state 0).pcOf x = some Pc.acquiring)
    (hj : (e.state 0).pcOf j = some p) (hp : p.session = true) :
    ∃ k m, k < m ∧ e.takes k (Move.release j) ∧ e.takes m (Move.takeToken x) ∧
      (p = Pc.waiting → (∀ n, e.act n ≠ some (Action.wakeTimer j)) →
        ∃ k0, k0 < k ∧ e.takes k0 (Move.wakeStop j)) := by
  have hlive : (e.state 0).Live := Or.inr ⟨j, p, hj, (session_holds p hp).2⟩
  have halive := exec_alive c e hv hfin hst h0
  have htake : ∃ m, e.takes m (Move.takeToken x) := by
    by_contra hnever
    have hloop : ∀ n, (e.state n).pcOf x = some Pc.acquiring := by
      intro n
      induction n with
      | zero => exact hx
      | succ n ih =>
        cases ha : e.act n with
        | none => rw [exec_idle c e hv n ha]; exact ih
        | some a =>
          have hs := exec_step c e hv n a ha
          by_cases hc : a.caller = some x
          · rcases source_acquiring a (exec_source c e hv n x _ a ih ha hc) with
              ⟨i, hi⟩ | ⟨i, hi⟩
            · subst hi
              simp only [Action.caller, Option.some.injEq] at hc
              subst hc
              exact absurd ⟨n, _, ha, rfl⟩ hnever
            · subst hi
              rw [(step_postStop_inv c _ _ i hs).2.2.2]
              exact ih
          · exact step_frame c _ _ a x _ hs hc ih
    have hoften : ∀ k, ∃ m, k ≤ m ∧ 0 < (e.state m).startLoggerToken := by
      intro k
      by_contra hno
      refine not_starved c e x k ⟨hv, hfair, hfin, hst, halive, hloop, ?_⟩ hlive
      intro m hm
      by_contra hpos
      exact hno ⟨m, hm, by omega⟩
    obtain ⟨m, _, htk⟩ := hfair.2 x 0 (fun k _ => by
      obtain ⟨m, hm, hpos⟩ := hoften k
      exact ⟨m, hm, enabled_takeToken c _ x (halive m) (hloop m) hpos⟩)
    exact hnever ⟨m, htk⟩
  obtain ⟨m, a, ha, hmv⟩ := htake
  have ha1 := move_takeToken a x hmv
  subst ha1
  have hpos := (step_takeToken_inv c _ _ x (exec_step c e hv m _ ha)).2.2.1
  have hrel : ∃ k, k < m ∧ e.takes k (Move.release j) := by
    by_contra hno
    have sess : ∀ k, k ≤ m → ∃ q, (e.state k).pcOf j = some q ∧ q.session = true := by
      intro k
      induction k with
      | zero => intro _; exact ⟨p, hj, hp⟩
      | succ k ih =>
        intro hk
        obtain ⟨q, hq, hqs⟩ := ih (by omega)
        cases hak : e.act k with
        | none => rw [exec_idle c e hv k hak]; exact ⟨q, hq, hqs⟩
        | some b =>
          have hs := exec_step c e hv k b hak
          by_cases hc : b.caller = some j
          · have hsrc := exec_source c e hv k j q b hq hak hc
            cases q with
            | waiting =>
              rcases source_waiting b hsrc with ⟨i, hi⟩ | ⟨i, hi⟩
              · subst hi
                simp only [Action.caller, Option.some.injEq] at hc
                subst hc
                rw [(step_wakeStop_inv c _ _ i hs).2.2.2]
                exact ⟨_, pcOf_setPc_self _ i _ _ hq, rfl⟩
              · subst hi
                simp only [Action.caller, Option.some.injEq] at hc
                subst hc
                rw [(step_wakeTimer_inv c _ _ i hs).2.2]
                exact ⟨_, pcOf_setPc_self _ i _ _ hq, rfl⟩
            | finalizing wake =>
              obtain ⟨i, w, hi⟩ := source_finalizing b wake hsrc
              subst hi
              simp only [Action.caller, Option.some.injEq] at hc
              subst hc
              obtain ⟨_, wake1, _, _, _, _, hcases, _⟩ := step_finish_inv c _ _ i w hs
              rcases hcases with h1 | h1
              · exact ⟨_, h1, rfl⟩
              · exact ⟨_, h1, rfl⟩
            | releasing wake =>
              obtain ⟨i, hi⟩ := source_releasing b wake hsrc
              subst hi
              simp only [Action.caller, Option.some.injEq] at hc
              subst hc
              exact absurd ⟨k, by omega, _, hak, rfl⟩ hno
            | acquiring => simp [Pc.session] at hqs
            | acquired => simp [Pc.session] at hqs
            | starting => simp [Pc.session] at hqs
            | done => simp [Pc.session] at hqs
            | panicked => simp [Pc.session] at hqs
          · exact ⟨q, step_frame c _ _ b j q hs hc hq, hqs⟩
    obtain ⟨q, hq, hqs⟩ := sess m (Nat.le_refl _)
    obtain ⟨kc, hk, hkp⟩ := pcOf_eq_some hq
    have hcount : 0 < (e.state m).holders := by
      simp only [Sys.holders, Sys.count]
      exact List.countP_pos_iff.mpr
        ⟨kc, List.getElem?_mem hk, by simp [hkp, (session_holds q hqs).1]⟩
    have := (exec_inv c e hv m).token
    omega
  obtain ⟨k, hk, hr⟩ := hrel
  refine ⟨k, m, hk, hr, ⟨_, ha, rfl⟩, ?_⟩
  intro hpw hnotimer
  subst hpw
  by_contra hno
  have hwait : ∀ n, n ≤ k → (e.state n).pcOf j = some Pc.waiting := by
    intro n
    induction n with
    | zero => intro _; exact hj
    | succ n ih =>
      intro hn
      have hq := ih (by omega)
      cases han : e.act n with
      | none => rw [exec_idle c e hv n han]; exact hq
      | some b =>
        have hs := exec_step c e hv n b han
        by_cases hc : b.caller = some j
        · rcases source_waiting b (exec_source c e hv n j _ b hq han hc) with
            ⟨i, hi⟩ | ⟨i, hi⟩
          · subst hi
            simp only [Action.caller, Option.some.injEq] at hc
            subst hc
            exact absurd ⟨n, by omega, _, han, rfl⟩ hno
          · subst hi
            simp only [Action.caller, Option.some.injEq] at hc
            subst hc
            exact absurd han (hnotimer n)
        · exact step_frame c _ _ b j _ hs hc hq
  obtain ⟨b, hb, hbm⟩ := hr
  have hb1 := move_release b j hbm
  subst hb1
  obtain ⟨_, ⟨wake, hrel1⟩, _⟩ := step_release_inv c _ _ j (exec_step c e hv k _ hb)
  rw [hwait k (Nat.le_refl _)] at hrel1
  simp at hrel1

/-! ### Executions made from a finite schedule -/

theorem run_append (c : Config) : ∀ (l1 l2 : List Action) (s : Sys),
    run c s (l1 ++ l2) = (run c s l1).bind (fun s1 => run c s1 l2) := by
  intro l1
  induction l1 with
  | nil => intro l2 s; rfl
  | cons a l1 ih =>
    intro l2 s
    simp only [List.cons_append, run]
    cases step c s a with
    | none => rfl
    | some s1 => simpa using ih l2 s1

theorem run_take_isSome (c : Config) (s0 : Sys) (acts : List Action)
    (h : (run c s0 acts).isSome = true) (n : Nat) :
    (run c s0 (acts.take n)).isSome = true := by
  have := run_append c (acts.take n) (acts.drop n) s0
  rw [List.take_append_drop] at this
  rw [this] at h
  cases hr : run c s0 (acts.take n) with
  | none => rw [hr] at h; simp at h
  | some s => rfl

theorem ofList_valid (c : Config) (s0 : Sys) (acts : List Action) (hr : Reachable c s0)
    (h : (run c s0 acts).isSome = true) : (Execution.ofList c s0 acts).Valid c := by
  refine ⟨by simpa [Execution.ofList, run] using hr, ?_⟩
  intro n
  simp only [Execution.ofList]
  cases ha : acts[n]? with
  | none =>
    have hlen : acts.length ≤ n := by
      by_contra hlt
      rw [List.getElem?_eq_getElem (by omega)] at ha
      simp at ha
    simp only
    rw [List.take_of_length_le hlen, List.take_of_length_le (by omega)]
  | some a =>
    have hlt : n < acts.length := by
      by_contra hge
      rw [List.getElem?_eq_none (by omega)] at ha
      simp at ha
    have htake : acts.take (n + 1) = acts.take n ++ [a] := by
      rw [List.take_succ, ha]
      rfl
    have h1 := run_take_isSome c s0 acts h n
    have h2 := run_take_isSome c s0 acts h (n + 1)
    rw [htake, run_append] at h2
    simp only
    rw [htake, run_append]
    cases hs : run c s0 (acts.take n) with
    | none => rw [hs] at h1; simp at h1
    | some s =>
      rw [hs] at h2
      simp only [Option.bind_some, run] at h2 ⊢
      cases hstep : step c s a with
      | none => simp [hstep] at h2
      | some s1 => simp [hstep]

theorem ofList_state_ge (c : Config) (s0 sf : Sys) (acts : List Action)
    (h : run c s0 acts = some sf) (n : Nat) (hn : acts.length ≤ n) :
    (Execution.ofList c s0 acts).state n = sf := by
  simp [Execution.ofList, List.take_of_length_le hn, h]

/-- An execution made from a finite schedule is fair when no move is enabled
in the state it ends in. -/
theorem ofList_fair (c : Config) (s0 sf : Sys) (acts : List Action)
    (h : run c s0 acts = some sf) (hq : ∀ mv, Move.enabled c sf mv = false) :
    (Execution.ofList c s0 acts).Fair c := by
  constructor
  · intro mv n hen
    have := hen (max n acts.length) (Nat.le_max_left _ _)
    rw [ofList_state_ge c s0 sf acts h _ (Nat.le_max_right _ _), hq mv] at this
    simp at this
  · intro i n hen
    obtain ⟨m, hm, hm1⟩ := hen (max n acts.length) (Nat.le_max_left _ _)
    rw [ofList_state_ge c s0 sf acts h m (by have := Nat.le_max_right n acts.length; omega),
      hq _] at hm1
    simp at hm1

theorem ofList_act_mem (c : Config) (s0 : Sys) (acts : List Action) (n : Nat) (a : Action)
    (h : (Execution.ofList c s0 acts).act n = some a) : a ∈ acts :=
  List.getElem?_mem h

theorem fine_finalizeBody (c : Config) (out id : String) (wake : Wake) :
    (finalizeBody c (World.fine out) id wake).2 = Exit.returned := by
  obtain ⟨_, _, a3⟩ := artifactsPart_facts c (World.fine out)
  obtain ⟨_, _, n3⟩ := notify_facts c (World.fine out) id wake
  obtain ⟨_, _, x3⟩ := andThen_facts (artifactsPart c (World.fine out))
    (notify c (World.fine out) id (decide (wake = Wake.stopRequest)))
  have hok : artifactsOk c (World.fine out) = true := by
    simp [artifactsOk, World.fine]
  have hcmd : commandFails (World.fine out) (markerLine c "stop" id) = false := by
    simp [commandFails, ExecuteCommand, World.fine]
  rw [finalizeBody_eq, x3, a3, n3, hok, hcmd]
  simp

theorem fine_startBody (c : Config) (out id : String) :
    (startBody c (World.fine out) id).2 = Exit.returned := by
  unfold startBody startCommand openCpu openTrace
  cases c.UseTrace <;>
    simp [MustExecuteCommand, ExecuteCommand, World.fine, Run.andThen]

theorem handover_run_eq :
    run defaultConfig contendedState handoverActs = some handoverState := by
  decide

theorem wedge_quiet : ∀ mv, Move.enabled defaultConfig wedgeState mv = false := by
  intro mv
  cases mv with
  | takeToken i =>
    rcases i with _ | _ | _ | i <;>
      simp [Move.enabled, Move.toAction, step, Sys.pcOf, wedgeState]
  | postStop i =>
    rcases i with _ | _ | _ | i <;>
      simp [Move.enabled, Move.toAction, step, Sys.pcOf, wedgeState, chanCap]
  | drain i =>
    rcases i with _ | _ | _ | i <;>
      simp [Move.enabled, Move.toAction, step, Sys.pcOf, wedgeState]
  | start i =>
    rcases i with _ | _ | _ | i <;>
      simp [Move.enabled, Move.toAction, step, Sys.pcOf, wedgeState]
  | wakeStop i =>
    rcases i with _ | _ | _ | i <;>
      simp [Move.enabled, Move.toAction, step, Sys.pcOf, wedgeState]
  | finish i =>
    rcases i with _ | _ | _ | i <;>
      simp [Move.enabled, Move.toAction, step, Sys.pcOf, wedgeState]
  | release i =>
    rcases i with _ | _ | _ | i <;>
      simp [Move.enabled, Move.toAction, step, Sys.pcOf, wedgeState]

theorem handover_quiet : ∀ mv, Move.enabled defaultConfig handoverState mv = false := by
  intro mv
  cases mv with
  | takeToken i =>
    rcases i with _ | _ | _ | i <;>
      simp [Move.enabled, Move.toAction, step, Sys.pcOf, handoverState]
  | postStop i =>
    rcases i with _ | _ | _ | i <;>
      simp [Move.enabled, Move.toAction, step, Sys.pcOf, handoverState, chanCap]
  | drain i =>
    rcases i with _ | _ | _ | i <;>
      simp [Move.enabled, Move.toAction, step, Sys.pcOf, handoverState]
  | start i =>
    rcases i with _ | _ | _ | i <;>
      simp [Move.enabled, Move.toAction, step, Sys.pcOf, handoverState]
  | wakeStop i =>
    rcases i with _ | _ | _ | i <;>
      simp [Move.enabled, Move.toAction, step, Sys.pcOf, handoverState]
  | finish i =>
    rcases i with _ | _ | _ | i <;>
      simp [Move.enabled, Move.toAction, step, Sys.pcOf, handoverState]
  | release i =>
    rcases i with _ | _ | _ | i <;>
      simp [Move.enabled, Move.toAction, step, Sys.pcOf, handoverState]

/-- Witness for C5: the execution `handoverExecution`. -/
theorem acquisition_liveness_witness :
    handoverExecution.Valid defaultConfig ∧ handoverExecution.Fair defaultConfig ∧
    handoverExecution.FinalizeOk defaultConfig ∧ handoverExecution.StartOk defaultConfig ∧
    (handoverExecution.state 0).exited = false ∧
    (handoverExecution.state 0).pcOf 1 = some Pc.acquiring ∧
    (handoverExecution.state 0).pcOf 0 = some Pc.waiting ∧
    ∃ k m, k < m ∧ handoverExecution.takes k (Move.release 0) ∧
      handoverExecution.takes m (Move.takeToken 1) ∧
      (Pc.waiting = Pc.waiting →
        (∀ n, handoverExecution.act n ≠ some (Action.wakeTimer 0)) →
        ∃ k0, k0 < k ∧ handoverExecution.takes k0 (Move.wakeStop 0)) := by
  have hv : handoverExecution.Valid defaultConfig :=
    ofList_valid defaultConfig contendedState handoverActs ⟨contendedActs, contended_run⟩
      handover_run
  have hfair : handoverExecution.Fair defaultConfig :=
    ofList_fair defaultConfig contendedState handoverState handoverActs handover_run_eq
      handover_quiet
  have hfin : handoverExecution.FinalizeOk defaultConfig := by
    intro n i w wake ha _
    have hmem := ofList_act_mem _ _ _ n _ ha
    simp [handoverActs] at hmem
    rcases hmem with ⟨_, hw⟩ | ⟨_, hw⟩ <;> rw [hw] <;> exact fine_finalizeBody _ _ _ _
  have hst : handoverExecution.StartOk defaultConfig := by
    intro n i w r ha
    have hmem := ofList_act_mem _ _ _ n _ ha
    simp [handoverActs] at hmem
    rcases hmem with ⟨_, hw, _⟩ | ⟨_, hw, _⟩ <;> rw [hw] <;> exact fine_startBody _ _ _
  exact ⟨hv, hfair, hfin, hst, rfl, rfl, rfl,
    acquisition_liveness defaultConfig handoverExecution 1 0 Pc.waiting hv hfair hfin hst
      rfl rfl rfl rfl⟩

/-- C5 fails as stated: in `wedgeExecution` the scheduler is fair and no
finalize step fails; at the start the session of call 0 is waiting and call
1 is in its acquisition loop; call 2 takes the token once the session has
released it and panics in `os.Create` before it starts a goroutine. Call 1
never receives the token. -/
theorem wedge_starves :
    wedgeExecution.Valid defaultConfig ∧ wedgeExecution.Fair defaultConfig ∧
    wedgeExecution.FinalizeOk defaultConfig ∧
    (wedgeExecution.state 0).exited = false ∧
    (wedgeExecution.state 0).pcOf 1 = some Pc.acquiring ∧
    (wedgeExecution.state 0).pcOf 0 = some Pc.waiting ∧
    (∀ n, (wedgeExecution.state n).exited = false) ∧
    ∀ m, ¬ wedgeExecution.takes m (Move.takeToken 1) := by
  have hv : wedgeExecution.Valid defaultConfig :=
    ofList_valid defaultConfig contendedState wedgeActs ⟨contendedActs, contended_run⟩
      (by rw [wedge_run]; rfl)
  have hfair : wedgeExecution.Fair defaultConfig :=
    ofList_fair defaultConfig contendedState wedgeState wedgeActs wedge_run wedge_quiet
  have hfin : wedgeExecution.FinalizeOk defaultConfig := by
    intro n i w wake ha _
    have hmem := ofList_act_mem _ _ _ n _ ha
    simp [wedgeActs] at hmem
    rw [hmem.2]
    exact fine_finalizeBody _ _ _ _
  refine ⟨hv, hfair, hfin, rfl, rfl, rfl, ?_, ?_⟩
  · intro n
    by_cases hn : wedgeActs.length ≤ n
    · rw [show wedgeExecution.state n = wedgeState from
        ofList_state_ge defaultConfig contendedState wedgeState wedgeActs wedge_run n hn]
      rfl
    · have hlt : n < 8 := by simpa [wedgeActs] using hn
      interval_cases n <;> decide
  · rintro m ⟨a, ha, hmv⟩
    have hmem := ofList_act_mem _ _ _ m _ ha
    have ha1 := move_takeToken a 1 hmv
    subst ha1
    simp [wedgeActs] at hmem

end Logger
